import Mathlib

/-!
# Willans' formula for the n-th prime: embedding of `WF.hpp`, `WF_base.hpp`, `WF_impl.hpp`

Modelling conventions.

* `mpz_class` values are natural numbers: every arbitrary-precision integer of the
  program is an index, a residue or a sum, and the only subtraction is `j - 1` with
  `1 ≤ j`.
* `unsigned long` is 64 bits wide.  A native loop counter wraps modulo `2 ^ 64`, and the
  native product of the cumulative evaluator is taken modulo `2 ^ 64`.  A native loop can
  therefore fail to terminate, so it runs on `fuel` and returns `none` when the fuel is
  used up.
* A loop over an `mpz_class` counter always terminates; it is unrolled over its trip
  count.
* `mpfr::mpreal` is `ℝ` (exact real arithmetic): `mpfr::const_pi`, `mpfr::cos`,
  `mpfr::pow`, `mpfr::floor` and the division are the real operations.  The summand of
  the inner sum is embedded a second time, as `indicator256`, with every MPFR operation
  rounded to the nearest number of `MPFR_PRECISION = 256` bits (`rnd`).
* Every modulus the program passes to a modular factorial is at least `1`.  With modulus
  `0` the C++ `%` and `mpz_mod` trap; the embedding is used for a modulus `≥ 1` only.
* The statics of the program (`thread_local` and `inline` variables) are passed
  explicitly as a `State`; the two function pointers `modFact` / `innerSum` and the two
  flags set by `init_cumulative` form a `Config`.
-/

namespace WF

/-! ## Machine words and loops -/

/-- `mpz_class::fits_ulong_p`. -/
def fits_ulong_p (x : Nat) : Bool := decide (x < 2 ^ 64)

/-- `mpz_class::get_ui` / `mpz_get_ui`: the least significant 64 bits. -/
def get_ui (x : Nat) : Nat := x % 2 ^ 64

/-- The loop `for (unsigned long w = w0; w <= hi; ++w) s = body(w, s);`.
The counter is a machine word, `++w` wraps.  Arguments: fuel, `w0`, the initial `s`. -/
def ulongFor {σ : Type} (body : Nat → σ → σ) (hi : Nat) : Nat → Nat → σ → Option σ
  | 0, _, _ => none
  | fuel + 1, w, s =>
    if w ≤ hi then ulongFor body hi fuel ((w + 1) % 2 ^ 64) (body w s) else some s

/-- The loop `for (mpz_class w = w0; ...; ++w) s = body(w, s);` unrolled over its trip
count.  Arguments: trip count, `w0`, the initial `s`. -/
def mpzFor {σ : Type} (body : Nat → σ → σ) : Nat → Nat → σ → σ
  | 0, _, s => s
  | k + 1, w, s => mpzFor body k (w + 1) (body w s)

/-- The loop `mpzFor` whose body calls a function that may not return. -/
def mpzLoop {σ : Type} (body : Nat → σ → Option σ) : Nat → Nat → σ → Option σ
  | 0, _, s => some s
  | k + 1, w, s => (body w s).bind (mpzLoop body k (w + 1))

/-! ## Modular factorial evaluator -/

/-- `WF::modFactNotCumulative(j, i)` of `WF.hpp`.  In the native branch `r` is still an
`mpz_class`, so `r * w` is exact. -/
def modFactNotCumulative (fuel j i : Nat) : Option Nat :=
  if fits_ulong_p j && fits_ulong_p i then
    ulongFor (fun w r => (r * w) % get_ui i) (get_ui j) fuel 2 1
  else
    some (mpzFor (fun w r => (r * w) % i) (j + 1 - 2) 2 1)

/-- The `thread_local` statics of `WF::modFactIsCumulative`. -/
structure ModFactCtx where
  initialized : Bool
  r : Nat
  last_j : Nat
  last_mod : Nat
  deriving DecidableEq

/-- The statics at thread start. -/
def ModFactCtx.fresh : ModFactCtx := ⟨false, 0, 0, 0⟩

/-- `WF::modFactIsCumulative(j, mod)`.  In the native branch `rl * w` is an
`unsigned long` product. -/
def modFactIsCumulative (fuel : Nat) (c : ModFactCtx) (j mod : Nat) :
    Option (Nat × ModFactCtx) :=
  let c1 : ModFactCtx := if !c.initialized then ⟨true, 1, 0, mod⟩ else c
  let c2 : ModFactCtx := if mod ≠ c1.last_mod then ⟨c1.initialized, 1, 0, mod⟩ else c1
  if fits_ulong_p mod && fits_ulong_p j then
    (ulongFor (fun w rl => ((rl * w) % 2 ^ 64) % get_ui mod) (get_ui j) fuel
        ((get_ui c2.last_j + 1) % 2 ^ 64) (get_ui c2.r)).map
      fun rl => (rl, ⟨c2.initialized, rl, j, c2.last_mod⟩)
  else
    let r := mpzFor (fun w r => (r * w) % mod) (j + 1 - (c2.last_j + 1)) (c2.last_j + 1) c2.r
    some (r, ⟨c2.initialized, r, j, c2.last_mod⟩)

end WF

namespace WF_base

/-- `WF::modFact(j, i)` of `WF_base.hpp`. -/
def modFact (fuel j i : Nat) : Option Nat :=
  if WF.fits_ulong_p j && WF.fits_ulong_p i then
    WF.ulongFor (fun w r => (r * w) % WF.get_ui i) (WF.get_ui j) fuel 2 1
  else
    some (WF.mpzFor (fun w r => (r * w) % i) (j + 1 - 2) 2 1)

end WF_base

namespace WF

/-! ## Exact real arithmetic -/

/-- `WF::to_mpreal`: the integer as a real number. -/
noncomputable def to_mpreal (z : Nat) : ℝ := (z : ℝ)

/-- `WF::to_mpz`: `mpfr_get_z` with `MPFR_RNDZ`, truncation toward zero.  Only floors of
a square and of a root are converted. -/
noncomputable def to_mpz (x : ℝ) : Nat := (Int.toNat (if 0 ≤ x then ⌊x⌋ else ⌈x⌉))

/-- `mpfr::floor`. -/
noncomputable def floor (x : ℝ) : ℝ := ((⌊x⌋ : ℤ) : ℝ)

/-- The summand of the three inner-sum loops for the index `j` and `mf = modFact(j - 1, j)`:
`to_mpz(floor(cosv * cosv))` with `cosv = cos(((mf_r + 1) / j_r) * const_pi())`. -/
noncomputable def indicator (mf j : Nat) : Nat :=
  let mf_r := to_mpreal mf
  let j_r := to_mpreal j
  let arg := ((mf_r + 1) / j_r) * Real.pi
  let cosv := Real.cos arg
  to_mpz (floor (cosv * cosv))

/-- The summand of the outer loop for `inner_sum`:
`to_mpz(floor(pow(n_r / inner_r, 1 / n_r)))`. -/
noncomputable def rootTerm (n inner_sum : Nat) : Nat :=
  let n_r : ℝ := (n : ℝ)
  let inner_r := to_mpreal inner_sum
  let ratio := n_r / inner_r
  let root_val := ratio ^ ((1 : ℝ) / n_r)
  to_mpz (floor root_val)

/-! ## Configuration and statics -/

/-- The functions the pointer `WF::modFact` can hold. -/
inductive ModFactImpl where
  | modFactIsCumulative
  | modFactNotCumulative
  deriving DecidableEq

/-- The functions the pointer `WF::innerSum` can hold. -/
inductive InnerSumImpl where
  | innerSumIsCumulative
  | innerSumIsCumulative_concurrent
  | innerSumNotCumulative
  deriving DecidableEq

/-- The globals written by `init_cumulative`. -/
structure Config where
  isConcurrent : Bool
  isCumulative : Bool
  modFact : ModFactImpl
  innerSum : InnerSumImpl
  deriving DecidableEq

/-- `WF::init_cumulative(_isConcurrent, _isCumulative)`. -/
def init_cumulative (isConcurrent isCumulative : Bool) : Config :=
  if isCumulative then
    ⟨isConcurrent, isCumulative, .modFactIsCumulative,
      if isConcurrent then .innerSumIsCumulative_concurrent else .innerSumIsCumulative⟩
  else
    ⟨isConcurrent, isCumulative, .modFactNotCumulative, .innerSumNotCumulative⟩

/-- A pair `(last_i, prev)` of inner-sum statics. -/
structure InnerSumCtx where
  last_i : Nat
  prev : Nat
  deriving DecidableEq

/-- The statics seen by one thread. -/
structure State where
  /-- statics of `modFactIsCumulative` (`thread_local`) -/
  mf : ModFactCtx
  /-- `innerSumIsCumulative_last_i`, `innerSumIsCumulative_inner_sum_prev` (process wide) -/
  glob : InnerSumCtx
  /-- `conc::innerSum_last_i`, `conc::innerSum_prev_sum` (`thread_local`) -/
  tl : InnerSumCtx
  deriving DecidableEq

/-- The statics at program start. -/
def State.fresh : State := ⟨ModFactCtx.fresh, ⟨0, 0⟩, ⟨0, 0⟩⟩

/-- A call through the pointer `WF::modFact`. -/
def modFact (cfg : Config) (fuel : Nat) (c : ModFactCtx) (j m : Nat) :
    Option (Nat × ModFactCtx) :=
  match cfg.modFact with
  | .modFactIsCumulative => modFactIsCumulative fuel c j m
  | .modFactNotCumulative => (modFactNotCumulative fuel j m).map fun r => (r, c)

/-! ## Inner sum -/

/-- `WF::innerSumIsCumulative(i)`. -/
noncomputable def innerSumIsCumulative (cfg : Config) (fuel : Nat) (s : State) (i : Nat) :
    Option (Nat × State) :=
  (mpzLoop
      (fun j (s : State) =>
        (modFact cfg fuel s.mf (j - 1) j).map fun p =>
          (⟨p.2, ⟨s.glob.last_i, s.glob.prev + indicator p.1 j⟩, s.tl⟩ : State))
      (i + 1 - (s.glob.last_i + 1)) (s.glob.last_i + 1) s).map
    fun s => (s.glob.prev, ⟨s.mf, ⟨i, s.glob.prev⟩, s.tl⟩)

/-- `WF::innerSumNotCumulative(i)`; the loop state is the statics and `inner_sum`. -/
noncomputable def innerSumNotCumulative (cfg : Config) (fuel : Nat) (s : State) (i : Nat) :
    Option (Nat × State) :=
  (mpzLoop
      (fun j (p : Nat × State) =>
        (modFact cfg fuel p.2.mf (j - 1) j).map fun q =>
          (p.1 + indicator q.1 j, (⟨q.2, p.2.glob, p.2.tl⟩ : State)))
      (i + 1 - 1) 1 (0, s))

/-- `WF::conc::innerSumIsCumulative_concurrent(i)`. -/
noncomputable def innerSumIsCumulative_concurrent (cfg : Config) (fuel : Nat) (s : State)
    (i : Nat) : Option (Nat × State) :=
  (mpzLoop
      (fun j (s : State) =>
        (modFact cfg fuel s.mf (j - 1) j).map fun p =>
          (⟨p.2, s.glob, ⟨s.tl.last_i, s.tl.prev + indicator p.1 j⟩⟩ : State))
      (i + 1 - (s.tl.last_i + 1)) (s.tl.last_i + 1) s).map
    fun s => (s.tl.prev, ⟨s.mf, s.glob, ⟨i, s.tl.prev⟩⟩)

/-- A call through the pointer `WF::innerSum`. -/
noncomputable def innerSum (cfg : Config) (fuel : Nat) (s : State) (i : Nat) :
    Option (Nat × State) :=
  match cfg.innerSum with
  | .innerSumIsCumulative => innerSumIsCumulative cfg fuel s i
  | .innerSumIsCumulative_concurrent => innerSumIsCumulative_concurrent cfg fuel s i
  | .innerSumNotCumulative => innerSumNotCumulative cfg fuel s i

/-- `WF::reset_innerSumCumulative`. -/
def reset_innerSumCumulative (s : State) : State := ⟨s.mf, ⟨0, 0⟩, s.tl⟩

/-- `WF::conc::reset_thread_innerSum`. -/
def reset_thread_innerSum (s : State) : State := ⟨s.mf, s.glob, ⟨0, 0⟩⟩

end WF

namespace WF.seq

/-- `WF::seq::nthPrime(n)`; the loop state is `outer_sum` and the statics. -/
noncomputable def nthPrime (cfg : Config) (fuel : Nat) (s : State) (n : Nat) :
    Option (Nat × State) :=
  let s0 := if cfg.isCumulative then reset_innerSumCumulative s else s
  let limit := 2 ^ n + 1
  mpzLoop
    (fun i (p : Nat × State) =>
      (innerSum cfg fuel p.2 i).map fun q =>
        (if q.1 ≠ 0 then p.1 + rootTerm n q.1 else p.1, q.2))
    (limit - 1) 1 (1, s0)

end WF.seq

namespace WF.conc

/-- `WF::conc::compute_row(i, n)`. -/
noncomputable def compute_row (cfg : Config) (fuel : Nat) (s : State) (i n : Nat) :
    Option (Nat × State) :=
  (innerSum cfg fuel s i).map fun q => (if q.1 = 0 then 0 else rootTerm n q.1, q.2)

/-- The `worker` lambda of `conc::nthPrime`, run on a thread of its own for the range
`[start, end)`: the `thread_local` statics start fresh, `glob` is the process-wide pair.
The result is the value written to `partial_sums[tid]`. -/
noncomputable def worker (cfg : Config) (fuel : Nat) (glob : InnerSumCtx) (n start stop : Nat) :
    Option Nat :=
  let s0 := reset_thread_innerSum ⟨ModFactCtx.fresh, glob, ⟨0, 0⟩⟩
  (mpzLoop
      (fun i (p : Nat × State) =>
        (compute_row cfg fuel p.2 (i + 1) n).map fun q => (p.1 + q.1, q.2))
      (stop - start) start (0, s0)).map Prod.fst

/-- The partition loop of `conc::nthPrime`: the `(start, end)` pairs handed to the
workers.  Arguments: remaining trips, `t`, `start`. -/
def partitionLoop (chunk_size remainder : Nat) : Nat → Nat → Nat → List (Nat × Nat)
  | 0, _, _ => []
  | k + 1, t, start =>
    let stop := start + chunk_size + (if t < remainder then 1 else 0)
    (start, stop) :: partitionLoop chunk_size remainder k (t + 1) stop

/-- The ranges generated for `total_rows` rows and `num_threads` workers. -/
def partitions (total_rows num_threads : Nat) : List (Nat × Nat) :=
  partitionLoop (total_rows / num_threads) (total_rows % num_threads) num_threads 0 0

/-- Joining the workers: the vector `partial_sums`, when every worker returns. -/
def joinAll : List (Option Nat) → Option (List Nat)
  | [] => some []
  | x :: xs => x.bind fun a => (joinAll xs).map fun as => a :: as

/-- `WF::conc::nthPrime(n)`, with `hardware_concurrency` the value returned by
`std::thread::hardware_concurrency()`. -/
noncomputable def nthPrime (cfg : Config) (fuel : Nat) (glob : InnerSumCtx)
    (hardware_concurrency n : Nat) : Option Nat :=
  let total_rows := 2 ^ n
  let num_threads := if hardware_concurrency = 0 then 4 else hardware_concurrency
  let partial_sums :=
    joinAll ((partitions total_rows num_threads).map fun p => worker cfg fuel glob n p.1 p.2)
  partial_sums.map fun ps => ps.foldl (fun outer_sum s => outer_sum + s) 1

end WF.conc

/-! ## The self-contained implementation of `WF_impl.hpp` over `WF_base.hpp`

`to_mpz`, `to_mpreal`, the two real-valued summands and the partition loop of
`WF_impl.hpp` are those of `WF.hpp` word for word; they are reused. -/

namespace WF_impl.seq

/-- `WF::seq::nthPrime(n)` of `WF_impl.hpp`; the inner loop is inlined and starts from
`inner_sum = 0` for every `i`. -/
noncomputable def nthPrime (fuel n : Nat) : Option Nat :=
  let limit := 2 ^ n + 1
  WF.mpzLoop
    (fun i outer_sum =>
      (WF.mpzLoop
          (fun j inner_sum =>
            (WF_base.modFact fuel (j - 1) j).map fun mf => inner_sum + WF.indicator mf j)
          (i + 1 - 1) 1 0).map
        fun inner_sum =>
          if inner_sum ≠ 0 then outer_sum + WF.rootTerm n inner_sum else outer_sum)
    (limit - 1) 1 1

end WF_impl.seq

namespace WF_impl.conc

/-- `WF::conc::compute_row(i, n)` of `WF_impl.hpp`. -/
noncomputable def compute_row (fuel i n : Nat) : Option Nat :=
  (WF.mpzLoop
      (fun j inner_sum =>
        (WF_base.modFact fuel (j - 1) j).map fun mf => inner_sum + WF.indicator mf j)
      (i + 1 - 1) 1 0).map
    fun inner_sum => if inner_sum = 0 then 0 else WF.rootTerm n inner_sum

/-- The `worker` lambda of `conc::nthPrime` of `WF_impl.hpp` for the range `[start, end)`. -/
noncomputable def worker (fuel n start stop : Nat) : Option Nat :=
  WF.mpzLoop
    (fun i local_sum => (compute_row fuel (i + 1) n).map fun q => local_sum + q)
    (stop - start) start 0

/-- `WF::conc::nthPrime(n)` of `WF_impl.hpp`. -/
noncomputable def nthPrime (fuel hardware_concurrency n : Nat) : Option Nat :=
  let total_rows := 2 ^ n
  let num_threads := if hardware_concurrency = 0 then 4 else hardware_concurrency
  let partial_sums :=
    WF.conc.joinAll
      ((WF.conc.partitions total_rows num_threads).map fun p => worker fuel n p.1 p.2)
  partial_sums.map fun ps => ps.foldl (fun outer_sum s => outer_sum + s) 1

end WF_impl.conc

/-! ## The functions of `WF.hpp` with the value of the pointer `modFact` as a parameter

The same functions once more, calling an arbitrary evaluator `ev` where the source calls
through `WF::modFact`. -/

namespace WF

/-- What can stand behind the pointer `WF::modFact`: a function of the statics of the
evaluator and the two arguments. -/
abbrev Evaluator := ModFactCtx → Nat → Nat → Option (Nat × ModFactCtx)

/-- An evaluator that returns only for the calls `modFact(j - 1, j)` with `1 ≤ j ≤ bound`,
and fails for every other call. -/
def onlyRowCalls (bound : Nat) (ev : Evaluator) : Evaluator :=
  fun c j m => if 1 ≤ m ∧ m ≤ bound ∧ j + 1 = m then ev c j m else none

/-- `WF::innerSumIsCumulative(i)` calling `ev`. -/
noncomputable def innerSumIsCumulativeWith (ev : Evaluator) (s : State) (i : Nat) :
    Option (Nat × State) :=
  (mpzLoop
      (fun j (s : State) =>
        (ev s.mf (j - 1) j).map fun p =>
          (⟨p.2, ⟨s.glob.last_i, s.glob.prev + indicator p.1 j⟩, s.tl⟩ : State))
      (i + 1 - (s.glob.last_i + 1)) (s.glob.last_i + 1) s).map
    fun s => (s.glob.prev, ⟨s.mf, ⟨i, s.glob.prev⟩, s.tl⟩)

/-- `WF::innerSumNotCumulative(i)` calling `ev`. -/
noncomputable def innerSumNotCumulativeWith (ev : Evaluator) (s : State) (i : Nat) :
    Option (Nat × State) :=
  (mpzLoop
      (fun j (p : Nat × State) =>
        (ev p.2.mf (j - 1) j).map fun q =>
          (p.1 + indicator q.1 j, (⟨q.2, p.2.glob, p.2.tl⟩ : State)))
      (i + 1 - 1) 1 (0, s))

/-- `WF::conc::innerSumIsCumulative_concurrent(i)` calling `ev`. -/
noncomputable def innerSumIsCumulative_concurrentWith (ev : Evaluator) (s : State) (i : Nat) :
    Option (Nat × State) :=
  (mpzLoop
      (fun j (s : State) =>
        (ev s.mf (j - 1) j).map fun p =>
          (⟨p.2, s.glob, ⟨s.tl.last_i, s.tl.prev + indicator p.1 j⟩⟩ : State))
      (i + 1 - (s.tl.last_i + 1)) (s.tl.last_i + 1) s).map
    fun s => (s.tl.prev, ⟨s.mf, s.glob, ⟨i, s.tl.prev⟩⟩)

/-- A call through the pointer `WF::innerSum`, the accumulators calling `ev`. -/
noncomputable def innerSumWith (cfg : Config) (ev : Evaluator) (s : State) (i : Nat) :
    Option (Nat × State) :=
  match cfg.innerSum with
  | .innerSumIsCumulative => innerSumIsCumulativeWith ev s i
  | .innerSumIsCumulative_concurrent => innerSumIsCumulative_concurrentWith ev s i
  | .innerSumNotCumulative => innerSumNotCumulativeWith ev s i

end WF

namespace WF.seq

/-- `WF::seq::nthPrime(n)`, the accumulators calling `ev`. -/
noncomputable def nthPrimeWith (cfg : Config) (ev : Evaluator) (s : State) (n : Nat) :
    Option (Nat × State) :=
  let s0 := if cfg.isCumulative then reset_innerSumCumulative s else s
  let limit := 2 ^ n + 1
  mpzLoop
    (fun i (p : Nat × State) =>
      (innerSumWith cfg ev p.2 i).map fun q =>
        (if q.1 ≠ 0 then p.1 + rootTerm n q.1 else p.1, q.2))
    (limit - 1) 1 (1, s0)

end WF.seq

namespace WF.conc

/-- `WF::conc::compute_row(i, n)`, the accumulators calling `ev`. -/
noncomputable def compute_rowWith (cfg : Config) (ev : Evaluator) (s : State) (i n : Nat) :
    Option (Nat × State) :=
  (innerSumWith cfg ev s i).map fun q => (if q.1 = 0 then 0 else rootTerm n q.1, q.2)

/-- The `worker` lambda of `conc::nthPrime`, the accumulators calling `ev`. -/
noncomputable def workerWith (cfg : Config) (ev : Evaluator) (glob : InnerSumCtx)
    (n start stop : Nat) : Option Nat :=
  let s0 := reset_thread_innerSum ⟨ModFactCtx.fresh, glob, ⟨0, 0⟩⟩
  (mpzLoop
      (fun i (p : Nat × State) =>
        (compute_rowWith cfg ev p.2 (i + 1) n).map fun q => (p.1 + q.1, q.2))
      (stop - start) start (0, s0)).map Prod.fst

/-- `WF::conc::nthPrime(n)`, the accumulators calling `ev`. -/
noncomputable def nthPrimeWith (cfg : Config) (ev : Evaluator) (glob : InnerSumCtx)
    (hardware_concurrency n : Nat) : Option Nat :=
  let total_rows := 2 ^ n
  let num_threads := if hardware_concurrency = 0 then 4 else hardware_concurrency
  let partial_sums :=
    joinAll ((partitions total_rows num_threads).map fun p => workerWith cfg ev glob n p.1 p.2)
  partial_sums.map fun ps => ps.foldl (fun outer_sum s => outer_sum + s) 1

end WF.conc

/-! ## The summand at the working precision of 256 bits -/

namespace WF

/-- `MPFR_PRECISION`, the precision `init_mpfr` selects. -/
def MPFR_PRECISION : Nat := 256

/-- The nearest integer, a tie going to the even one. -/
noncomputable def roundNearestEven (m : ℝ) : ℤ :=
  if Int.fract m < 1 / 2 then ⌊m⌋
  else if 1 / 2 < Int.fract m then ⌊m⌋ + 1
  else if Even ⌊m⌋ then ⌊m⌋ else ⌊m⌋ + 1

/-- Rounding of MPFR in the mode `MPFR_RNDN` (the default mode of `mpfr::mpreal`, never
changed by the program) at `MPFR_PRECISION` bits: the nearest number `m * 2 ^ k` with an
integer `|m| ≤ 2 ^ 256`, a tie going to the even `m`.  For `2 ^ e ≤ |x| < 2 ^ (e + 1)` the
spacing of these numbers is `2 ^ (e - 255)`.  The exponent range of MPFR is not bounded
here (its default bounds are beyond `2 ^ (± 2 ^ 62)`). -/
noncomputable def rnd (x : ℝ) : ℝ :=
  if x = 0 then 0
  else
    let ulp : ℝ := (2 : ℝ) ^ (Int.log 2 |x| - ((MPFR_PRECISION : ℤ) - 1))
    (roundNearestEven (x / ulp) : ℝ) * ulp

/-- The summand of the inner-sum loops as MPFR computes it: `to_mpreal` (`mpfr_set_z`),
`mpfr::mpreal(1)`, the sum, the quotient, `mpfr::const_pi()`, the product, `mpfr::cos` and
the square are each correctly rounded to `MPFR_PRECISION` bits; `mpfr::floor` of a number
of 256 bits is exact. -/
noncomputable def indicator256 (mf j : Nat) : Nat :=
  let mf_r := rnd (mf : ℝ)
  let j_r := rnd (j : ℝ)
  let arg := rnd (rnd (rnd (mf_r + rnd 1) / j_r) * rnd Real.pi)
  let cosv := rnd (Real.cos arg)
  let cos_sq := rnd (cosv * cosv)
  let floor_val := floor cos_sq
  to_mpz floor_val

end WF

/-! ## Functional description of the loops (used to state and prove the theorems) -/

open Nat

namespace WF

/-- The value the cumulative evaluator computes from its reset state `(r, last_j) = (1, 0)`. -/
def cumResetVal (j m : Nat) : Nat :=
  if m < 2 ^ 64 ∧ j < 2 ^ 64 then
    mpzFor (fun w rl => ((rl * w) % 2 ^ 64) % m) j 1 1
  else
    mpzFor (fun w r => (r * w) % m) j 1 1

/-- The value of the call `modFact(j - 1, j)` made by the inner-sum loops at the index `j`
(for `j = 1` the value returned can depend on the context; it does not matter). -/
def valOf (cfg : Config) (j : Nat) : Nat :=
  match cfg.modFact with
  | .modFactIsCumulative => cumResetVal (j - 1) j
  | .modFactNotCumulative => if 2 ≤ j - 1 then (j - 1)! % j else 1

/-- The summand of the inner-sum loops at the index `j`. -/
noncomputable def indOf (cfg : Config) (j : Nat) : Nat := indicator (valOf cfg j) j

/-- The sum of the summands for the indices `1 .. i`. -/
noncomputable def innerSumVal (cfg : Config) (i : Nat) : Nat :=
  ∑ j in Finset.range i, indOf cfg (j + 1)

/-- The context of the cumulative evaluator is ready for the call at the index `w`:
its modulus is smaller than `w`, or `w = 1`. -/
def MfPre (cfg : Config) (c : ModFactCtx) (w : Nat) : Prop :=
  cfg.modFact = .modFactIsCumulative → c.initialized = true → c.last_mod < w ∨ w = 1

/-- The statics read by `cfg.innerSum` hold the inner sum for `1 .. L`. -/
def CtxOk (cfg : Config) (s : State) (L : Nat) : Prop :=
  (cfg.innerSum = .innerSumIsCumulative → s.glob = ⟨L, innerSumVal cfg L⟩) ∧
  (cfg.innerSum = .innerSumIsCumulative_concurrent → s.tl = ⟨L, innerSumVal cfg L⟩) ∧
  (cfg.innerSum ≠ .innerSumNotCumulative → MfPre cfg s.mf (L + 1))

/-- The contribution of the row `i` to the outer sum. -/
noncomputable def rowVal (cfg : Config) (n i : Nat) : Nat :=
  if innerSumVal cfg i = 0 then 0 else rootTerm n (innerSumVal cfg i)

end WF

namespace WF.conc

/-- The rows `i + 1` a worker passes to `compute_row` in its loop
`for (i = start; i < end; ++i)`. -/
def rowsOf (p : Nat × Nat) : List Nat := (List.range' p.1 (p.2 - p.1)).map (fun i => i + 1)

/-- The `end` of the last range generated by `k` trips of the partition loop. -/
def partEnd (c r k t s : Nat) : Nat := s + k * c + (min (t + k) r - min t r)

end WF.conc

namespace WF

/-- A sequence of calls `(j, mod)` of `modFactIsCumulative` on one context: the values
returned, in order. -/
def callsCumulative (fuel : Nat) : ModFactCtx → List (Nat × Nat) → Option (List Nat)
  | _, [] => some []
  | c, p :: rest =>
    (modFactIsCumulative fuel c p.1 p.2).bind fun q =>
      (callsCumulative fuel q.2 rest).map fun rs => q.1 :: rs

/-- The same calls made to `modFactNotCumulative`. -/
def callsNotCumulative (fuel : Nat) : List (Nat × Nat) → Option (List Nat)
  | [] => some []
  | p :: rest =>
    (modFactNotCumulative fuel p.1 p.2).bind fun r =>
      (callsNotCumulative fuel rest).map fun rs => r :: rs

/-- The value held by the cumulative evaluator after the steps `1 .. j` when no native
product changes its residue by wrapping: `j! % m`, and `1` before the first step. -/
def cumVal (j m : Nat) : Nat := if 1 ≤ j then j ! % m else 1

/-- A sequence of calls of an inner-sum function on the statics: for each call, the value
returned and the statics it leaves. -/
def callsInnerSum (f : State → Nat → Option (Nat × State)) :
    State → List Nat → Option (List (Nat × State))
  | _, [] => some []
  | s, i :: rest => (f s i).bind fun p => (callsInnerSum f p.2 rest).map fun rs => p :: rs

end WF

/-! ## Theorems -/

namespace WF

theorem ulongFor_eq_mpzFor {σ : Type} (body : Nat → σ → σ) (hi : Nat) (hhi : hi + 1 < 2 ^ 64) :
    ∀ (fuel w : Nat) (s : σ), hi + 1 - w < fuel →
      ulongFor body hi fuel w s = some (mpzFor body (hi + 1 - w) w s) := by
  intro fuel
  induction fuel with
  | zero => intro w s h; omega
  | succ f ih =>
    intro w s hf
    by_cases hle : w ≤ hi
    · have hmod : (w + 1) % 2 ^ 64 = w + 1 := Nat.mod_eq_of_lt (by omega)
      have hk : hi + 1 - w = (hi + 1 - (w + 1)) + 1 := by omega
      rw [ulongFor, if_pos hle, hmod, ih (w + 1) (body w s) (by omega), hk, mpzFor]
    · have hk : hi + 1 - w = 0 := by omega
      rw [ulongFor, if_neg hle, hk, mpzFor]

theorem ulongFor_diverges {σ : Type} (body : Nat → σ → σ) (hi : Nat) (hhi : 2 ^ 64 ≤ hi + 1) :
    ∀ (fuel w : Nat) (s : σ), w < 2 ^ 64 → ulongFor body hi fuel w s = none := by
  intro fuel
  induction fuel with
  | zero => intro w s _; rfl
  | succ f ih =>
    intro w s hw
    rw [ulongFor, if_pos (by omega)]
    exact ih _ _ (Nat.mod_lt _ (by norm_num))

theorem mpzFor_mulmod_lt (m : Nat) (hm : 0 < m) :
    ∀ (k w r : Nat), mpzFor (fun w r => (r * w) % m) (k + 1) w r < m := by
  intro k
  induction k with
  | zero => intro w r; simp only [mpzFor]; exact Nat.mod_lt _ hm
  | succ k ih => intro w r; rw [mpzFor]; exact ih _ _

theorem mpzFor_mulmod_modEq (m : Nat) :
    ∀ (k a r : Nat), r % m = a ! % m →
      mpzFor (fun w r => (r * w) % m) k (a + 1) r % m = (a + k)! % m := by
  intro k
  induction k with
  | zero => intro a r h; simpa [mpzFor] using h
  | succ k ih =>
    intro a r h
    rw [mpzFor, ih (a + 1) _ ?_]
    · congr 2; omega
    · rw [Nat.mod_mod, Nat.mul_mod, h, ← Nat.mul_mod, Nat.factorial_succ, Nat.mul_comm]

/-- The exact product loop started at `a + 1` on `a! % m` ends on `(a + k)! % m`. -/
theorem mpzFor_mulmod_fact (m : Nat) (hm : 0 < m) (k a : Nat) :
    mpzFor (fun w r => (r * w) % m) k (a + 1) (a ! % m) = (a + k)! % m := by
  cases k with
  | zero => simp [mpzFor]
  | succ k =>
    rw [← mpzFor_mulmod_modEq m (k + 1) a (a ! % m) (Nat.mod_mod _ _)]
    exact (Nat.mod_eq_of_lt (mpzFor_mulmod_lt m hm k _ _)).symm

/-- The native product loop of the cumulative evaluator is exact for a modulus of at
most `2 ^ 32`. -/
theorem mpzFor_mulmod64_fact (m : Nat) (hm : 0 < m) (hm32 : m ≤ 2 ^ 32) :
    ∀ (k a : Nat),
      mpzFor (fun w rl => ((rl * w) % 2 ^ 64) % m) k (a + 1) (a ! % m) = (a + k)! % m := by
  intro k
  induction k with
  | zero => intro a; simp [mpzFor]
  | succ k ih =>
    intro a
    have hstep : ((a ! % m * (a + 1)) % 2 ^ 64) % m = (a + 1)! % m := by
      by_cases ha : a + 1 ≤ 2 ^ 32
      · have hr : a ! % m < 2 ^ 32 := lt_of_lt_of_le (Nat.mod_lt _ hm) hm32
        have hlt : a ! % m * (a + 1) < 2 ^ 64 := by
          calc a ! % m * (a + 1) < 2 ^ 32 * 2 ^ 32 :=
                Nat.mul_lt_mul_of_lt_of_le hr ha (by norm_num)
            _ = 2 ^ 64 := by norm_num
        rw [Nat.mod_eq_of_lt hlt, Nat.mod_mul_mod, Nat.factorial_succ, Nat.mul_comm]
      · have hma : m ≤ a := by omega
        have h0 : a ! % m = 0 := Nat.mod_eq_zero_of_dvd (Nat.dvd_factorial hm hma)
        have h1 : (a + 1)! % m = 0 :=
          Nat.mod_eq_zero_of_dvd (Nat.dvd_factorial hm (by omega))
        rw [h0, h1]; simp
    rw [mpzFor, hstep, ih (a + 1)]
    congr 2; omega

theorem get_ui_of_lt {x : Nat} (h : x < 2 ^ 64) : get_ui x = x := Nat.mod_eq_of_lt h

theorem fits_ulong_p_iff (x : Nat) : fits_ulong_p x = true ↔ x < 2 ^ 64 := by
  simp [fits_ulong_p]

/-- What the stateless evaluator returns. -/
theorem modFactNotCumulative_eq (fuel j i : Nat) (hi : 0 < i) (hf : j < fuel)
    (ht : j + 1 < 2 ^ 64 ∨ 2 ^ 64 ≤ j ∨ 2 ^ 64 ≤ i) :
    modFactNotCumulative fuel j i = some (if 2 ≤ j then j ! % i else 1) := by
  have hval : mpzFor (fun w r => (r * w) % i) (j + 1 - 2) 2 1 = if 2 ≤ j then j ! % i else 1 := by
    by_cases h2 : 2 ≤ j
    · rw [if_pos h2]
      obtain ⟨k, rfl⟩ : ∃ k, j = k + 2 := ⟨j - 2, by omega⟩
      have h1 := mpzFor_mulmod_modEq i (k + 1) 1 1 (by simp)
      have h2 := mpzFor_mulmod_lt i hi k 2 1
      have e : k + 2 + 1 - 2 = k + 1 := by omega
      rw [e, ← Nat.mod_eq_of_lt h2, h1]
      congr 2; omega
    · rw [if_neg h2]
      have e : j + 1 - 2 = 0 := by omega
      rw [e, mpzFor]
  unfold modFactNotCumulative
  by_cases hfit : fits_ulong_p j && fits_ulong_p i
  · rw [if_pos hfit]
    simp only [Bool.and_eq_true, fits_ulong_p_iff] at hfit
    have hj : j + 1 < 2 ^ 64 := by omega
    rw [get_ui_of_lt hfit.1, get_ui_of_lt hfit.2,
      ulongFor_eq_mpzFor _ j hj fuel 2 1 (by omega), hval]
  · rw [if_neg hfit, hval]

/-- The stateless evaluator does not return on the native path for `j = 2 ^ 64 - 1`. -/
theorem modFactNotCumulative_diverges (fuel i : Nat) (hi : i < 2 ^ 64) :
    modFactNotCumulative fuel (2 ^ 64 - 1) i = none := by
  unfold modFactNotCumulative
  have hfit : (fits_ulong_p (2 ^ 64 - 1) && fits_ulong_p i) = true := by
    simp only [Bool.and_eq_true, fits_ulong_p_iff]; omega
  rw [if_pos hfit]
  exact ulongFor_diverges _ _ (by rw [get_ui_of_lt (by norm_num)]; norm_num) fuel 2 1 (by norm_num)

/-- A call of the cumulative evaluator that resets (first use, or changed modulus). -/
theorem modFactIsCumulative_reset (fuel : Nat) (c : ModFactCtx) (j m : Nat)
    (hreset : c.initialized = false ∨ c.last_mod ≠ m)
    (ht : j + 1 < 2 ^ 64 ∨ 2 ^ 64 ≤ m ∨ 2 ^ 64 ≤ j) (hf : j < fuel) :
    modFactIsCumulative fuel c j m
      = some (cumResetVal j m, ⟨true, cumResetVal j m, j, m⟩) := by
  have hc2 : (if m ≠ (if (!c.initialized) = true then (⟨true, 1, 0, m⟩ : ModFactCtx) else c).last_mod
      then (⟨(if (!c.initialized) = true then (⟨true, 1, 0, m⟩ : ModFactCtx) else c).initialized,
        1, 0, m⟩ : ModFactCtx)
      else (if (!c.initialized) = true then (⟨true, 1, 0, m⟩ : ModFactCtx) else c))
      = ⟨true, 1, 0, m⟩ := by
    rcases c with ⟨ini, r, lj, lm⟩
    cases ini with
    | false => simp
    | true =>
      have : lm ≠ m := by simpa using hreset
      have h' : m ≠ lm := fun h => this h.symm
      simp [h']
  unfold modFactIsCumulative
  simp only [hc2]
  by_cases hfit : fits_ulong_p m && fits_ulong_p j
  · rw [if_pos hfit]
    simp only [Bool.and_eq_true, fits_ulong_p_iff] at hfit
    have hj : j + 1 < 2 ^ 64 := by omega
    have e1 : (get_ui 0 + 1) % 2 ^ 64 = 1 := by decide
    have e2 : get_ui 1 = 1 := by decide
    rw [get_ui_of_lt hfit.1, get_ui_of_lt hfit.2, e1, e2,
      ulongFor_eq_mpzFor _ j hj fuel 1 1 (by omega), cumResetVal, if_pos hfit]
    rfl
  · rw [if_neg hfit]
    simp only [Bool.and_eq_true, fits_ulong_p_iff] at hfit
    rw [cumResetVal, if_neg hfit]
    have e : j + 1 - (0 + 1) = j := by omega
    simp only [e, Nat.zero_add]

/-- The reset value is `j! % m`, when the native product cannot overflow. -/
theorem cumResetVal_eq (j m : Nat) (hm : 0 < m)
    (hp : m ≤ 2 ^ 32 ∨ 2 ^ 64 ≤ m ∨ 2 ^ 64 ≤ j) :
    cumResetVal j m = if 1 ≤ j then j ! % m else 1 := by
  unfold cumResetVal
  cases j with
  | zero => simp [mpzFor]
  | succ k =>
    have hpos : (if 1 ≤ k + 1 then (k + 1)! % m else 1) = (k + 1)! % m := if_pos (by omega)
    rw [hpos]
    by_cases hfit : m < 2 ^ 64 ∧ (k + 1) < 2 ^ 64
    · rw [if_pos hfit]
      have hm32 : m ≤ 2 ^ 32 := by omega
      have h := mpzFor_mulmod64_fact m hm hm32 k 1
      rw [mpzFor]
      simp only [Nat.one_mul, Nat.factorial_one] at h ⊢
      rw [Nat.mod_eq_of_lt (a := 1) (by norm_num), h]
      congr 2; omega
    · rw [if_neg hfit]
      have h := mpzFor_mulmod_fact m hm k 1
      rw [mpzFor]
      simp only [Nat.one_mul, Nat.factorial_one] at h ⊢
      rw [h]
      congr 2; omega

/-- A call of the cumulative evaluator: after a reset, or continuing from a context that
holds `last_j! % m` with `last_j ≤ j`. -/
theorem modFactIsCumulative_eq (fuel : Nat) (c : ModFactCtx) (j m : Nat) (hm : 2 ≤ m)
    (hp : (m ≤ 2 ^ 32 ∧ j + 1 < 2 ^ 64) ∨ 2 ^ 64 ≤ m ∨ 2 ^ 64 ≤ j) (hf : j < fuel)
    (hc : c.initialized = false ∨ c.last_mod ≠ m ∨ (c.last_j ≤ j ∧ c.r = c.last_j ! % m)) :
    modFactIsCumulative fuel c j m = some (j ! % m, ⟨true, j ! % m, j, m⟩) := by
  have hm0 : 0 < m := by omega
  by_cases hreset : c.initialized = false ∨ c.last_mod ≠ m
  · rw [modFactIsCumulative_reset fuel c j m hreset (by omega) hf,
      cumResetVal_eq j m hm0 (by omega)]
    by_cases hj : 1 ≤ j
    · simp [hj]
    · have : j = 0 := by omega
      subst this
      have : 1 % m = 1 := Nat.mod_eq_of_lt (by omega)
      simp [this]
  · have hini : c.initialized = true := by
      cases h : c.initialized with
      | false => exact absurd (Or.inl h) hreset
      | true => rfl
    have hmod : c.last_mod = m := by
      by_contra h; exact hreset (Or.inr h)
    have hmono : c.last_j ≤ j ∧ c.r = c.last_j ! % m := by
      rcases hc with h | h | h
      · exact absurd (Or.inl h) hreset
      · exact absurd hmod h
      · exact h
    rcases c with ⟨ini, r, lj, lm⟩
    simp only at hini hmod hmono
    subst hini; subst hmod
    obtain ⟨hle, hr⟩ := hmono
    subst hr
    have hk : lj + (j + 1 - (lj + 1)) = j := by omega
    unfold modFactIsCumulative
    simp only [Bool.not_true, Bool.false_eq_true, if_false, ne_eq, not_true_eq_false]
    by_cases hfit : fits_ulong_p lm && fits_ulong_p j
    · rw [if_pos hfit]
      simp only [Bool.and_eq_true, fits_ulong_p_iff] at hfit
      have hm32 : lm ≤ 2 ^ 32 := by omega
      have hj : j + 1 < 2 ^ 64 := by omega
      have hrlt : lj ! % lm < 2 ^ 64 :=
        lt_of_lt_of_le (Nat.mod_lt _ hm0) (le_trans hm32 (by norm_num))
      rw [get_ui_of_lt hfit.1, get_ui_of_lt hfit.2, get_ui_of_lt hrlt,
        get_ui_of_lt (by omega : lj < 2 ^ 64), Nat.mod_eq_of_lt (by omega : lj + 1 < 2 ^ 64),
        ulongFor_eq_mpzFor _ j hj fuel (lj + 1) _ (by omega),
        mpzFor_mulmod64_fact lm hm0 hm32, hk]
      rfl
    · rw [if_neg hfit]
      simp only [mpzFor_mulmod_fact lm hm0, hk]

theorem to_mpz_floor (y : ℝ) : to_mpz (floor y) = ⌊y⌋.toNat := by
  unfold to_mpz floor
  simp

/-- The indicator is `1` exactly when `j` divides `mf + 1`. -/
theorem indicator_eq (mf j : Nat) (hj : 0 < j) :
    indicator mf j = if j ∣ mf + 1 then 1 else 0 := by
  have hj0 : (j : ℝ) ≠ 0 := by exact_mod_cast hj.ne'
  have hsq : ∀ x : ℝ, Real.cos x * Real.cos x = 1 - Real.sin x ^ 2 := by
    intro x; rw [← Real.cos_sq' x]; ring
  unfold indicator
  simp only [to_mpz_floor, to_mpreal]
  by_cases hd : j ∣ mf + 1
  · rw [if_pos hd]
    obtain ⟨k, hk⟩ := hd
    have hsin : Real.sin ((((mf : ℝ) + 1) / (j : ℝ)) * Real.pi) = 0 := by
      rw [Real.sin_eq_zero_iff]
      refine ⟨(k : ℤ), ?_⟩
      have : ((mf : ℝ) + 1) = (j : ℝ) * (k : ℝ) := by exact_mod_cast hk
      rw [this]
      field_simp
    rw [hsq, hsin]
    norm_num
  · rw [if_neg hd]
    have hsin : Real.sin ((((mf : ℝ) + 1) / (j : ℝ)) * Real.pi) ≠ 0 := by
      intro h
      rw [Real.sin_eq_zero_iff] at h
      obtain ⟨n, hn⟩ := h
      have hpi : Real.pi ≠ 0 := Real.pi_ne_zero
      have h1 : (n : ℝ) = ((mf : ℝ) + 1) / (j : ℝ) := mul_right_cancel₀ hpi hn
      have h2 : (n : ℝ) * (j : ℝ) = (mf : ℝ) + 1 := by
        rw [h1]; field_simp
      have h3 : n * (j : ℤ) = ((mf + 1 : ℕ) : ℤ) := by exact_mod_cast h2
      have h4 : (j : ℤ) ∣ ((mf + 1 : ℕ) : ℤ) := ⟨n, by rw [← h3]; ring⟩
      exact hd (Int.natCast_dvd_natCast.mp h4)
    have hpos : 0 < Real.sin ((((mf : ℝ) + 1) / (j : ℝ)) * Real.pi) ^ 2 := by positivity
    have hle : Real.sin ((((mf : ℝ) + 1) / (j : ℝ)) * Real.pi) ^ 2 ≤ 1 := Real.sin_sq_le_one _
    rw [hsq]
    have hfl : ⌊1 - Real.sin ((((mf : ℝ) + 1) / (j : ℝ)) * Real.pi) ^ 2⌋ = 0 := by
      rw [Int.floor_eq_iff]
      constructor
      · simpa using hle
      · simpa using hpos
    rw [hfl]; rfl

/-- The root term is `1` while `inner_sum ≤ n` and `0` afterwards. -/
theorem rootTerm_eq (n s : Nat) (hn : 0 < n) (hs : 0 < s) :
    rootTerm n s = if s ≤ n then 1 else 0 := by
  have hn0 : (0 : ℝ) < (n : ℝ) := by exact_mod_cast hn
  have hs0 : (0 : ℝ) < (s : ℝ) := by exact_mod_cast hs
  have hexp : (0 : ℝ) < 1 / (n : ℝ) := by positivity
  have hratio : (0 : ℝ) ≤ (n : ℝ) / (s : ℝ) := by positivity
  unfold rootTerm
  simp only [to_mpz_floor, to_mpreal]
  by_cases h : s ≤ n
  · rw [if_pos h]
    have hsn : (s : ℝ) ≤ (n : ℝ) := by exact_mod_cast h
    have h1 : (1 : ℝ) ≤ (n : ℝ) / (s : ℝ) := by
      rw [le_div_iff₀ hs0]; simpa using hsn
    have hlow : (1 : ℝ) ≤ ((n : ℝ) / (s : ℝ)) ^ ((1 : ℝ) / (n : ℝ)) :=
      Real.one_le_rpow h1 hexp.le
    have hup1 : (n : ℝ) / (s : ℝ) < (2 : ℝ) ^ n := by
      have h2 : (n : ℝ) / (s : ℝ) ≤ (n : ℝ) := by
        rw [div_le_iff₀ hs0]
        have : (1 : ℝ) ≤ (s : ℝ) := by exact_mod_cast hs
        nlinarith
      have h3 : (n : ℝ) < (2 : ℝ) ^ n := by exact_mod_cast Nat.lt_two_pow n
      linarith
    have hup : ((n : ℝ) / (s : ℝ)) ^ ((1 : ℝ) / (n : ℝ)) < 2 := by
      have := Real.rpow_lt_rpow hratio hup1 hexp
      rw [one_div, Real.pow_rpow_inv_natCast (by norm_num) hn.ne'] at this
      rwa [one_div]
    have hfl : ⌊((n : ℝ) / (s : ℝ)) ^ ((1 : ℝ) / (n : ℝ))⌋ = 1 := by
      rw [Int.floor_eq_iff]
      constructor
      · simpa using hlow
      · have : ((1 : ℤ) : ℝ) + 1 = 2 := by norm_num
        rw [this]; exact hup
    rw [hfl]; rfl
  · rw [if_neg h]
    have hsn : (n : ℝ) < (s : ℝ) := by exact_mod_cast (Nat.lt_of_not_le h)
    have h1 : (n : ℝ) / (s : ℝ) < 1 := by
      rw [div_lt_one hs0]; exact hsn
    have hup : ((n : ℝ) / (s : ℝ)) ^ ((1 : ℝ) / (n : ℝ)) < 1 :=
      Real.rpow_lt_one hratio h1 hexp
    have hlow : (0 : ℝ) ≤ ((n : ℝ) / (s : ℝ)) ^ ((1 : ℝ) / (n : ℝ)) :=
      Real.rpow_nonneg hratio _
    have hfl : ⌊((n : ℝ) / (s : ℝ)) ^ ((1 : ℝ) / (n : ℝ))⌋ = 0 := by
      rw [Int.floor_eq_iff]
      constructor
      · simpa using hlow
      · simpa using hup
    rw [hfl]; rfl

theorem indicator_one (v : Nat) : indicator v 1 = 1 := by
  rw [indicator_eq v 1 (by norm_num)]; simp

/-- The call `modFact(0, 1)` of the cumulative evaluator returns from every context. -/
theorem modFactIsCumulative_zero_one (fuel : Nat) (c : ModFactCtx) (hf : 2 ≤ fuel) :
    ∃ v r, modFactIsCumulative fuel c 0 1 = some (v, ⟨true, r, 0, 1⟩) := by
  by_cases hreset : c.initialized = false ∨ c.last_mod ≠ 1
  · exact ⟨_, _, modFactIsCumulative_reset fuel c 0 1 hreset (by norm_num) (by omega)⟩
  · have hini : c.initialized = true := by
      cases h : c.initialized with
      | false => exact absurd (Or.inl h) hreset
      | true => rfl
    have hmod : c.last_mod = 1 := by
      by_contra h; exact hreset (Or.inr h)
    rcases c with ⟨ini, r, lj, lm⟩
    simp only at hini hmod
    subst hini; subst hmod
    obtain ⟨f, rfl⟩ : ∃ f, fuel = f + 2 := ⟨fuel - 2, by omega⟩
    unfold modFactIsCumulative
    have hfit : (fits_ulong_p 1 && fits_ulong_p 0) = true := by decide
    have h0 : get_ui 0 = 0 := by decide
    simp only [Bool.not_true, Bool.false_eq_true, if_false, ne_eq, not_true_eq_false, hfit,
      if_true, h0]
    by_cases hw : (get_ui lj + 1) % 2 ^ 64 ≤ 0
    · have hw0 : (get_ui lj + 1) % 2 ^ 64 = 0 := by omega
      rw [hw0, ulongFor, if_pos (le_refl 0), ulongFor, if_neg (by norm_num)]
      exact ⟨_, _, rfl⟩
    · rw [ulongFor, if_neg hw]
      exact ⟨_, _, rfl⟩

/-- One call `modFact(j - 1, j)` of an inner-sum loop. -/
theorem modFact_step (cfg : Config) (fuel : Nat) (c : ModFactCtx) (j : Nat) (hj : 1 ≤ j)
    (hf : j ≤ fuel) (hf2 : cfg.modFact = .modFactIsCumulative → 2 ≤ fuel)
    (hc : cfg.modFact = .modFactIsCumulative →
      c.initialized = true → c.last_mod ≠ j ∨ j = 1) :
    ∃ v c', modFact cfg fuel c (j - 1) j = some (v, c') ∧ indicator v j = indOf cfg j ∧
      (cfg.modFact = .modFactIsCumulative → c'.initialized = true ∧ c'.last_mod = j) ∧
      (cfg.modFact = .modFactNotCumulative → c' = c) := by
  have hterm : j - 1 + 1 < 2 ^ 64 ∨ 2 ^ 64 ≤ j ∨ 2 ^ 64 ≤ j - 1 := by omega
  cases hcfg : cfg.modFact with
  | modFactNotCumulative =>
    refine ⟨if 2 ≤ j - 1 then (j - 1)! % j else 1, c, ?_, ?_, by simp, by simp⟩
    · unfold modFact
      rw [hcfg]
      simp only
      rw [modFactNotCumulative_eq fuel (j - 1) j (by omega) (by omega) (by omega)]
      rfl
    · simp [indOf, valOf, hcfg]
  | modFactIsCumulative =>
    have hc' := hc hcfg
    by_cases h1 : j = 1
    · subst h1
      obtain ⟨v, r, hv⟩ := modFactIsCumulative_zero_one fuel c (hf2 hcfg)
      refine ⟨v, ⟨true, r, 0, 1⟩, ?_, ?_, fun _ => ⟨rfl, rfl⟩, by simp⟩
      · unfold modFact; rw [hcfg]; exact hv
      · rw [indicator_one]; unfold indOf; rw [indicator_one]
    · have hreset : c.initialized = false ∨ c.last_mod ≠ j := by
        cases h : c.initialized with
        | false => exact Or.inl rfl
        | true =>
          rcases hc' h with h' | h'
          · exact Or.inr h'
          · exact absurd h' h1
      refine ⟨cumResetVal (j - 1) j, ⟨true, cumResetVal (j - 1) j, j - 1, j⟩, ?_, ?_,
        fun _ => ⟨rfl, rfl⟩, by simp⟩
      · unfold modFact; rw [hcfg]
        exact modFactIsCumulative_reset fuel c (j - 1) j hreset hterm (by omega)
      · simp [indOf, valOf, hcfg]

/-- A loop whose body returns and preserves an invariant returns and ends in it. -/
theorem mpzLoop_inv {σ : Type} (body : Nat → σ → Option σ) (P : Nat → σ → Prop) :
    ∀ (k lo : Nat) (s : σ),
      (∀ w s, lo ≤ w → w < lo + k → P w s → ∃ s', body w s = some s' ∧ P (w + 1) s') →
      P lo s → ∃ s', mpzLoop body k lo s = some s' ∧ P (lo + k) s' := by
  intro k
  induction k with
  | zero => intro lo s _ h; exact ⟨s, rfl, h⟩
  | succ k ih =>
    intro lo s hstep h
    obtain ⟨s1, hs1, hP1⟩ := hstep lo s (le_refl _) (by omega) h
    obtain ⟨s2, hs2, hP2⟩ := ih (lo + 1) s1
      (fun w s hw hlt hP => hstep w s (by omega) (by omega) hP) hP1
    refine ⟨s2, ?_, ?_⟩
    · rw [mpzLoop, hs1]; exact hs2
    · have : lo + (k + 1) = lo + 1 + k := by omega
      rw [this]; exact hP2

theorem innerSumVal_succ (cfg : Config) (i : Nat) :
    innerSumVal cfg (i + 1) = innerSumVal cfg i + indOf cfg (i + 1) := by
  unfold innerSumVal; rw [Finset.sum_range_succ]

theorem MfPre_one (cfg : Config) (c : ModFactCtx) : MfPre cfg c 1 :=
  fun _ _ => Or.inr rfl

/-- One iteration of an inner-sum loop, on the context of the evaluator. -/
theorem modFact_iter (cfg : Config) (fuel : Nat) (c : ModFactCtx) (j : Nat) (hj : 1 ≤ j)
    (hf : j ≤ fuel) (hf2 : cfg.modFact = .modFactIsCumulative → 2 ≤ fuel)
    (hc : MfPre cfg c j) :
    ∃ v c', modFact cfg fuel c (j - 1) j = some (v, c') ∧ indicator v j = indOf cfg j ∧
      MfPre cfg c' (j + 1) := by
  obtain ⟨v, c', h1, h2, h3, _⟩ := modFact_step cfg fuel c j hj hf hf2 (by
    intro a b
    rcases hc a b with h | h
    · exact Or.inl (by omega)
    · exact Or.inr h)
  refine ⟨v, c', h1, h2, ?_⟩
  intro a _
  exact Or.inl (by rw [(h3 a).2]; omega)

/-- `innerSumNotCumulative(i)` returns the sum of the summands for `1 .. i`. -/
theorem innerSumNotCumulative_eq (cfg : Config) (fuel : Nat) (s : State) (i : Nat)
    (hf : i ≤ fuel) (hf2 : cfg.modFact = .modFactIsCumulative → 2 ≤ fuel) :
    ∃ c', innerSumNotCumulative cfg fuel s i = some (innerSumVal cfg i, ⟨c', s.glob, s.tl⟩) ∧
      MfPre cfg c' (i + 1) := by
  obtain ⟨p, hp, hacc, hg, ht, hm⟩ := mpzLoop_inv
    (fun j (p : Nat × State) =>
      (modFact cfg fuel p.2.mf (j - 1) j).map fun q =>
        (p.1 + indicator q.1 j, (⟨q.2, p.2.glob, p.2.tl⟩ : State)))
    (fun w p => p.1 = innerSumVal cfg (w - 1) ∧ p.2.glob = s.glob ∧ p.2.tl = s.tl ∧
      MfPre cfg p.2.mf w)
    (i + 1 - 1) 1 (0, s)
    (by
      rintro w ⟨acc, t⟩ hw hlt ⟨hacc, hg, ht, hm⟩
      obtain ⟨v, c', h1, h2, h3⟩ := modFact_iter cfg fuel t.mf w hw (by omega) hf2 hm
      refine ⟨(acc + indicator v w, ⟨c', t.glob, t.tl⟩), ?_, ?_, hg, ht, h3⟩
      · simp only [h1, Option.map_some']
      · simp only at hacc ⊢
        obtain ⟨k, rfl⟩ : ∃ k, w = k + 1 := ⟨w - 1, by omega⟩
        rw [hacc, h2]
        simp only [Nat.add_sub_cancel]
        exact (innerSumVal_succ cfg k).symm)
    ⟨by simp [innerSumVal], rfl, rfl, MfPre_one cfg s.mf⟩
  rcases p with ⟨acc, t⟩
  simp only at hacc hg ht hm
  have e : 1 + (i + 1 - 1) = i + 1 := by omega
  rw [e] at hacc hm
  refine ⟨t.mf, ?_, hm⟩
  unfold innerSumNotCumulative
  rw [hp, hacc, ← hg, ← ht]
  rfl

/-- `innerSumIsCumulative(i)` on a context that holds the sum for `1 .. last_i`, `last_i ≤ i`. -/
theorem innerSumIsCumulative_eq (cfg : Config) (fuel : Nat) (s : State) (i : Nat)
    (hf : i ≤ fuel) (hf2 : cfg.modFact = .modFactIsCumulative → 2 ≤ fuel)
    (hle : s.glob.last_i ≤ i) (hprev : s.glob.prev = innerSumVal cfg s.glob.last_i)
    (hm : MfPre cfg s.mf (s.glob.last_i + 1)) :
    ∃ c', innerSumIsCumulative cfg fuel s i
        = some (innerSumVal cfg i, ⟨c', ⟨i, innerSumVal cfg i⟩, s.tl⟩) ∧
      MfPre cfg c' (i + 1) := by
  obtain ⟨t, hp, hli, hacc, ht, hm'⟩ := mpzLoop_inv
    (fun j (s : State) =>
      (modFact cfg fuel s.mf (j - 1) j).map fun p =>
        (⟨p.2, ⟨s.glob.last_i, s.glob.prev + indicator p.1 j⟩, s.tl⟩ : State))
    (fun w t => t.glob.last_i = s.glob.last_i ∧ t.glob.prev = innerSumVal cfg (w - 1) ∧
      t.tl = s.tl ∧ MfPre cfg t.mf w)
    (i + 1 - (s.glob.last_i + 1)) (s.glob.last_i + 1) s
    (by
      rintro w t hw hlt ⟨hli, hacc, ht, hm⟩
      obtain ⟨v, c', h1, h2, h3⟩ := modFact_iter cfg fuel t.mf w (by omega) (by omega) hf2 hm
      refine ⟨⟨c', ⟨t.glob.last_i, t.glob.prev + indicator v w⟩, t.tl⟩, ?_, hli, ?_, ht, h3⟩
      · simp only [h1, Option.map_some']
      · simp only
        obtain ⟨k, rfl⟩ : ∃ k, w = k + 1 := ⟨w - 1, by omega⟩
        rw [hacc, h2]
        simp only [Nat.add_sub_cancel]
        exact (innerSumVal_succ cfg k).symm)
    ⟨rfl, by simpa using hprev, rfl, hm⟩
  have e : s.glob.last_i + 1 + (i + 1 - (s.glob.last_i + 1)) = i + 1 := by omega
  rw [e] at hacc hm'
  simp only [Nat.add_sub_cancel] at hacc
  refine ⟨t.mf, ?_, hm'⟩
  unfold innerSumIsCumulative
  rw [hp]
  simp only [Option.map_some', hacc, ht]

/-- `innerSumIsCumulative_concurrent(i)` on a context that holds the sum for
`1 .. last_i`, `last_i ≤ i`. -/
theorem innerSumIsCumulative_concurrent_eq (cfg : Config) (fuel : Nat) (s : State) (i : Nat)
    (hf : i ≤ fuel) (hf2 : cfg.modFact = .modFactIsCumulative → 2 ≤ fuel)
    (hle : s.tl.last_i ≤ i) (hprev : s.tl.prev = innerSumVal cfg s.tl.last_i)
    (hm : MfPre cfg s.mf (s.tl.last_i + 1)) :
    ∃ c', innerSumIsCumulative_concurrent cfg fuel s i
        = some (innerSumVal cfg i, ⟨c', s.glob, ⟨i, innerSumVal cfg i⟩⟩) ∧
      MfPre cfg c' (i + 1) := by
  obtain ⟨t, hp, hli, hacc, ht, hm'⟩ := mpzLoop_inv
    (fun j (s : State) =>
      (modFact cfg fuel s.mf (j - 1) j).map fun p =>
        (⟨p.2, s.glob, ⟨s.tl.last_i, s.tl.prev + indicator p.1 j⟩⟩ : State))
    (fun w t => t.tl.last_i = s.tl.last_i ∧ t.tl.prev = innerSumVal cfg (w - 1) ∧
      t.glob = s.glob ∧ MfPre cfg t.mf w)
    (i + 1 - (s.tl.last_i + 1)) (s.tl.last_i + 1) s
    (by
      rintro w t hw hlt ⟨hli, hacc, ht, hm⟩
      obtain ⟨v, c', h1, h2, h3⟩ := modFact_iter cfg fuel t.mf w (by omega) (by omega) hf2 hm
      refine ⟨⟨c', t.glob, ⟨t.tl.last_i, t.tl.prev + indicator v w⟩⟩, ?_, hli, ?_, ht, h3⟩
      · simp only [h1, Option.map_some']
      · simp only
        obtain ⟨k, rfl⟩ : ∃ k, w = k + 1 := ⟨w - 1, by omega⟩
        rw [hacc, h2]
        simp only [Nat.add_sub_cancel]
        exact (innerSumVal_succ cfg k).symm)
    ⟨rfl, by simpa using hprev, rfl, hm⟩
  have e : s.tl.last_i + 1 + (i + 1 - (s.tl.last_i + 1)) = i + 1 := by omega
  rw [e] at hacc hm'
  simp only [Nat.add_sub_cancel] at hacc
  refine ⟨t.mf, ?_, hm'⟩
  unfold innerSumIsCumulative_concurrent
  rw [hp]
  simp only [Option.map_some', hacc, ht]

/-- A call through `innerSum` at an index not below the one the statics stand at. -/
theorem innerSum_eq (cfg : Config) (fuel : Nat) (s : State) (L i : Nat)
    (hf : i ≤ fuel) (hf2 : cfg.modFact = .modFactIsCumulative → 2 ≤ fuel)
    (hctx : CtxOk cfg s L) (hle : L ≤ i) :
    ∃ s', innerSum cfg fuel s i = some (innerSumVal cfg i, s') ∧ CtxOk cfg s' i ∧
      (cfg.innerSum ≠ .innerSumIsCumulative → s'.glob = s.glob) ∧
      (cfg.innerSum ≠ .innerSumIsCumulative_concurrent → s'.tl = s.tl) := by
  obtain ⟨hg, ht, hm⟩ := hctx
  cases hcfg : cfg.innerSum with
  | innerSumNotCumulative =>
    obtain ⟨c', h1, h2⟩ := innerSumNotCumulative_eq cfg fuel s i hf hf2
    refine ⟨⟨c', s.glob, s.tl⟩, ?_, ⟨?_, ?_, ?_⟩, fun _ => rfl, fun _ => rfl⟩
    · unfold innerSum; rw [hcfg]; exact h1
    · intro h; rw [hcfg] at h; cases h
    · intro h; rw [hcfg] at h; cases h
    · intro h; exact absurd hcfg h
  | innerSumIsCumulative =>
    have hg' := hg hcfg
    have hm' := hm (by rw [hcfg]; decide)
    obtain ⟨c', h1, h2⟩ := innerSumIsCumulative_eq cfg fuel s i hf hf2
      (by rw [hg']; exact hle) (by rw [hg']) (by rw [hg']; exact hm')
    refine ⟨⟨c', ⟨i, innerSumVal cfg i⟩, s.tl⟩, ?_, ⟨fun _ => rfl, ?_, fun _ => h2⟩, ?_,
      fun _ => rfl⟩
    · unfold innerSum; rw [hcfg]; exact h1
    · intro h; rw [hcfg] at h; cases h
    · intro h; exact absurd rfl h
  | innerSumIsCumulative_concurrent =>
    have ht' := ht hcfg
    have hm' := hm (by rw [hcfg]; decide)
    obtain ⟨c', h1, h2⟩ := innerSumIsCumulative_concurrent_eq cfg fuel s i hf hf2
      (by rw [ht']; exact hle) (by rw [ht']) (by rw [ht']; exact hm')
    refine ⟨⟨c', s.glob, ⟨i, innerSumVal cfg i⟩⟩, ?_, ⟨?_, fun _ => rfl, fun _ => h2⟩,
      fun _ => rfl, ?_⟩
    · unfold innerSum; rw [hcfg]; exact h1
    · intro h; rw [hcfg] at h; cases h
    · intro h; exact absurd rfl h

/-- The outer loop of `seq::nthPrime`. -/
theorem seq_nthPrime_eq (cfg : Config) (fuel : Nat) (s : State) (n L : Nat)
    (hf : 2 ^ n ≤ fuel) (hf2 : cfg.modFact = .modFactIsCumulative → 2 ≤ fuel)
    (hctx : CtxOk cfg (if cfg.isCumulative then reset_innerSumCumulative s else s) L)
    (hL : L ≤ 1) :
    ∃ s', seq.nthPrime cfg fuel s n
        = some (1 + ∑ i in Finset.Ico 1 (2 ^ n + 1), rowVal cfg n i, s') ∧
      CtxOk cfg s' (2 ^ n) := by
  have hpos : 0 < 2 ^ n := Nat.two_pow_pos n
  obtain ⟨p, hp, hacc, L', hL', hctx'⟩ := mpzLoop_inv
    (fun i (p : Nat × State) =>
      (innerSum cfg fuel p.2 i).map fun q =>
        (if q.1 ≠ 0 then p.1 + rootTerm n q.1 else p.1, q.2))
    (fun w p => p.1 = 1 + ∑ i in Finset.Ico 1 w, rowVal cfg n i ∧
      ∃ L', L' ≤ w ∧ (1 < w → L' = w - 1) ∧ CtxOk cfg p.2 L')
    (2 ^ n + 1 - 1) 1 (1, if cfg.isCumulative then reset_innerSumCumulative s else s)
    (by
      rintro w ⟨acc, t⟩ hw hlt ⟨hacc, L', hL', _, hctx'⟩
      obtain ⟨t', h1, h2, _⟩ := innerSum_eq cfg fuel t L' w (by omega) hf2 hctx' hL'
      refine ⟨(if innerSumVal cfg w ≠ 0 then acc + rootTerm n (innerSumVal cfg w) else acc, t'),
        ?_, ?_, w, by omega, by intro _; omega, h2⟩
      · simp only [h1, Option.map_some']
      · simp only at hacc ⊢
        rw [Finset.sum_Ico_succ_top hw, hacc, rowVal]
        by_cases h0 : innerSumVal cfg w = 0
        · simp [h0]
        · simp [h0, Nat.add_assoc])
    ⟨by simp, L, hL, by intro h; omega, hctx⟩
  rcases p with ⟨acc, t⟩
  simp only at hacc hctx'
  have e : 1 + (2 ^ n + 1 - 1) = 2 ^ n + 1 := by omega
  rw [e] at hacc hL' hctx'
  refine ⟨t, ?_, ?_⟩
  · unfold seq.nthPrime
    simp only
    rw [hp, hacc]
  · obtain ⟨h1, h3⟩ := hctx'
    have : L' = 2 ^ n := by
      have := h1 (by omega); omega
    rw [this] at h3
    exact h3

/-- Wilson's theorem on the residue `(j - 1)! % j`. -/
theorem wilson_dvd (j : Nat) (hj : 2 ≤ j) : j ∣ (j - 1)! % j + 1 ↔ j.Prime := by
  rw [Nat.prime_iff_fac_equiv_neg_one (by omega : j ≠ 1), eq_neg_iff_add_eq_zero]
  have h : (((j - 1)! : ZMod j) + 1 = 0) ↔ ((((j - 1)! + 1 : ℕ) : ZMod j) = 0) := by
    push_cast; rfl
  rw [h, ZMod.natCast_zmod_eq_zero_iff_dvd, Nat.dvd_iff_mod_eq_zero, Nat.dvd_iff_mod_eq_zero,
    Nat.add_mod, Nat.mod_mod, ← Nat.add_mod]

/-- The summand is `1` at `j = 1` and at the primes: with the stateless evaluator always,
with the cumulative evaluator as long as its native product cannot overflow. -/
theorem indOf_eq (cfg : Config) (j : Nat) (hj : 1 ≤ j)
    (h32 : cfg.modFact = .modFactIsCumulative → j ≤ 2 ^ 32) :
    indOf cfg j = if j = 1 ∨ j.Prime then 1 else 0 := by
  by_cases h1 : j = 1
  · subst h1; unfold indOf; rw [indicator_one]; simp
  · have h2 : 2 ≤ j := by omega
    have hv : valOf cfg j = (j - 1)! % j := by
      unfold valOf
      cases hcfg : cfg.modFact with
      | modFactIsCumulative =>
        simp only
        rw [cumResetVal_eq (j - 1) j (by omega) (Or.inl (h32 hcfg)), if_pos (by omega)]
      | modFactNotCumulative =>
        simp only
        by_cases h3 : 2 ≤ j - 1
        · rw [if_pos h3]
        · rw [if_neg h3]
          have : j = 2 := by omega
          subst this; rfl
    unfold indOf
    rw [hv, indicator_eq _ j (by omega)]
    simp only [wilson_dvd j h2, h1, false_or]

/-- The inner sum for `1 .. i` is one more than the number of primes up to `i`. -/
theorem innerSumVal_eq (cfg : Config) (i : Nat)
    (h32 : cfg.modFact = .modFactIsCumulative → i ≤ 2 ^ 32) :
    innerSumVal cfg i = if i = 0 then 0 else 1 + Nat.primeCounting i := by
  induction i with
  | zero => simp [innerSumVal]
  | succ k ih =>
    rw [innerSumVal_succ, ih (fun h => by have := h32 h; omega),
      indOf_eq cfg (k + 1) (by omega) h32]
    simp only [Nat.primeCounting, Nat.primeCounting', Nat.count_succ Nat.Prime (k + 1)]
    by_cases hk : k = 0
    · subst hk
      simp [Nat.count_succ, Nat.not_prime_one, Nat.not_prime_zero]
    · have h1 : ¬ (k + 1 = 1) := by omega
      simp only [hk, h1, if_false, false_or, Nat.succ_ne_zero]
      omega

theorem nth_prime_le_two_pow (k : Nat) : Nat.nth Nat.Prime k ≤ 2 ^ (k + 1) := by
  induction k with
  | zero => rw [Nat.nth_prime_zero_eq_two]; norm_num
  | succ k ih =>
    obtain ⟨q, hq, hlt, hle⟩ := Nat.exists_prime_lt_and_le_two_mul (Nat.nth Nat.Prime k)
      (Nat.prime_nth_prime k).ne_zero
    have h1 : Nat.nth Nat.Prime k < Nat.nth Nat.Prime (Nat.count Nat.Prime q) := by
      rw [Nat.nth_count hq]; exact hlt
    have h2 : k < Nat.count Nat.Prime q := (Nat.nth_lt_nth Nat.infinite_setOf_prime).mp h1
    have h3 : Nat.nth Nat.Prime (k + 1) ≤ Nat.nth Nat.Prime (Nat.count Nat.Prime q) :=
      (Nat.nth_le_nth Nat.infinite_setOf_prime).mpr h2
    rw [Nat.nth_count hq] at h3
    calc Nat.nth Nat.Prime (k + 1) ≤ q := h3
      _ ≤ 2 * Nat.nth Nat.Prime k := hle
      _ ≤ 2 * 2 ^ (k + 1) := Nat.mul_le_mul_left 2 ih
      _ = 2 ^ (k + 1 + 1) := by ring

/-- The row `i` contributes `1` exactly below the `n`-th prime. -/
theorem rowVal_eq (cfg : Config) (n i : Nat) (hn : 1 ≤ n) (hi : 1 ≤ i)
    (h32 : cfg.modFact = .modFactIsCumulative → i ≤ 2 ^ 32) :
    rowVal cfg n i = if i < Nat.nth Nat.Prime (n - 1) then 1 else 0 := by
  have hv : innerSumVal cfg i = 1 + Nat.primeCounting i := by
    rw [innerSumVal_eq cfg i h32, if_neg (by omega)]
  unfold rowVal
  rw [hv, if_neg (by omega), rootTerm_eq n _ hn (by omega)]
  have h : 1 + Nat.primeCounting i ≤ n ↔ i < Nat.nth Nat.Prime (n - 1) := by
    have := Nat.count_le_iff_le_nth Nat.infinite_setOf_prime (p := Nat.Prime)
      (a := i + 1) (b := n - 1)
    unfold Nat.primeCounting Nat.primeCounting'
    constructor
    · intro h'; have := this.mp (by omega); omega
    · intro h'; have := this.mpr (by omega); omega
  simp only [h]

/-- Willans' sum: the rows `1 .. 2 ^ n` add up to the `n`-th prime minus one. -/
theorem sum_rowVal_eq (cfg : Config) (n : Nat) (hn : 1 ≤ n)
    (h32 : cfg.modFact = .modFactIsCumulative → n ≤ 32) :
    1 + ∑ i in Finset.Ico 1 (2 ^ n + 1), rowVal cfg n i = Nat.nth Nat.Prime (n - 1) := by
  have hP : Nat.nth Nat.Prime (n - 1) ≤ 2 ^ n := by
    have := nth_prime_le_two_pow (n - 1)
    have e : n - 1 + 1 = n := by omega
    rwa [e] at this
  have hpos : 1 ≤ Nat.nth Nat.Prime (n - 1) := (Nat.prime_nth_prime (n - 1)).one_lt.le
  have hsum : ∑ i in Finset.Ico 1 (2 ^ n + 1), rowVal cfg n i
      = ∑ i in Finset.Ico 1 (2 ^ n + 1), if i < Nat.nth Nat.Prime (n - 1) then 1 else 0 := by
    apply Finset.sum_congr rfl
    intro i hi
    rw [Finset.mem_Ico] at hi
    refine rowVal_eq cfg n i hn hi.1 (fun h => ?_)
    have h1 : 2 ^ n ≤ 2 ^ 32 := Nat.pow_le_pow_right (by norm_num) (h32 h)
    omega
  rw [hsum, Finset.sum_ite, Finset.sum_const_zero, add_zero, Finset.sum_const, smul_eq_mul,
    mul_one]
  have hfilter : Finset.filter (fun i => i < Nat.nth Nat.Prime (n - 1)) (Finset.Ico 1 (2 ^ n + 1))
      = Finset.Ico 1 (Nat.nth Nat.Prime (n - 1)) := by
    ext i
    simp only [Finset.mem_filter, Finset.mem_Ico]
    omega
  rw [hfilter, Nat.card_Ico]
  omega

end WF

namespace WF.conc

theorem partEnd_succ (c r k t s : Nat) :
    partEnd c r (k + 1) t s = partEnd c r k (t + 1) (s + c + (if t < r then 1 else 0)) := by
  unfold partEnd
  rw [Nat.succ_mul]
  split <;> omega

theorem le_partEnd (c r k t s : Nat) : s ≤ partEnd c r k t s := by
  unfold partEnd; omega

theorem partitionLoop_length (c r : Nat) :
    ∀ (k t s : Nat), (partitionLoop c r k t s).length = k := by
  intro k
  induction k with
  | zero => intro t s; rfl
  | succ k ih => intro t s; simp [partitionLoop, ih]

theorem partitionLoop_sizes (c r : Nat) :
    ∀ (k t s : Nat), (partitionLoop c r k t s).map (fun p => p.2 - p.1)
      = (List.range' t k).map (fun t => c + if t < r then 1 else 0) := by
  intro k
  induction k with
  | zero => intro t s; rfl
  | succ k ih =>
    intro t s
    simp only [partitionLoop, List.map_cons, List.range'_succ, ih]
    congr 1
    omega

theorem partitionLoop_bounds (c r : Nat) :
    ∀ (k t s : Nat), ∀ p ∈ partitionLoop c r k t s,
      s ≤ p.1 ∧ p.1 ≤ p.2 ∧ p.2 ≤ partEnd c r k t s := by
  intro k
  induction k with
  | zero => intro t s p hp; simp [partitionLoop] at hp
  | succ k ih =>
    intro t s p hp
    simp only [partitionLoop, List.mem_cons] at hp
    rw [partEnd_succ]
    rcases hp with hp | hp
    · subst hp
      refine ⟨le_refl _, by simp only; omega, ?_⟩
      exact le_partEnd _ _ _ _ _
    · have := ih _ _ p hp
      refine ⟨by omega, this.2.1, this.2.2⟩

theorem partitionLoop_chain (c r : Nat) :
    ∀ (k t s : Nat), List.Chain (fun p q : Nat × Nat => p.2 = q.1) (s, s)
      (partitionLoop c r k t s) := by
  intro k
  induction k with
  | zero => intro t s; exact List.Chain.nil
  | succ k ih =>
    intro t s
    simp only [partitionLoop]
    refine List.Chain.cons rfl ?_
    have := ih (t + 1) (s + c + (if t < r then 1 else 0))
    cases k with
    | zero => exact List.Chain.nil
    | succ k =>
      simp only [partitionLoop] at this ⊢
      cases this with
      | cons h1 h2 => exact List.Chain.cons rfl h2

theorem rowsOf_eq (p : Nat × Nat) : rowsOf p = List.range' (p.1 + 1) (p.2 - p.1) := by
  unfold rowsOf
  rw [List.range'_eq_map_range, List.range'_eq_map_range, List.map_map]
  apply List.map_congr_left
  intro a _
  simp only [Function.comp]
  omega

theorem partitionLoop_rows (c r : Nat) :
    ∀ (k t s : Nat), (partitionLoop c r k t s).flatMap rowsOf
      = List.range' (s + 1) (partEnd c r k t s - s) := by
  intro k
  induction k with
  | zero => intro t s; simp [partitionLoop, partEnd]
  | succ k ih =>
    intro t s
    have hle := le_partEnd c r k (t + 1) (s + c + (if t < r then 1 else 0))
    simp only [partitionLoop, List.flatMap_cons, ih, rowsOf_eq, partEnd_succ]
    have e1 : s + c + (if t < r then 1 else 0) + 1
        = s + 1 + (s + c + (if t < r then 1 else 0) - s) := by omega
    rw [e1, List.range'_append_1]
    congr 1
    omega

theorem getLast?_cons_of_ne_nil {α : Type} (a : α) (l : List α) (h : l ≠ []) :
    (a :: l).getLast? = l.getLast? := by
  cases l with
  | nil => exact absurd rfl h
  | cons b l => exact List.getLast?_cons_cons

theorem partitionLoop_getLast (c r : Nat) :
    ∀ (k t s : Nat), ((partitionLoop c r (k + 1) t s).getLast?).map Prod.snd
      = some (partEnd c r (k + 1) t s) := by
  intro k
  induction k with
  | zero =>
    intro t s
    simp only [partitionLoop, List.getLast?_singleton, Option.map_some', partEnd]
    congr 1
    split <;> omega
  | succ k ih =>
    intro t s
    rw [partEnd_succ, ← ih]
    conv_lhs => rw [partitionLoop]
    rw [getLast?_cons_of_ne_nil]
    simp [partitionLoop]

theorem partEnd_partitions (total w : Nat) (hw : 1 ≤ w) :
    partEnd (total / w) (total % w) w 0 0 = total := by
  unfold partEnd
  have h1 : total % w < w := Nat.mod_lt _ (by omega)
  have h2 := Nat.div_add_mod total w
  omega

theorem innerSumVal_zero (cfg : Config) : innerSumVal cfg 0 = 0 := by
  simp [innerSumVal]

/-- A row computed by `compute_row` on statics that stand at an index `L ≤ i`. -/
theorem compute_row_eq (cfg : Config) (fuel : Nat) (s : State) (L i n : Nat)
    (hf : i ≤ fuel) (hf2 : cfg.modFact = .modFactIsCumulative → 2 ≤ fuel)
    (hctx : CtxOk cfg s L) (hle : L ≤ i) :
    ∃ s', compute_row cfg fuel s i n = some (rowVal cfg n i, s') ∧ CtxOk cfg s' i := by
  obtain ⟨s', h1, h2, _⟩ := innerSum_eq cfg fuel s L i hf hf2 hctx hle
  refine ⟨s', ?_, h2⟩
  unfold compute_row
  rw [h1]
  rfl

/-- What a worker writes to its slot of `partial_sums`, when the inner sum does not read
the process-wide statics. -/
theorem worker_eq (cfg : Config) (fuel : Nat) (glob : InnerSumCtx) (n start stop : Nat)
    (hcfg : cfg.innerSum ≠ .innerSumIsCumulative)
    (hf : stop ≤ fuel) (hf2 : cfg.modFact = .modFactIsCumulative → 2 ≤ fuel) :
    worker cfg fuel glob n start stop
      = some (∑ i in Finset.Ico (start + 1) (stop + 1), rowVal cfg n i) := by
  obtain ⟨p, hp, hacc, _⟩ := mpzLoop_inv
    (fun i (p : Nat × State) =>
      (compute_row cfg fuel p.2 (i + 1) n).map fun q => (p.1 + q.1, q.2))
    (fun w p => p.1 = ∑ i in Finset.Ico (start + 1) (w + 1), rowVal cfg n i ∧
      ∃ L, L ≤ w + 1 ∧ CtxOk cfg p.2 L)
    (stop - start) start (0, reset_thread_innerSum ⟨ModFactCtx.fresh, glob, ⟨0, 0⟩⟩)
    (by
      rintro w ⟨acc, t⟩ hw hlt ⟨hacc, L, hL, hctx⟩
      obtain ⟨t', h1, h2⟩ := compute_row_eq cfg fuel t L (w + 1) n (by omega) hf2 hctx hL
      refine ⟨(acc + rowVal cfg n (w + 1), t'), ?_, ?_, w + 1, by omega, h2⟩
      · simp only [h1, Option.map_some']
      · simp only at hacc ⊢
        rw [Finset.sum_Ico_succ_top (by omega), hacc])
    ⟨by simp, 0, by omega, by
      refine ⟨fun h => absurd h hcfg, fun _ => ?_, fun _ => ?_⟩
      · simp [reset_thread_innerSum, innerSumVal_zero]
      · intro _ h
        simp [reset_thread_innerSum, ModFactCtx.fresh] at h⟩
  rcases p with ⟨acc, t⟩
  simp only at hacc
  unfold worker
  simp only
  rw [hp, hacc]
  simp only [Option.map_some']
  by_cases h : start ≤ stop
  · have e : start + (stop - start) + 1 = stop + 1 := by omega
    rw [e]
  · have e1 : Finset.Ico (start + 1) (start + (stop - start) + 1) = ∅ :=
      Finset.Ico_eq_empty (by omega)
    have e2 : Finset.Ico (start + 1) (stop + 1) = ∅ := Finset.Ico_eq_empty (by omega)
    rw [e1, e2]

theorem joinAll_map {α : Type} (f : α → Option Nat) (g : α → Nat) :
    ∀ (xs : List α), (∀ p ∈ xs, f p = some (g p)) → joinAll (xs.map f) = some (xs.map g) := by
  intro xs
  induction xs with
  | nil => intro _; rfl
  | cons x xs ih =>
    intro h
    simp only [List.map_cons, joinAll, h x (List.mem_cons_self _ _),
      ih (fun p hp => h p (List.mem_cons_of_mem _ hp)), Option.some_bind, Option.map_some']

theorem foldl_add_eq (l : List Nat) :
    ∀ a : Nat, l.foldl (fun outer_sum s => outer_sum + s) a = a + l.sum := by
  induction l with
  | nil => intro a; simp
  | cons x xs ih => intro a; simp [ih, Nat.add_assoc]

theorem partitionLoop_sum (f : Nat → Nat) (c r : Nat) :
    ∀ (k t s : Nat),
      ((partitionLoop c r k t s).map (fun p => ∑ i in Finset.Ico (p.1 + 1) (p.2 + 1), f i)).sum
        = ∑ i in Finset.Ico (s + 1) (partEnd c r k t s + 1), f i := by
  intro k
  induction k with
  | zero => intro t s; simp [partitionLoop, partEnd]
  | succ k ih =>
    intro t s
    have hle := le_partEnd c r k (t + 1) (s + c + (if t < r then 1 else 0))
    simp only [partitionLoop, List.map_cons, List.sum_cons, ih, partEnd_succ]
    exact Finset.sum_Ico_consecutive f (by omega) (by omega)

/-- The value of `conc::nthPrime`, when the inner sum does not read the process-wide
statics. -/
theorem conc_nthPrime_eq (cfg : Config) (fuel : Nat) (glob : InnerSumCtx) (hc n : Nat)
    (hcfg : cfg.innerSum ≠ .innerSumIsCumulative)
    (hf : 2 ^ n ≤ fuel) (hf2 : cfg.modFact = .modFactIsCumulative → 2 ≤ fuel) :
    nthPrime cfg fuel glob hc n
      = some (1 + ∑ i in Finset.Ico 1 (2 ^ n + 1), rowVal cfg n i) := by
  have hw : 1 ≤ (if hc = 0 then 4 else hc) := by split <;> omega
  unfold nthPrime
  simp only
  rw [joinAll_map _ (fun p => ∑ i in Finset.Ico (p.1 + 1) (p.2 + 1), rowVal cfg n i)]
  · simp only [Option.map_some', foldl_add_eq]
    unfold partitions
    rw [partitionLoop_sum, partEnd_partitions _ _ hw]
  · intro p hp
    have hb := partitionLoop_bounds _ _ _ _ _ p hp
    rw [partEnd_partitions _ _ hw] at hb
    exact worker_eq cfg fuel glob n p.1 p.2 hcfg (by omega) hf2

end WF.conc

namespace WF

theorem two_le_fuel {n fuel : Nat} (hn : 1 ≤ n) (hf : 2 ^ n ≤ fuel) : 2 ≤ fuel := by
  have : 2 ^ 1 ≤ 2 ^ n := Nat.pow_le_pow_right (by norm_num) hn
  omega

theorem ctxOk_stateless (isConcurrent : Bool) (s : State) (L : Nat) :
    CtxOk (init_cumulative isConcurrent false) s L := by
  refine ⟨fun h => ?_, fun h => ?_, fun h => ?_⟩
  · simp [init_cumulative] at h
  · simp [init_cumulative] at h
  · simp [init_cumulative] at h

theorem nth_prime_of_count (k p : Nat) (hp : p.Prime) (hc : Nat.count Nat.Prime p = k) :
    Nat.nth Nat.Prime k = p := by
  rw [← hc]; exact Nat.nth_count hp

/-- Sequential `nthPrime` in the stateless configuration returns the `n`-th prime. -/
theorem seq_nthPrime_stateless (isConcurrent : Bool) (fuel : Nat) (s : State) (n : Nat)
    (hn : 1 ≤ n) (hf : 2 ^ n ≤ fuel) :
    (seq.nthPrime (init_cumulative isConcurrent false) fuel s n).map Prod.fst
      = some (Nat.nth Nat.Prime (n - 1)) := by
  have hmf : (init_cumulative isConcurrent false).modFact ≠ .modFactIsCumulative := by
    simp [init_cumulative]
  obtain ⟨s', h, _⟩ := seq_nthPrime_eq (init_cumulative isConcurrent false) fuel s n 0 hf
    (fun h => absurd h hmf) (ctxOk_stateless _ _ _) (by omega)
  rw [h, sum_rowVal_eq _ n hn (fun h => absurd h hmf)]
  rfl

/-- C1: for every `n ≥ 1`, sequential `nthPrime(n)` in the stateless configuration
(`modFactNotCumulative`, `innerSumNotCumulative`), in exact real arithmetic, returns the
`n`-th prime, whatever the statics and the concurrency flag are (enough fuel for the native
loops: `2 ^ n`). -/
theorem C1_seq_nthPrime_stateless (isConcurrent : Bool) (fuel : Nat) (s : State) (n : Nat)
    (hn : 1 ≤ n) (hf : 2 ^ n ≤ fuel) :
    (seq.nthPrime (init_cumulative isConcurrent false) fuel s n).map Prod.fst
      = some (Nat.nth Nat.Prime (n - 1)) :=
  seq_nthPrime_stateless isConcurrent fuel s n hn hf

/-- C1, the known values `nthPrime(1) = 2`, `nthPrime(2) = 3`, `nthPrime(3) = 5`,
`nthPrime(4) = 7`, `nthPrime(5) = 11`. -/
theorem C1_seq_nthPrime_stateless_witness :
    (seq.nthPrime (init_cumulative false false) 32 State.fresh 1).map Prod.fst = some 2 ∧
    (seq.nthPrime (init_cumulative false false) 32 State.fresh 2).map Prod.fst = some 3 ∧
    (seq.nthPrime (init_cumulative false false) 32 State.fresh 3).map Prod.fst = some 5 ∧
    (seq.nthPrime (init_cumulative false false) 32 State.fresh 4).map Prod.fst = some 7 ∧
    (seq.nthPrime (init_cumulative false false) 32 State.fresh 5).map Prod.fst = some 11 := by
  have h1 := C1_seq_nthPrime_stateless false 32 State.fresh 1 (by decide) (by decide)
  have h2 := C1_seq_nthPrime_stateless false 32 State.fresh 2 (by decide) (by decide)
  have h3 := C1_seq_nthPrime_stateless false 32 State.fresh 3 (by decide) (by decide)
  have h4 := C1_seq_nthPrime_stateless false 32 State.fresh 4 (by decide) (by decide)
  have h5 := C1_seq_nthPrime_stateless false 32 State.fresh 5 (by decide) (by decide)
  rw [h1, h2, h3, h4, h5]
  exact ⟨congrArg some (nth_prime_of_count 0 2 (by norm_num) (by decide)),
    congrArg some (nth_prime_of_count 1 3 (by norm_num) (by decide)),
    congrArg some (nth_prime_of_count 2 5 (by norm_num) (by decide)),
    congrArg some (nth_prime_of_count 3 7 (by norm_num) (by decide)),
    congrArg some (nth_prime_of_count 4 11 (by norm_num) (by decide))⟩

/-- For every `n ≥ 1` and every worker count (`hardware_concurrency` arbitrary, `0` falling
back to `4`), `conc::nthPrime(n)` returns, and returns the integer that sequential
`nthPrime(n)` returns under the same configuration: in the stateless configuration from any
statics, and in the concurrent-cumulative configuration when the sequential run starts on
thread-fresh inner-sum statics. -/
theorem conc_nthPrime_eq_seq_fresh (isConcurrent : Bool) (fuel n hardware_concurrency : Nat)
    (glob : InnerSumCtx) (s : State) (hn : 1 ≤ n) (hf : 2 ^ n ≤ fuel) :
    (∃ p, conc.nthPrime (init_cumulative isConcurrent false) fuel glob hardware_concurrency n
          = some p ∧
        (seq.nthPrime (init_cumulative isConcurrent false) fuel s n).map Prod.fst = some p) ∧
    (∃ p, conc.nthPrime (init_cumulative true true) fuel glob hardware_concurrency n = some p ∧
        (seq.nthPrime (init_cumulative true true) fuel (reset_thread_innerSum s) n).map Prod.fst
          = some p) := by
  have h2 : 2 ≤ fuel := two_le_fuel hn hf
  constructor
  · obtain ⟨s', h, _⟩ := seq_nthPrime_eq (init_cumulative isConcurrent false) fuel s n 0 hf
      (fun _ => h2) (ctxOk_stateless _ _ _) (by omega)
    refine ⟨_, conc.conc_nthPrime_eq (init_cumulative isConcurrent false) fuel glob
      hardware_concurrency n (by simp [init_cumulative]) hf (fun _ => h2), ?_⟩
    rw [h]; rfl
  · have hctx : CtxOk (init_cumulative true true)
        (if (init_cumulative true true).isCumulative then
          reset_innerSumCumulative (reset_thread_innerSum s) else reset_thread_innerSum s) 0 := by
      refine ⟨fun h => ?_, fun _ => ?_, fun _ => MfPre_one _ _⟩
      · simp [init_cumulative] at h
      · simp [init_cumulative, reset_innerSumCumulative, reset_thread_innerSum,
          conc.innerSumVal_zero]
    obtain ⟨s', h, _⟩ := seq_nthPrime_eq (init_cumulative true true) fuel
      (reset_thread_innerSum s) n 0 hf (fun _ => h2) hctx (by omega)
    refine ⟨_, conc.conc_nthPrime_eq (init_cumulative true true) fuel glob
      hardware_concurrency n (by simp [init_cumulative]) hf (fun _ => h2), ?_⟩
    rw [h]; rfl

/-- C3: for `1 ≤ n ≤ 32`, sequential `nthPrime(n)` in the cumulative configuration
(`modFactIsCumulative`, `innerSumIsCumulative`, native products modulo `2 ^ 64`) returns the
same integer as in the stateless configuration, from any statics: the `n`-th prime. -/
theorem C3_seq_cumulative_eq_stateless (fuel n : Nat) (s s' : State) (hn : 1 ≤ n)
    (hn32 : n ≤ 32) (hf : 2 ^ n ≤ fuel) :
    (seq.nthPrime (init_cumulative false true) fuel s n).map Prod.fst
        = (seq.nthPrime (init_cumulative false false) fuel s' n).map Prod.fst ∧
      (seq.nthPrime (init_cumulative false true) fuel s n).map Prod.fst
        = some (Nat.nth Nat.Prime (n - 1)) := by
  have h2 : 2 ≤ fuel := two_le_fuel hn hf
  have hctx : CtxOk (init_cumulative false true)
      (if (init_cumulative false true).isCumulative then reset_innerSumCumulative s else s) 0 := by
    refine ⟨fun _ => ?_, fun h => ?_, fun _ => MfPre_one _ _⟩
    · simp [init_cumulative, reset_innerSumCumulative, conc.innerSumVal_zero]
    · simp [init_cumulative] at h
  obtain ⟨t, h, _⟩ := seq_nthPrime_eq (init_cumulative false true) fuel s n 0 hf
    (fun _ => h2) hctx (by omega)
  have hc : (seq.nthPrime (init_cumulative false true) fuel s n).map Prod.fst
      = some (Nat.nth Nat.Prime (n - 1)) := by
    rw [h, sum_rowVal_eq _ n hn (fun _ => hn32)]; rfl
  exact ⟨by rw [hc, seq_nthPrime_stateless false fuel s' n hn hf], hc⟩

/-- C3 at `n = 4`. -/
theorem C3_seq_cumulative_eq_stateless_witness :
    (seq.nthPrime (init_cumulative false true) 16 State.fresh 4).map Prod.fst
        = (seq.nthPrime (init_cumulative false false) 16 State.fresh 4).map Prod.fst ∧
      (seq.nthPrime (init_cumulative false true) 16 State.fresh 4).map Prod.fst
        = some (Nat.nth Nat.Prime (4 - 1)) :=
  C3_seq_cumulative_eq_stateless 16 4 State.fresh State.fresh (by decide) (by decide) (by decide)

/-- C4: for every `j ≥ 2` the summand of the inner-sum loop, `floor(cos(pi * (f + 1) / j) ^ 2)`
with `f = modFactNotCumulative(j - 1, j)` in exact real arithmetic, is `1` when `j` is prime
and `0` when `j` is composite. -/
theorem C4_indicator_prime (fuel j : Nat) (hj : 2 ≤ j) (hf : j ≤ fuel) :
    (modFactNotCumulative fuel (j - 1) j).map (fun f => indicator f j)
      = some (if j.Prime then 1 else 0) := by
  rw [modFactNotCumulative_eq fuel (j - 1) j (by omega) (by omega) (by omega)]
  have h := indOf_eq (init_cumulative false false) j (by omega)
    (fun h => by simp [init_cumulative] at h)
  have h1 : ¬ (j = 1) := by omega
  simp only [h1, false_or] at h
  rw [← h]
  rfl

/-- C4 at `j = 2, 3, 5, 7` (value `1`) and `j = 4, 6, 8, 9` (value `0`). -/
theorem C4_indicator_prime_witness :
    ((modFactNotCumulative 9 (2 - 1) 2).map (fun f => indicator f 2) = some 1 ∧
      (modFactNotCumulative 9 (3 - 1) 3).map (fun f => indicator f 3) = some 1 ∧
      (modFactNotCumulative 9 (5 - 1) 5).map (fun f => indicator f 5) = some 1 ∧
      (modFactNotCumulative 9 (7 - 1) 7).map (fun f => indicator f 7) = some 1) ∧
    ((modFactNotCumulative 9 (4 - 1) 4).map (fun f => indicator f 4) = some 0 ∧
      (modFactNotCumulative 9 (6 - 1) 6).map (fun f => indicator f 6) = some 0 ∧
      (modFactNotCumulative 9 (8 - 1) 8).map (fun f => indicator f 8) = some 0 ∧
      (modFactNotCumulative 9 (9 - 1) 9).map (fun f => indicator f 9) = some 0) := by
  have h2 := C4_indicator_prime 9 2 (by decide) (by decide)
  have h3 := C4_indicator_prime 9 3 (by decide) (by decide)
  have h5 := C4_indicator_prime 9 5 (by decide) (by decide)
  have h7 := C4_indicator_prime 9 7 (by decide) (by decide)
  have h4 := C4_indicator_prime 9 4 (by decide) (by decide)
  have h6 := C4_indicator_prime 9 6 (by decide) (by decide)
  have h8 := C4_indicator_prime 9 8 (by decide) (by decide)
  have h9 := C4_indicator_prime 9 9 (by decide) (by decide)
  rw [if_pos (by norm_num)] at h2 h3 h5 h7
  rw [if_neg (by norm_num)] at h4 h6 h8 h9
  exact ⟨⟨h2, h3, h5, h7⟩, ⟨h4, h6, h8, h9⟩⟩

end WF

namespace WF.conc

theorem partitionLoop_pairwise (c r : Nat) :
    ∀ (k t s : Nat), List.Pairwise (fun p q : Nat × Nat => p.2 ≤ q.1)
      (partitionLoop c r k t s) := by
  intro k
  induction k with
  | zero => intro t s; exact List.Pairwise.nil
  | succ k ih =>
    intro t s
    simp only [partitionLoop]
    refine List.Pairwise.cons ?_ (ih _ _)
    intro q hq
    exact (partitionLoop_bounds c r k _ _ q hq).1

/-- C5: for every `total` and every `workerCount ≥ 1` the partition loop generates
`workerCount` ranges `[start, end)` with `start ≤ end`, the first starting at `0`, each
starting where the previous one ends, pairwise disjoint, the last ending at `total`; the
rows `i + 1` processed by the workers are, in order, the integers `1 .. total`, each once. -/
theorem C5_partition_coverage (total workerCount : Nat) (hw : 1 ≤ workerCount) :
    (partitions total workerCount).length = workerCount ∧
    (∀ p ∈ partitions total workerCount, p.1 ≤ p.2) ∧
    List.Chain (fun p q : Nat × Nat => p.2 = q.1) (0, 0) (partitions total workerCount) ∧
    List.Pairwise (fun p q : Nat × Nat => p.2 ≤ q.1) (partitions total workerCount) ∧
    ((partitions total workerCount).getLast?).map Prod.snd = some total ∧
    (partitions total workerCount).flatMap rowsOf = List.range' 1 total := by
  unfold partitions
  refine ⟨partitionLoop_length _ _ _ _ _,
    fun p hp => (partitionLoop_bounds _ _ _ _ _ p hp).2.1,
    partitionLoop_chain _ _ _ _ _, partitionLoop_pairwise _ _ _ _ _, ?_, ?_⟩
  · obtain ⟨k, rfl⟩ : ∃ k, workerCount = k + 1 := ⟨workerCount - 1, by omega⟩
    rw [partitionLoop_getLast, partEnd_partitions _ _ hw]
  · rw [partitionLoop_rows, partEnd_partitions _ _ hw]
    rfl

/-- C5 for `10` rows and `4` workers. -/
theorem C5_partition_coverage_witness :
    (partitions 10 4).length = 4 ∧
    (∀ p ∈ partitions 10 4, p.1 ≤ p.2) ∧
    List.Chain (fun p q : Nat × Nat => p.2 = q.1) (0, 0) (partitions 10 4) ∧
    List.Pairwise (fun p q : Nat × Nat => p.2 ≤ q.1) (partitions 10 4) ∧
    ((partitions 10 4).getLast?).map Prod.snd = some 10 ∧
    (partitions 10 4).flatMap rowsOf = List.range' 1 10 :=
  C5_partition_coverage 10 4 (by decide)

/-- C6: for every `total` and `workerCount` the `t`-th generated range has size
`total / workerCount + 1` for `t < total % workerCount` and `total / workerCount` for the
other `t`; hence any two sizes differ by at most `1` (ranges may be empty). -/
theorem C6_partition_balance (total workerCount : Nat) :
    (partitions total workerCount).map (fun p => p.2 - p.1)
        = (List.range workerCount).map
            (fun t => total / workerCount + if t < total % workerCount then 1 else 0) ∧
    (∀ p ∈ partitions total workerCount, p.1 ≤ p.2) ∧
    (∀ p ∈ partitions total workerCount, ∀ q ∈ partitions total workerCount,
        p.2 - p.1 ≤ q.2 - q.1 + 1) := by
  have hs : (partitions total workerCount).map (fun p => p.2 - p.1)
      = (List.range workerCount).map
          (fun t => total / workerCount + if t < total % workerCount then 1 else 0) := by
    unfold partitions
    rw [partitionLoop_sizes, List.range_eq_range']
  have hsize : ∀ p ∈ partitions total workerCount,
      total / workerCount ≤ p.2 - p.1 ∧ p.2 - p.1 ≤ total / workerCount + 1 := by
    intro p hp
    have hm : p.2 - p.1 ∈ (partitions total workerCount).map (fun p => p.2 - p.1) :=
      List.mem_map_of_mem _ hp
    rw [hs, List.mem_map] at hm
    obtain ⟨t, _, ht⟩ := hm
    rw [← ht]
    split <;> omega
  refine ⟨hs, fun p hp => (partitionLoop_bounds _ _ _ _ _ p hp).2.1, fun p hp q hq => ?_⟩
  have h1 := hsize p hp
  have h2 := hsize q hq
  omega

end WF.conc

namespace WF

/-- C7, refuted as stated: for `j = 0` and modulus `1` the stateless evaluator (of `WF.hpp`
and of `WF_base.hpp`) returns `1`, which is neither below the modulus nor `0! mod 1`, with
whatever fuel, and so it does for `j = 1`; and for `j = 2 ^ 64 - 1` with a native modulus
it never returns. -/
theorem C7_counterexample :
    (¬ ∃ fuel r, modFactNotCumulative fuel 0 1 = some r ∧ r < 1 ∧ r = 0 ! % 1) ∧
    (¬ ∃ fuel r, WF_base.modFact fuel 0 1 = some r ∧ r < 1 ∧ r = 0 ! % 1) ∧
    modFactNotCumulative 1 0 1 = some 1 ∧
    (¬ ∃ fuel r, modFactNotCumulative fuel (2 ^ 64 - 1) 5 = some r) ∧
    (modFactNotCumulative 2 1 1 = some 1 ∧ WF_base.modFact 1 0 1 = some 1 ∧
      WF_base.modFact 2 1 1 = some 1) := by
  refine ⟨?_, ?_, by decide, ?_, ⟨by decide, by decide, by decide⟩⟩
  · rintro ⟨fuel, r, h, hr, _⟩
    cases fuel with
    | zero => simp [modFactNotCumulative, fits_ulong_p, ulongFor] at h
    | succ f =>
      simp [modFactNotCumulative, fits_ulong_p, get_ui, ulongFor] at h
      omega
  · rintro ⟨fuel, r, h, hr, _⟩
    cases fuel with
    | zero => simp [WF_base.modFact, fits_ulong_p, ulongFor] at h
    | succ f =>
      simp [WF_base.modFact, fits_ulong_p, get_ui, ulongFor] at h
      omega
  · rintro ⟨fuel, r, h⟩
    rw [modFactNotCumulative_diverges fuel 5 (by norm_num)] at h
    cases h

/-- The stateless evaluator returns `j! % m`, except at `j ≤ 1` with modulus `1` and at
`j = 2 ^ 64 - 1` on the native branch. -/
theorem modFactNotCumulative_fact (fuel j m : Nat) (hm : 1 ≤ m) (h2 : 2 ≤ m ∨ 2 ≤ j)
    (ht : j + 1 ≠ 2 ^ 64 ∨ 2 ^ 64 ≤ m) (hf : j < fuel) :
    modFactNotCumulative fuel j m = some (j ! % m) := by
  have hval : (if 2 ≤ j then j ! % m else 1) = j ! % m := by
    by_cases hj : 2 ≤ j
    · rw [if_pos hj]
    · rw [if_neg hj]
      have hm2 : 2 ≤ m := by omega
      have hj1 : j = 0 ∨ j = 1 := by omega
      rcases hj1 with rfl | rfl
      · exact (Nat.mod_eq_of_lt (by simpa using hm2)).symm
      · exact (Nat.mod_eq_of_lt (by simpa using hm2)).symm
  have h := modFactNotCumulative_eq fuel j m (by omega) hf (by omega)
  rw [hval] at h
  exact h

/-- The stateless evaluator at modulus `1` and `j ≤ 1` returns `1`. -/
theorem modFactNotCumulative_one (fuel j : Nat) (hj : j ≤ 1) (hf : j < fuel) :
    modFactNotCumulative fuel j 1 = some 1 := by
  rw [modFactNotCumulative_eq fuel j 1 (by norm_num) hf (Or.inl (by omega)), if_neg (by omega)]

/-- C7, amended: for every modulus `m ≥ 1` and every `j ≥ 0`, unless `j = 2 ^ 64 - 1` with
a native modulus, the stateless evaluator (of `WF.hpp` and of `WF_base.hpp`) returns, on the
native and on the arbitrary-precision branch alike: `j! mod m`, which lies in `[0, m)`, when
`m ≥ 2` or `j ≥ 2`; and `1` when `m = 1` and `j ≤ 1`. -/
theorem C7_modFactNotCumulative (fuel j m : Nat) (hm : 1 ≤ m)
    (ht : j + 1 ≠ 2 ^ 64 ∨ 2 ^ 64 ≤ m) (hf : j < fuel) :
    (2 ≤ m ∨ 2 ≤ j →
      modFactNotCumulative fuel j m = some (j ! % m) ∧
        WF_base.modFact fuel j m = some (j ! % m) ∧ j ! % m < m) ∧
    (m = 1 → j ≤ 1 →
      modFactNotCumulative fuel j m = some 1 ∧ WF_base.modFact fuel j m = some 1) ∧
    modFactNotCumulative fuel j m = some (if m = 1 ∧ j ≤ 1 then 1 else j ! % m) ∧
    WF_base.modFact fuel j m = some (if m = 1 ∧ j ≤ 1 then 1 else j ! % m) := by
  have hA : 2 ≤ m ∨ 2 ≤ j → modFactNotCumulative fuel j m = some (j ! % m) :=
    fun h2 => modFactNotCumulative_fact fuel j m hm h2 ht hf
  have hB : m = 1 → j ≤ 1 → modFactNotCumulative fuel j m = some 1 := by
    intro h1 hj
    subst h1
    exact modFactNotCumulative_one fuel j hj hf
  have hC : modFactNotCumulative fuel j m = some (if m = 1 ∧ j ≤ 1 then 1 else j ! % m) := by
    by_cases h : m = 1 ∧ j ≤ 1
    · rw [if_pos h]; exact hB h.1 h.2
    · rw [if_neg h]; exact hA (by omega)
  exact ⟨fun h2 => ⟨hA h2, hA h2, Nat.mod_lt _ (by omega)⟩,
    fun h1 hj => ⟨hB h1 hj, hB h1 hj⟩, hC, hC⟩

/-- C7, amended, on the native branch (`j = 5`, `m = 7`), on the arbitrary-precision
branch (`j = 3`, `m = 2 ^ 64`) and at modulus `1` (`j = 1`). -/
theorem C7_modFactNotCumulative_witness :
    (modFactNotCumulative 6 5 7 = some (5 ! % 7) ∧
      WF_base.modFact 6 5 7 = some (5 ! % 7) ∧ 5 ! % 7 < 7) ∧
    (modFactNotCumulative 4 3 (2 ^ 64) = some (3 ! % 2 ^ 64) ∧
      WF_base.modFact 4 3 (2 ^ 64) = some (3 ! % 2 ^ 64) ∧ 3 ! % 2 ^ 64 < 2 ^ 64) ∧
    (modFactNotCumulative 2 1 1 = some 1 ∧ WF_base.modFact 2 1 1 = some 1) :=
  ⟨(C7_modFactNotCumulative 6 5 7 (by decide) (by decide) (by decide)).1 (by decide),
    (C7_modFactNotCumulative 4 3 (2 ^ 64) (by decide) (by decide) (by decide)).1 (by decide),
    (C7_modFactNotCumulative 2 1 1 (by decide) (by decide) (by decide)).2.1 rfl (by decide)⟩

/-- C8, refuted as stated: on one context the call `(2, 7)` after `(3, 7)` returns `6`
again, not `2! mod 7 = 2`; the call `(1, 1)` returns `0` where the stateless evaluator
returns `1`; and the native product overflows for `(21, 2 ^ 64 - 1)`. -/
theorem C8_counterexample :
    (callsCumulative 8 ModFactCtx.fresh [(3, 7), (2, 7)] = some [6, 6] ∧
      callsNotCumulative 8 [(3, 7), (2, 7)] = some [6, 2]) ∧
    (callsCumulative 8 ModFactCtx.fresh [(1, 1)] = some [0] ∧
      callsNotCumulative 8 [(1, 1)] = some [1]) ∧
    (callsCumulative 32 ModFactCtx.fresh [(21, 2 ^ 64 - 1)] = some [14197454024290336768] ∧
      callsNotCumulative 32 [(21, 2 ^ 64 - 1)] = some [14197454024290336770]) := by
  refine ⟨⟨by decide, by decide⟩, ⟨by decide, by decide⟩, ⟨by decide, by decide⟩⟩

theorem cumVal_step (a m : Nat) : (cumVal a m * (a + 1)) % m = cumVal (a + 1) m := by
  unfold cumVal
  rw [if_pos (by omega : 1 ≤ a + 1)]
  by_cases ha : 1 ≤ a
  · rw [if_pos ha, Nat.mod_mul_mod, Nat.factorial_succ, Nat.mul_comm]
  · have : a = 0 := by omega
    subst this
    simp

theorem cumVal_lt (j m : Nat) (hm : 1 ≤ m) : cumVal j m < 2 ^ 64 ∨ cumVal j m < m := by
  unfold cumVal
  by_cases hj : 1 ≤ j
  · rw [if_pos hj]
    exact Or.inr (Nat.mod_lt _ (by omega))
  · rw [if_neg hj]; exact Or.inl (by norm_num)

/-- The exact product loop started at `a + 1` on `cumVal a m` ends on `cumVal (a + k) m`. -/
theorem mpzFor_mulmod_cumVal (m : Nat) :
    ∀ (k a : Nat), mpzFor (fun w r => (r * w) % m) k (a + 1) (cumVal a m) = cumVal (a + k) m := by
  intro k
  induction k with
  | zero => intro a; simp [mpzFor]
  | succ k ih =>
    intro a
    rw [mpzFor, cumVal_step, ih (a + 1)]
    congr 1; omega

/-- The native product loop started at `a + 1` on `cumVal a m` ends on `cumVal (a + k) m`
when no product of the steps up to `a + k` changes its residue by wrapping. -/
theorem mpzFor_mulmod64_cumVal (m : Nat) :
    ∀ (k a : Nat),
      (∀ w, w ≤ a + k → (((w - 1)! % m * w) % 2 ^ 64) % m = ((w - 1)! % m * w) % m) →
      mpzFor (fun w rl => ((rl * w) % 2 ^ 64) % m) k (a + 1) (cumVal a m) = cumVal (a + k) m := by
  intro k
  induction k with
  | zero => intro a _; simp [mpzFor]
  | succ k ih =>
    intro a hw
    have hstep : ((cumVal a m * (a + 1)) % 2 ^ 64) % m = cumVal (a + 1) m := by
      rw [← cumVal_step]
      by_cases ha : 1 ≤ a
      · have h := hw (a + 1) (by omega)
        simp only [Nat.add_sub_cancel] at h
        rw [cumVal, if_pos ha]
        exact h
      · have : a = 0 := by omega
        subst this
        simp [cumVal]
    rw [mpzFor, hstep, ih (a + 1) (fun w h => hw w (by omega))]
    congr 1; omega

/-- The reset value is `cumVal j m` when no native product changes its residue by wrapping. -/
theorem cumResetVal_eq_cumVal (j m : Nat)
    (hw : m < 2 ^ 64 → j < 2 ^ 64 →
      ∀ w, w ≤ j → (((w - 1)! % m * w) % 2 ^ 64) % m = ((w - 1)! % m * w) % m) :
    cumResetVal j m = cumVal j m := by
  unfold cumResetVal
  have e0 : cumVal 0 m = 1 := by simp [cumVal]
  by_cases hfit : m < 2 ^ 64 ∧ j < 2 ^ 64
  · rw [if_pos hfit]
    have h := mpzFor_mulmod64_cumVal m j 0 (by simpa using hw hfit.1 hfit.2)
    simpa [e0] using h
  · rw [if_neg hfit]
    have h := mpzFor_mulmod_cumVal m j 0
    simpa [e0] using h

/-- A call of the cumulative evaluator: after a reset, or continuing from a context that
holds `cumVal last_j m` with `last_j ≤ j`. -/
theorem modFactIsCumulative_cumVal (fuel : Nat) (c : ModFactCtx) (j m : Nat) (hm : 1 ≤ m)
    (ht : j + 1 < 2 ^ 64 ∨ 2 ^ 64 ≤ m ∨ 2 ^ 64 ≤ j) (hf : j < fuel)
    (hw : m < 2 ^ 64 → j < 2 ^ 64 →
      ∀ w, w ≤ j → (((w - 1)! % m * w) % 2 ^ 64) % m = ((w - 1)! % m * w) % m)
    (hc : c.initialized = false ∨ c.last_mod ≠ m ∨ (c.last_j ≤ j ∧ c.r = cumVal c.last_j m)) :
    modFactIsCumulative fuel c j m = some (cumVal j m, ⟨true, cumVal j m, j, m⟩) := by
  by_cases hreset : c.initialized = false ∨ c.last_mod ≠ m
  · rw [modFactIsCumulative_reset fuel c j m hreset ht hf, cumResetVal_eq_cumVal j m hw]
  · have hini : c.initialized = true := by
      cases h : c.initialized with
      | false => exact absurd (Or.inl h) hreset
      | true => rfl
    have hmod : c.last_mod = m := by
      by_contra h; exact hreset (Or.inr h)
    have hmono : c.last_j ≤ j ∧ c.r = cumVal c.last_j m := by
      rcases hc with h | h | h
      · exact absurd (Or.inl h) hreset
      · exact absurd hmod h
      · exact h
    rcases c with ⟨ini, r, lj, lm⟩
    simp only at hini hmod hmono
    subst hini; subst hmod
    obtain ⟨hle, hr⟩ := hmono
    subst hr
    have hk : lj + (j + 1 - (lj + 1)) = j := by omega
    unfold modFactIsCumulative
    simp only [Bool.not_true, Bool.false_eq_true, if_false, ne_eq, not_true_eq_false]
    by_cases hfit : fits_ulong_p lm && fits_ulong_p j
    · rw [if_pos hfit]
      simp only [Bool.and_eq_true, fits_ulong_p_iff] at hfit
      have hj : j + 1 < 2 ^ 64 := by omega
      have hrlt : cumVal lj lm < 2 ^ 64 := by
        rcases cumVal_lt lj lm hm with h | h
        · exact h
        · omega
      rw [get_ui_of_lt hfit.1, get_ui_of_lt hfit.2, get_ui_of_lt hrlt,
        get_ui_of_lt (by omega : lj < 2 ^ 64), Nat.mod_eq_of_lt (by omega : lj + 1 < 2 ^ 64),
        ulongFor_eq_mpzFor _ j hj fuel (lj + 1) _ (by omega),
        mpzFor_mulmod64_cumVal lm _ lj (by rw [hk]; exact hw hfit.1 hfit.2), hk]
      rfl
    · rw [if_neg hfit]
      simp only [mpzFor_mulmod_cumVal lm, hk]

/-- The two evaluators compute the same value except at `(j, m) = (1, 1)`. -/
theorem cumVal_eq_stateless (j m : Nat) (hm : 1 ≤ m) (h11 : ¬(j = 1 ∧ m = 1)) :
    cumVal j m = if 2 ≤ j then j ! % m else 1 := by
  unfold cumVal
  by_cases h2 : 2 ≤ j
  · rw [if_pos h2, if_pos (by omega)]
  · rw [if_neg h2]
    by_cases h1 : 1 ≤ j
    · have hj : j = 1 := by omega
      subst hj
      have hm2 : 2 ≤ m := by
        by_contra h
        exact h11 ⟨rfl, by omega⟩
      rw [if_pos h1, Nat.factorial_one, Nat.mod_eq_of_lt (by omega)]
    · rw [if_neg h1]

/-- A native product whose factors have a product below `2 ^ 64`, or whose modulus is at
most `2 ^ 32`, keeps its residue. -/
theorem wrap_keeps_residue (j m : Nat) (hm : 1 ≤ m) (h : m ≤ 2 ^ 32 ∨ m * j ≤ 2 ^ 64) :
    ∀ w, w ≤ j → (((w - 1)! % m * w) % 2 ^ 64) % m = ((w - 1)! % m * w) % m := by
  intro w hwj
  have hr : (w - 1)! % m < m := Nat.mod_lt _ (by omega)
  by_cases hw0 : w = 0
  · subst hw0; simp
  have hsmall : m * w ≤ 2 ^ 64 → (w - 1)! % m * w < 2 ^ 64 := by
    intro hle
    calc (w - 1)! % m * w < m * w := Nat.mul_lt_mul_of_pos_right hr (by omega)
      _ ≤ 2 ^ 64 := hle
  rcases h with h | h
  · by_cases hwm : w ≤ m
    · have : m * w ≤ 2 ^ 64 := by
        calc m * w ≤ 2 ^ 32 * 2 ^ 32 := Nat.mul_le_mul h (by omega)
          _ = 2 ^ 64 := by norm_num
      rw [Nat.mod_eq_of_lt (hsmall this)]
    · have h0 : (w - 1)! % m = 0 :=
        Nat.mod_eq_zero_of_dvd (Nat.dvd_factorial (by omega) (by omega))
      rw [h0]; simp
  · have : m * w ≤ 2 ^ 64 := le_trans (Nat.mul_le_mul_left m hwj) h
    rw [Nat.mod_eq_of_lt (hsmall this)]

theorem callsNotCumulative_eq (fuel : Nat) :
    ∀ (calls : List (Nat × Nat)),
      (∀ c ∈ calls, 1 ≤ c.2 ∧ (c.1 + 1 < 2 ^ 64 ∨ 2 ^ 64 ≤ c.2 ∨ 2 ^ 64 ≤ c.1) ∧ c.1 < fuel) →
      callsNotCumulative fuel calls
        = some (calls.map fun c => if 2 ≤ c.1 then c.1 ! % c.2 else 1) := by
  intro calls
  induction calls with
  | nil => intro _; rfl
  | cons p rest ih =>
    intro h
    obtain ⟨hm, hp, hf⟩ := h p (List.mem_cons_self _ _)
    have h1 := modFactNotCumulative_eq fuel p.1 p.2 (by omega) hf (by omega)
    rw [callsNotCumulative, h1, ih (fun c hc => h c (List.mem_cons_of_mem _ hc))]
    rfl

theorem callsCumulative_eq (fuel : Nat) :
    ∀ (calls : List (Nat × Nat)) (c : ModFactCtx) (prev : Nat × Nat),
      (c.initialized = false ∨ c = ⟨true, cumVal prev.1 prev.2, prev.1, prev.2⟩) →
      (c.initialized = true → List.Chain (fun p q : Nat × Nat => p.2 ≠ q.2 ∨ p.1 ≤ q.1) prev calls) →
      (c.initialized = false → List.Chain' (fun p q : Nat × Nat => p.2 ≠ q.2 ∨ p.1 ≤ q.1) calls) →
      (∀ c ∈ calls, 1 ≤ c.2 ∧ (c.1 + 1 < 2 ^ 64 ∨ 2 ^ 64 ≤ c.2 ∨ 2 ^ 64 ≤ c.1) ∧ c.1 < fuel ∧
        (c.2 < 2 ^ 64 → c.1 < 2 ^ 64 → ∀ w, w ≤ c.1 →
          (((w - 1)! % c.2 * w) % 2 ^ 64) % c.2 = ((w - 1)! % c.2 * w) % c.2)) →
      callsCumulative fuel c calls = some (calls.map fun c => cumVal c.1 c.2) := by
  intro calls
  induction calls with
  | nil => intro _ _ _ _ _ _; rfl
  | cons p rest ih =>
    intro c prev hc hch1 hch2 h
    obtain ⟨hm, hp, hf, hw⟩ := h p (List.mem_cons_self _ _)
    have hcall : modFactIsCumulative fuel c p.1 p.2
        = some (cumVal p.1 p.2, ⟨true, cumVal p.1 p.2, p.1, p.2⟩) := by
      apply modFactIsCumulative_cumVal fuel c p.1 p.2 hm hp hf hw
      rcases hc with hc | hc
      · exact Or.inl hc
      · have hR := (List.chain_cons.mp (hch1 (by rw [hc]))).1
        rcases hR with hR | hR
        · exact Or.inr (Or.inl (by rw [hc]; exact hR))
        · by_cases hmod : prev.2 = p.2
          · exact Or.inr (Or.inr ⟨by rw [hc]; exact hR, by rw [hc]; simp only; rw [hmod]⟩)
          · exact Or.inr (Or.inl (by rw [hc]; exact hmod))
    have hrest : List.Chain (fun p q : Nat × Nat => p.2 ≠ q.2 ∨ p.1 ≤ q.1) p rest := by
      rcases hc with hc | hc
      · exact hch2 hc
      · exact (List.chain_cons.mp (hch1 (by rw [hc]))).2
    rw [callsCumulative, hcall]
    simp only [Option.some_bind]
    rw [ih ⟨true, cumVal p.1 p.2, p.1, p.2⟩ p (Or.inr rfl) (fun _ => hrest)
      (fun h => by cases h) (fun c hc => h c (List.mem_cons_of_mem _ hc))]
    rfl

/-- C8, amended: on a fresh context, for every sequence of calls `(j, m)` with `m ≥ 1` in
which (a) no call has a smaller `j` than the call before it with the same modulus, (b) no
call is `(1, 1)`, (c) no call takes the native branch with `j = 2 ^ 64 - 1` (where neither
evaluator returns), and (d) on the native branch (`m < 2 ^ 64` and `j < 2 ^ 64`) no product
`((w - 1)! mod m) * w` with `w ≤ j` changes its residue modulo `m` by wrapping modulo
`2 ^ 64`, the cumulative evaluator returns for each call what the stateless evaluator
returns for it, namely `j! mod m` for `j ≥ 2` and `1` for `j ≤ 1`.  Condition (d) holds
whenever `m ≤ 2 ^ 32` or `m * j ≤ 2 ^ 64`. -/
theorem C8_cumulative_calls (fuel : Nat) (calls : List (Nat × Nat))
    (hmono : List.Chain' (fun p q : Nat × Nat => p.2 ≠ q.2 ∨ p.1 ≤ q.1) calls)
    (hok : ∀ c ∈ calls, 1 ≤ c.2 ∧ ¬(c.1 = 1 ∧ c.2 = 1) ∧
      (c.1 + 1 < 2 ^ 64 ∨ 2 ^ 64 ≤ c.2 ∨ 2 ^ 64 ≤ c.1) ∧ c.1 < fuel ∧
      (c.2 < 2 ^ 64 → c.1 < 2 ^ 64 → ∀ w, w ≤ c.1 →
        (((w - 1)! % c.2 * w) % 2 ^ 64) % c.2 = ((w - 1)! % c.2 * w) % c.2)) :
    callsCumulative fuel ModFactCtx.fresh calls = callsNotCumulative fuel calls ∧
      callsNotCumulative fuel calls
        = some (calls.map fun c => if 2 ≤ c.1 then c.1 ! % c.2 else 1) ∧
      (∀ j m : Nat, 1 ≤ m → (m ≤ 2 ^ 32 ∨ m * j ≤ 2 ^ 64) → ∀ w, w ≤ j →
        (((w - 1)! % m * w) % 2 ^ 64) % m = ((w - 1)! % m * w) % m) := by
  have h1 := callsCumulative_eq fuel calls ModFactCtx.fresh (0, 0) (Or.inl rfl)
    (fun h => by cases h) (fun _ => hmono)
    (fun c hc => ⟨(hok c hc).1, (hok c hc).2.2.1, (hok c hc).2.2.2.1, (hok c hc).2.2.2.2⟩)
  have h2 := callsNotCumulative_eq fuel calls
    (fun c hc => ⟨(hok c hc).1, (hok c hc).2.2.1, (hok c hc).2.2.2.1⟩)
  have h3 : (calls.map fun c : Nat × Nat => cumVal c.1 c.2)
      = calls.map fun c : Nat × Nat => if 2 ≤ c.1 then c.1 ! % c.2 else 1 := by
    apply List.map_congr_left
    intro c hc
    exact cumVal_eq_stateless c.1 c.2 (hok c hc).1 (hok c hc).2.1
  exact ⟨by rw [h1, h2, h3], h2, fun j m hm h => wrap_keeps_residue j m hm h⟩

/-- C8, amended, on a sequence that starts as the inner sum calls it (`(0, 1)`, `(1, 2)`,
`(2, 3)`, `(3, 4)`), continues with a native modulus above `2 ^ 32`, a repeated `j`, a return
to an earlier modulus with a smaller `j`, and modulus `1`. -/
theorem C8_cumulative_calls_witness :
    callsCumulative 8 ModFactCtx.fresh
        [(0, 1), (1, 2), (2, 3), (3, 4), (5, 2 ^ 40), (6, 2 ^ 40), (6, 2 ^ 40), (2, 5), (1, 7),
          (0, 1), (2, 1)]
      = callsNotCumulative 8
        [(0, 1), (1, 2), (2, 3), (3, 4), (5, 2 ^ 40), (6, 2 ^ 40), (6, 2 ^ 40), (2, 5), (1, 7),
          (0, 1), (2, 1)] ∧
    callsNotCumulative 8
        [(0, 1), (1, 2), (2, 3), (3, 4), (5, 2 ^ 40), (6, 2 ^ 40), (6, 2 ^ 40), (2, 5), (1, 7),
          (0, 1), (2, 1)]
      = some [1, 1, 2, 2, 120, 720, 720, 2, 1, 1, 0] :=
  have h := C8_cumulative_calls 8
    [(0, 1), (1, 2), (2, 3), (3, 4), (5, 2 ^ 40), (6, 2 ^ 40), (6, 2 ^ 40), (2, 5), (1, 7),
      (0, 1), (2, 1)] (by simp) (by decide)
  ⟨h.1, h.2.1.trans (by decide)⟩

/-- The inner-sum functions return `1 + π(i)` for `i ≥ 1`. -/
theorem innerSum_value (cfg : Config) (fuel : Nat) (s : State) (i : Nat) (hf : i ≤ fuel)
    (hc : cfg.modFact = .modFactIsCumulative → 2 ≤ fuel ∧ i ≤ 2 ^ 32) :
    (innerSumNotCumulative cfg fuel s i).map Prod.fst
        = some (if i = 0 then 0 else 1 + Nat.primeCounting i) ∧
      ∃ s', innerSumIsCumulative cfg fuel (reset_innerSumCumulative s) i
          = some (if i = 0 then 0 else 1 + Nat.primeCounting i, s') ∧
        s'.glob = ⟨i, if i = 0 then 0 else 1 + Nat.primeCounting i⟩ := by
  have hv := innerSumVal_eq cfg i (fun h => (hc h).2)
  constructor
  · obtain ⟨c', h, _⟩ := innerSumNotCumulative_eq cfg fuel s i hf (fun h => (hc h).1)
    rw [h, hv]; rfl
  · obtain ⟨c', h, _⟩ := innerSumIsCumulative_eq cfg fuel (reset_innerSumCumulative s) i hf
      (fun h => (hc h).1) (by simp [reset_innerSumCumulative])
      (by simp [reset_innerSumCumulative, conc.innerSumVal_zero]) (MfPre_one _ _)
    rw [hv] at h
    exact ⟨_, h, rfl⟩

/-- C9, refuted as stated: `InnerSum(1) = 1` although no prime is `≤ 1`, for the stateless
accumulator and for `prevSum` of the cumulative context after the call at `1`. -/
theorem C9_counterexample :
    (innerSumNotCumulative (init_cumulative false false) 1 State.fresh 1).map Prod.fst = some 1 ∧
    (∃ s', innerSumIsCumulative (init_cumulative false true) 2 State.fresh 1 = some (1, s') ∧
      s'.glob = ⟨1, 1⟩) ∧
    Nat.primeCounting 1 = 0 := by
  have hpi : Nat.primeCounting 1 = 0 := by simp
  have h1 := innerSum_value (init_cumulative false false) 1 State.fresh 1 (by decide)
    (fun h => by simp [init_cumulative] at h)
  have h2 := innerSum_value (init_cumulative false true) 2 State.fresh 1 (by decide)
    (fun _ => by decide)
  simp only [hpi] at h1 h2
  exact ⟨h1.1, h2.2, hpi⟩

/-- C9, amended: for every `i ≥ 1`, `InnerSum(i)` as computed by `innerSumNotCumulative` is
`1` plus the number of primes `≤ i` (the summand at `j = 1` is `1`), and `InnerSum(0) = 0`;
after `innerSumIsCumulative(i)` on a reset context `lastIndex = i` and `prevSum` is the same
number.  With the cumulative evaluator this is for `i ≤ 2 ^ 32`, where its native product
cannot overflow. -/
theorem C9_innerSum_prime_count (cfg : Config) (fuel : Nat) (s : State) (i : Nat)
    (hf : i ≤ fuel) (hc : cfg.modFact = .modFactIsCumulative → 2 ≤ fuel ∧ i ≤ 2 ^ 32) :
    (innerSumNotCumulative cfg fuel s i).map Prod.fst
        = some (if i = 0 then 0 else 1 + Nat.primeCounting i) ∧
      ∃ s', innerSumIsCumulative cfg fuel (reset_innerSumCumulative s) i
          = some (if i = 0 then 0 else 1 + Nat.primeCounting i, s') ∧
        s'.glob = ⟨i, if i = 0 then 0 else 1 + Nat.primeCounting i⟩ :=
  innerSum_value cfg fuel s i hf hc

/-- C9, amended, at `i = 10` in the stateless and in the cumulative configuration. -/
theorem C9_innerSum_prime_count_witness :
    ((innerSumNotCumulative (init_cumulative false false) 10 State.fresh 10).map Prod.fst
        = some (if 10 = 0 then 0 else 1 + Nat.primeCounting 10) ∧
      ∃ s', innerSumIsCumulative (init_cumulative false false) 10
            (reset_innerSumCumulative State.fresh) 10
          = some (if 10 = 0 then 0 else 1 + Nat.primeCounting 10, s') ∧
        s'.glob = ⟨10, if 10 = 0 then 0 else 1 + Nat.primeCounting 10⟩) ∧
    ((innerSumNotCumulative (init_cumulative false true) 10 State.fresh 10).map Prod.fst
        = some (if 10 = 0 then 0 else 1 + Nat.primeCounting 10) ∧
      ∃ s', innerSumIsCumulative (init_cumulative false true) 10
            (reset_innerSumCumulative State.fresh) 10
          = some (if 10 = 0 then 0 else 1 + Nat.primeCounting 10, s') ∧
        s'.glob = ⟨10, if 10 = 0 then 0 else 1 + Nat.primeCounting 10⟩) :=
  ⟨C9_innerSum_prime_count (init_cumulative false false) 10 State.fresh 10 (by decide)
      (by decide),
    C9_innerSum_prime_count (init_cumulative false true) 10 State.fresh 10 (by decide)
      (by decide)⟩

theorem callsInnerSum_cumulative (cfg : Config) (fuel : Nat) (s0 : State)
    (hf2 : cfg.modFact = .modFactIsCumulative → 2 ≤ fuel) :
    ∀ (is : List Nat) (s : State) (L : Nat),
      s.glob = ⟨L, innerSumVal cfg L⟩ → MfPre cfg s.mf (L + 1) →
      List.Chain (fun a b : Nat => a ≤ b) L is → (∀ i ∈ is, i ≤ fuel) →
      ∃ l, callsInnerSum (innerSumIsCumulative cfg fuel) s is = some l ∧
        List.Forall₂ (fun i (r : Nat × State) =>
          (innerSumNotCumulative cfg fuel s0 i).map Prod.fst = some r.1 ∧
            r.2.glob = ⟨i, r.1⟩) is l := by
  intro is
  induction is with
  | nil => intro s L _ _ _ _; exact ⟨[], rfl, List.Forall₂.nil⟩
  | cons i rest ih =>
    intro s L hg hm hch hf
    obtain ⟨hLi, hch'⟩ := List.chain_cons.mp hch
    have hfi := hf i (List.mem_cons_self _ _)
    obtain ⟨c', h1, h2⟩ := innerSumIsCumulative_eq cfg fuel s i hfi hf2
      (by rw [hg]; exact hLi) (by rw [hg]) (by rw [hg]; exact hm)
    obtain ⟨c0, h0, _⟩ := innerSumNotCumulative_eq cfg fuel s0 i hfi hf2
    obtain ⟨l, hl, hall⟩ := ih ⟨c', ⟨i, innerSumVal cfg i⟩, s.tl⟩ i rfl h2 hch'
      (fun j hj => hf j (List.mem_cons_of_mem _ hj))
    refine ⟨(innerSumVal cfg i, ⟨c', ⟨i, innerSumVal cfg i⟩, s.tl⟩) :: l, ?_,
      List.Forall₂.cons ⟨by rw [h0]; rfl, rfl⟩ hall⟩
    rw [callsInnerSum, h1]
    simp only [Option.some_bind, hl, Option.map_some']

theorem callsInnerSum_concurrent (cfg : Config) (fuel : Nat) (s0 : State)
    (hf2 : cfg.modFact = .modFactIsCumulative → 2 ≤ fuel) :
    ∀ (is : List Nat) (s : State) (L : Nat),
      s.tl = ⟨L, innerSumVal cfg L⟩ → MfPre cfg s.mf (L + 1) →
      List.Chain (fun a b : Nat => a ≤ b) L is → (∀ i ∈ is, i ≤ fuel) →
      ∃ l, callsInnerSum (innerSumIsCumulative_concurrent cfg fuel) s is = some l ∧
        List.Forall₂ (fun i (r : Nat × State) =>
          (innerSumNotCumulative cfg fuel s0 i).map Prod.fst = some r.1 ∧
            r.2.tl = ⟨i, r.1⟩) is l := by
  intro is
  induction is with
  | nil => intro s L _ _ _ _; exact ⟨[], rfl, List.Forall₂.nil⟩
  | cons i rest ih =>
    intro s L hg hm hch hf
    obtain ⟨hLi, hch'⟩ := List.chain_cons.mp hch
    have hfi := hf i (List.mem_cons_self _ _)
    obtain ⟨c', h1, h2⟩ := innerSumIsCumulative_concurrent_eq cfg fuel s i hfi hf2
      (by rw [hg]; exact hLi) (by rw [hg]) (by rw [hg]; exact hm)
    obtain ⟨c0, h0, _⟩ := innerSumNotCumulative_eq cfg fuel s0 i hfi hf2
    obtain ⟨l, hl, hall⟩ := ih ⟨c', s.glob, ⟨i, innerSumVal cfg i⟩⟩ i rfl h2 hch'
      (fun j hj => hf j (List.mem_cons_of_mem _ hj))
    refine ⟨(innerSumVal cfg i, ⟨c', s.glob, ⟨i, innerSumVal cfg i⟩⟩) :: l, ?_,
      List.Forall₂.cons ⟨by rw [h0]; rfl, rfl⟩ hall⟩
    rw [callsInnerSum, h1]
    simp only [Option.some_bind, hl, Option.map_some']

theorem chain_zero_of_chain' (is : List Nat)
    (h : List.Chain' (fun a b : Nat => a ≤ b) is) :
    List.Chain (fun a b : Nat => a ≤ b) 0 is := by
  cases is with
  | nil => exact List.Chain.nil
  | cons i rest => exact List.Chain.cons (Nat.zero_le _) h

/-- C10: for every non-decreasing sequence of indices applied to an inner-sum context
reset to `(0, 0)`, every call of `innerSumIsCumulative` (and likewise of
`innerSumIsCumulative_concurrent`) returns, returns the value `innerSumNotCumulative`
returns for that index (from any statics `s0`), and leaves `last_i` at the index and `prev`
at that value; with either evaluator behind the pointer `modFact`. -/
theorem C10_cumulative_innerSum_calls (cfg : Config) (fuel : Nat) (s s0 : State)
    (is : List Nat) (hmono : List.Chain' (fun a b : Nat => a ≤ b) is)
    (hf : ∀ i ∈ is, i ≤ fuel) (hf2 : cfg.modFact = .modFactIsCumulative → 2 ≤ fuel) :
    (∃ l, callsInnerSum (innerSumIsCumulative cfg fuel) (reset_innerSumCumulative s) is = some l ∧
      List.Forall₂ (fun i (r : Nat × State) =>
        (innerSumNotCumulative cfg fuel s0 i).map Prod.fst = some r.1 ∧
          r.2.glob = ⟨i, r.1⟩) is l) ∧
    (∃ l, callsInnerSum (innerSumIsCumulative_concurrent cfg fuel) (reset_thread_innerSum s) is
        = some l ∧
      List.Forall₂ (fun i (r : Nat × State) =>
        (innerSumNotCumulative cfg fuel s0 i).map Prod.fst = some r.1 ∧
          r.2.tl = ⟨i, r.1⟩) is l) :=
  ⟨callsInnerSum_cumulative cfg fuel s0 hf2 is (reset_innerSumCumulative s) 0
      (by simp [reset_innerSumCumulative, conc.innerSumVal_zero]) (MfPre_one _ _)
      (chain_zero_of_chain' is hmono) hf,
    callsInnerSum_concurrent cfg fuel s0 hf2 is (reset_thread_innerSum s) 0
      (by simp [reset_thread_innerSum, conc.innerSumVal_zero]) (MfPre_one _ _)
      (chain_zero_of_chain' is hmono) hf⟩

/-- C10 on the indices `2, 2, 5, 9` in the cumulative configuration. -/
theorem C10_cumulative_innerSum_calls_witness :
    (∃ l, callsInnerSum (innerSumIsCumulative (init_cumulative false true) 9)
          (reset_innerSumCumulative State.fresh) [2, 2, 5, 9] = some l ∧
      List.Forall₂ (fun i (r : Nat × State) =>
        (innerSumNotCumulative (init_cumulative false true) 9 State.fresh i).map Prod.fst
            = some r.1 ∧
          r.2.glob = ⟨i, r.1⟩) [2, 2, 5, 9] l) ∧
    (∃ l, callsInnerSum (innerSumIsCumulative_concurrent (init_cumulative false true) 9)
          (reset_thread_innerSum State.fresh) [2, 2, 5, 9] = some l ∧
      List.Forall₂ (fun i (r : Nat × State) =>
        (innerSumNotCumulative (init_cumulative false true) 9 State.fresh i).map Prod.fst
            = some r.1 ∧
          r.2.tl = ⟨i, r.1⟩) [2, 2, 5, 9] l) :=
  C10_cumulative_innerSum_calls (init_cumulative false true) 9 State.fresh State.fresh
    [2, 2, 5, 9] (by simp) (by decide) (by decide)

/-- The call `modFact(0, 1)` of the cumulative evaluator on a fresh context returns `1`. -/
theorem modFactIsCumulative_fresh_zero_one (fuel : Nat) (hf : 1 ≤ fuel) :
    modFactIsCumulative fuel ModFactCtx.fresh 0 1 = some (1, ⟨true, 1, 0, 1⟩) := by
  rw [modFactIsCumulative_reset fuel ModFactCtx.fresh 0 1 (Or.inl rfl) (by norm_num) (by omega)]
  rfl

/-- C12: for `j = 1` the summand `floor(cos(pi * (modFact(0, 1) + 1) / 1) ^ 2)` is `1` in
exact real arithmetic (it is `1` for every value of `modFact(0, 1)`): with the stateless
evaluator, which returns `1`, and with the cumulative evaluator on a fresh context, which
returns `1`; hence `InnerSum(1) = 1` for the three accumulators. -/
theorem C12_indicator_one (fuel : Nat) (isConcurrent : Bool) (s : State) (hf : 1 ≤ fuel) :
    (∀ f, indicator f 1 = 1) ∧
    (modFactNotCumulative fuel 0 1 = some 1 ∧
      (modFactNotCumulative fuel 0 1).map (fun f => indicator f 1) = some 1) ∧
    ((modFactIsCumulative fuel ModFactCtx.fresh 0 1).map Prod.fst = some 1 ∧
      (modFactIsCumulative fuel ModFactCtx.fresh 0 1).map (fun p => indicator p.1 1)
        = some 1) ∧
    (innerSumNotCumulative (init_cumulative isConcurrent false) fuel s 1).map Prod.fst
      = some 1 ∧
    (innerSumIsCumulative (init_cumulative false true) fuel
        ⟨ModFactCtx.fresh, ⟨0, 0⟩, s.tl⟩ 1).map Prod.fst = some 1 ∧
    (innerSumIsCumulative_concurrent (init_cumulative true true) fuel
        ⟨ModFactCtx.fresh, s.glob, ⟨0, 0⟩⟩ 1).map Prod.fst = some 1 := by
  have hs : modFactNotCumulative fuel 0 1 = some 1 := by
    rw [modFactNotCumulative_eq fuel 0 1 (by norm_num) (by omega) (by norm_num)]
    rfl
  have hc := modFactIsCumulative_fresh_zero_one fuel hf
  refine ⟨indicator_one, ⟨hs, ?_⟩, ⟨?_, ?_⟩, ?_, ?_, ?_⟩
  · rw [hs]; exact congrArg some (indicator_one 1)
  · rw [hc]; rfl
  · rw [hc]; exact congrArg some (indicator_one 1)
  · simp [innerSumNotCumulative, mpzLoop, modFact, init_cumulative, hs, indicator_one]
  · simp [innerSumIsCumulative, mpzLoop, modFact, init_cumulative, hc, indicator_one]
  · simp [innerSumIsCumulative_concurrent, mpzLoop, modFact, init_cumulative, hc, indicator_one]

/-- C12 with fuel `1` on the statics of program start. -/
theorem C12_indicator_one_witness :
    (∀ f, indicator f 1 = 1) ∧
    (modFactNotCumulative 1 0 1 = some 1 ∧
      (modFactNotCumulative 1 0 1).map (fun f => indicator f 1) = some 1) ∧
    ((modFactIsCumulative 1 ModFactCtx.fresh 0 1).map Prod.fst = some 1 ∧
      (modFactIsCumulative 1 ModFactCtx.fresh 0 1).map (fun p => indicator p.1 1)
        = some 1) ∧
    (innerSumNotCumulative (init_cumulative true false) 1 State.fresh 1).map Prod.fst
      = some 1 ∧
    (innerSumIsCumulative (init_cumulative false true) 1
        ⟨ModFactCtx.fresh, ⟨0, 0⟩, State.fresh.tl⟩ 1).map Prod.fst = some 1 ∧
    (innerSumIsCumulative_concurrent (init_cumulative true true) 1
        ⟨ModFactCtx.fresh, State.fresh.glob, ⟨0, 0⟩⟩ 1).map Prod.fst = some 1 :=
  C12_indicator_one 1 true State.fresh (by decide)

/-- C13, evaluated where it fails: on a fresh context the calls `(20, m)`, `(21, m)` with
the native modulus `m = 2 ^ 64 - 1` are non-decreasing and take the native branch; the
first returns `20!`, the second returns `14197454024290336768`, which is not
`21! mod m = 14197454024290336770`: the product `20! * 21` exceeds `2 ^ 64`. -/
theorem C13_native_product_overflow :
    (fits_ulong_p (2 ^ 64 - 1) = true ∧ fits_ulong_p 20 = true ∧ fits_ulong_p 21 = true) ∧
    callsCumulative 32 ModFactCtx.fresh [(20, 2 ^ 64 - 1), (21, 2 ^ 64 - 1)]
      = some [2432902008176640000, 14197454024290336768] ∧
    20 ! % (2 ^ 64 - 1) = 2432902008176640000 ∧
    21 ! % (2 ^ 64 - 1) = 14197454024290336770 ∧
    2 ^ 64 ≤ 20 ! * 21 := by
  refine ⟨by decide, by decide, by decide, by decide, by decide⟩

/-- A call of the cumulative evaluator whose modulus differs from the stored one is the
call on a fresh context. -/
theorem modFactIsCumulative_of_ne (fuel : Nat) (c : ModFactCtx) (j m : Nat)
    (hm : c.last_mod ≠ m) :
    modFactIsCumulative fuel c j m = modFactIsCumulative fuel ModFactCtx.fresh j m := by
  rcases c with ⟨ini, r, lj, lm⟩
  have hm' : ¬ (m = lm) := fun h => hm h.symm
  cases ini <;> simp [modFactIsCumulative, ModFactCtx.fresh, hm']

/-- The cumulative evaluator leaves the modulus of the call in its context. -/
theorem modFactIsCumulative_last_mod (fuel : Nat) (c : ModFactCtx) (j m v : Nat)
    (c' : ModFactCtx) (h : modFactIsCumulative fuel c j m = some (v, c')) :
    c'.last_mod = m := by
  rcases c with ⟨ini, r, lj, lm⟩
  by_cases hm : m = lm
  · subst hm
    cases ini <;> by_cases hfit : (fits_ulong_p m && fits_ulong_p j) = true <;>
      simp [modFactIsCumulative, hfit] at h
    all_goals (obtain ⟨a, _, _, rfl⟩ := h; rfl)
  · cases ini <;> by_cases hfit : (fits_ulong_p m && fits_ulong_p j) = true <;>
      simp [modFactIsCumulative, hfit, hm] at h
    all_goals (obtain ⟨a, _, _, rfl⟩ := h; rfl)

/-- In a sequence of calls in which the modulus changes on each call, every call of the
cumulative evaluator is the call on a fresh context. -/
theorem callsCumulative_of_changes (fuel : Nat) :
    ∀ (calls : List (Nat × Nat)) (c : ModFactCtx),
      List.Chain (fun p q : Nat × Nat => p.2 ≠ q.2) (c.last_j, c.last_mod) calls →
      callsCumulative fuel c calls
        = conc.joinAll (calls.map fun p =>
            (modFactIsCumulative fuel ModFactCtx.fresh p.1 p.2).map Prod.fst) := by
  intro calls
  induction calls with
  | nil => intro c _; rfl
  | cons p rest ih =>
    intro c hch
    obtain ⟨h1, h2⟩ := List.chain_cons.mp hch
    rw [callsCumulative, modFactIsCumulative_of_ne fuel c p.1 p.2 h1, List.map_cons,
      conc.joinAll]
    cases hcall : modFactIsCumulative fuel ModFactCtx.fresh p.1 p.2 with
    | none => rfl
    | some q =>
      have hq := modFactIsCumulative_last_mod fuel _ _ _ q.1 q.2 hcall
      have hch' : List.Chain (fun p q : Nat × Nat => p.2 ≠ q.2) (q.2.last_j, q.2.last_mod)
          rest := by
        cases rest with
        | nil => exact List.Chain.nil
        | cons p' rest' =>
          obtain ⟨h3, h4⟩ := List.chain_cons.mp h2
          exact List.Chain.cons (by rw [hq]; exact h3) h4
      simp only [Option.some_bind, Option.map_some', ih q.2 hch']

/-- The value computed from the reset state lies below the modulus once the loop has run. -/
theorem cumResetVal_lt (j m : Nat) (hj : 1 ≤ j) (hm : 1 ≤ m) : cumResetVal j m < m := by
  obtain ⟨k, rfl⟩ : ∃ k, j = k + 1 := ⟨j - 1, by omega⟩
  have h64 : ∀ (k w r : Nat),
      mpzFor (fun w rl => ((rl * w) % 2 ^ 64) % m) (k + 1) w r < m := by
    intro k
    induction k with
    | zero => intro w r; simp only [mpzFor]; exact Nat.mod_lt _ (by omega)
    | succ k ih => intro w r; rw [mpzFor]; exact ih _ _
  unfold cumResetVal
  split
  · exact h64 k 1 1
  · exact mpzFor_mulmod_lt m (by omega) k 1 1

/-- C14: for every prior context and every call `(j, m)`, `m ≥ 1`, of the cumulative
evaluator with `m` different from the stored modulus, the call is the call on a fresh
context: the loop starts from `(last_j, r) = (0, 1)` with the modulus `m`, and the value
returned (below `m` for `j ≥ 1`) and the context left are the same.  Consequently, in a
sequence of calls with moduli `≥ 1` whose modulus changes on each call, as the calls
`modFact(j - 1, j)` of an inner-sum loop, every call returns the value it returns on a
fresh context. -/
theorem C14_reset_on_modulus_change (fuel : Nat) (c : ModFactCtx) (j m : Nat)
    (calls : List (Nat × Nat)) (hm1 : 1 ≤ m) (hm : c.last_mod ≠ m)
    (hcalls1 : ∀ p ∈ calls, 1 ≤ p.2)
    (hcalls : List.Chain (fun p q : Nat × Nat => p.2 ≠ q.2) (c.last_j, c.last_mod) calls) :
    modFactIsCumulative fuel c j m = modFactIsCumulative fuel ModFactCtx.fresh j m ∧
    ((j + 1 < 2 ^ 64 ∨ 2 ^ 64 ≤ m ∨ 2 ^ 64 ≤ j) → j < fuel →
      modFactIsCumulative fuel c j m
          = some (cumResetVal j m, ⟨true, cumResetVal j m, j, m⟩) ∧
        (1 ≤ j → cumResetVal j m < m)) ∧
    (callsCumulative fuel c calls
        = conc.joinAll (calls.map fun p =>
            (modFactIsCumulative fuel ModFactCtx.fresh p.1 p.2).map Prod.fst) ∧
      ∀ p ∈ calls, 1 ≤ p.1 → cumResetVal p.1 p.2 < p.2) :=
  ⟨modFactIsCumulative_of_ne fuel c j m hm,
    fun ht hf => ⟨modFactIsCumulative_reset fuel c j m (Or.inr hm) ht hf,
      fun hj => cumResetVal_lt j m hj hm1⟩,
    callsCumulative_of_changes fuel calls c hcalls,
    fun p hp hj => cumResetVal_lt p.1 p.2 hj (hcalls1 p hp)⟩

/-- C14 on the context left by the call `(4, 5)`, for the call `(5, 6)` and for the calls
`modFact(j - 1, j)`, `j = 6, 7, 8`. -/
theorem C14_reset_on_modulus_change_witness :
    modFactIsCumulative 8 ⟨true, 4, 4, 5⟩ 5 6 = modFactIsCumulative 8 ModFactCtx.fresh 5 6 ∧
    ((5 + 1 < 2 ^ 64 ∨ 2 ^ 64 ≤ 6 ∨ 2 ^ 64 ≤ 5) → 5 < 8 →
      modFactIsCumulative 8 ⟨true, 4, 4, 5⟩ 5 6
          = some (cumResetVal 5 6, ⟨true, cumResetVal 5 6, 5, 6⟩) ∧
        (1 ≤ 5 → cumResetVal 5 6 < 6)) ∧
    (callsCumulative 8 ⟨true, 4, 4, 5⟩ [(5, 6), (6, 7), (7, 8)]
        = conc.joinAll ([(5, 6), (6, 7), (7, 8)].map fun p =>
            (modFactIsCumulative 8 ModFactCtx.fresh p.1 p.2).map Prod.fst) ∧
      ∀ p ∈ [(5, 6), (6, 7), (7, 8)], 1 ≤ p.1 → cumResetVal p.1 p.2 < p.2) :=
  C14_reset_on_modulus_change 8 ⟨true, 4, 4, 5⟩ 5 6 [(5, 6), (6, 7), (7, 8)] (by decide)
    (by decide) (by decide) (by simp)

/-- C11, evaluated where it fails: in the default configuration `init_cumulative(true, true)`
the pointer `innerSum` holds `innerSumIsCumulative_concurrent`, whose `thread_local` pair
`seq::nthPrime` does not reset.  On the statics of program start `seq::nthPrime(1)` returns
`2` and leaves that pair at `(2, 2)`; the second call on the statics left by the first
returns `1`. -/
theorem C11_second_call_differs :
    seq.nthPrime (init_cumulative true true) 2 State.fresh 1
      = some (2, ⟨⟨true, 1, 1, 2⟩, ⟨0, 0⟩, ⟨2, 2⟩⟩) ∧
    seq.nthPrime (init_cumulative true true) 2 ⟨⟨true, 1, 1, 2⟩, ⟨0, 0⟩, ⟨2, 2⟩⟩ 1
      = some (1, ⟨⟨true, 1, 1, 2⟩, ⟨0, 0⟩, ⟨2, 3⟩⟩) := by
  have m1 : modFactIsCumulative 2 ModFactCtx.fresh 0 1 = some (1, ⟨true, 1, 0, 1⟩) := by decide
  have m2 : modFactIsCumulative 2 ⟨true, 1, 0, 1⟩ 1 2 = some (1, ⟨true, 1, 1, 2⟩) := by decide
  have m3 : modFactIsCumulative 2 ⟨true, 1, 1, 2⟩ 1 2 = some (1, ⟨true, 1, 1, 2⟩) := by decide
  have i1 : indicator 1 1 = 1 := indicator_one 1
  have i2 : indicator 1 2 = 1 := by rw [indicator_eq 1 2 (by norm_num)]; rfl
  have r1 : rootTerm 1 1 = 1 := by rw [rootTerm_eq 1 1 (by norm_num) (by norm_num)]; rfl
  have r2 : rootTerm 1 2 = 0 := by rw [rootTerm_eq 1 2 (by norm_num) (by norm_num)]; rfl
  have r3 : rootTerm 1 3 = 0 := by rw [rootTerm_eq 1 3 (by norm_num) (by norm_num)]; rfl
  constructor
  · simp [seq.nthPrime, mpzLoop, innerSum, innerSumIsCumulative_concurrent, modFact,
      init_cumulative, reset_innerSumCumulative, State.fresh, m1, m2, i1, i2, r1, r2]
  · simp [seq.nthPrime, mpzLoop, innerSum, innerSumIsCumulative_concurrent, modFact,
      init_cumulative, reset_innerSumCumulative, m3, i2, r2, r3]

/-- C2, evaluated where it fails: in the concurrent-cumulative configuration
`init_cumulative(true, true)`, after one call of `seq::nthPrime(1)` on the statics of
program start (it returns `2`), `conc::nthPrime(1)` with `4` workers returns `2`, while
sequential `seq::nthPrime(1)` on the statics left by that call returns `1`. -/
theorem C2_conc_differs_from_seq :
    seq.nthPrime (init_cumulative true true) 2 State.fresh 1
      = some (2, ⟨⟨true, 1, 1, 2⟩, ⟨0, 0⟩, ⟨2, 2⟩⟩) ∧
    conc.nthPrime (init_cumulative true true) 2 ⟨0, 0⟩ 4 1 = some 2 ∧
    (seq.nthPrime (init_cumulative true true) 2 ⟨⟨true, 1, 1, 2⟩, ⟨0, 0⟩, ⟨2, 2⟩⟩ 1).map Prod.fst
      = some 1 := by
  have m1 : modFactIsCumulative 2 ModFactCtx.fresh 0 1 = some (1, ⟨true, 1, 0, 1⟩) := by decide
  have m2 : modFactIsCumulative 2 ⟨true, 1, 0, 1⟩ 1 2 = some (1, ⟨true, 1, 1, 2⟩) := by decide
  have m3 : modFactIsCumulative 2 ⟨true, 1, 1, 2⟩ 1 2 = some (1, ⟨true, 1, 1, 2⟩) := by decide
  have i1 : indicator 1 1 = 1 := indicator_one 1
  have i2 : indicator 1 2 = 1 := by rw [indicator_eq 1 2 (by norm_num)]; rfl
  have r1 : rootTerm 1 1 = 1 := by rw [rootTerm_eq 1 1 (by norm_num) (by norm_num)]; rfl
  have r2 : rootTerm 1 2 = 0 := by rw [rootTerm_eq 1 2 (by norm_num) (by norm_num)]; rfl
  have r3 : rootTerm 1 3 = 0 := by rw [rootTerm_eq 1 3 (by norm_num) (by norm_num)]; rfl
  refine ⟨?_, ?_, ?_⟩
  · simp [seq.nthPrime, mpzLoop, innerSum, innerSumIsCumulative_concurrent, modFact,
      init_cumulative, reset_innerSumCumulative, State.fresh, m1, m2, i1, i2, r1, r2]
  · rw [conc.conc_nthPrime_eq (init_cumulative true true) 2 ⟨0, 0⟩ 4 1
        (by simp [init_cumulative]) (by decide) (fun _ => by decide),
      sum_rowVal_eq _ 1 (by decide) (fun _ => by decide)]
    exact congrArg some Nat.nth_prime_zero_eq_two
  · simp [seq.nthPrime, mpzLoop, innerSum, innerSumIsCumulative_concurrent, modFact,
      init_cumulative, reset_innerSumCumulative, m3, i2, r2, r3]

/-- In the three other configurations `init_cumulative` can select, two consecutive calls
of `seq::nthPrime(n)` return the same integer. -/
theorem seq_nthPrime_twice (isConcurrent isCumulative : Bool)
    (hcfg : isCumulative = false ∨ isConcurrent = false) (fuel : Nat) (s : State) (n : Nat)
    (hn : 1 ≤ n) (hf : 2 ^ n ≤ fuel) :
    ∃ v s1 s2, seq.nthPrime (init_cumulative isConcurrent isCumulative) fuel s n = some (v, s1) ∧
      seq.nthPrime (init_cumulative isConcurrent isCumulative) fuel s1 n = some (v, s2) := by
  have h2 : 2 ≤ fuel := two_le_fuel hn hf
  have hctx : ∀ t : State, CtxOk (init_cumulative isConcurrent isCumulative)
      (if (init_cumulative isConcurrent isCumulative).isCumulative then
        reset_innerSumCumulative t else t) 0 := by
    intro t
    rcases hcfg with h | h
    · subst h
      simpa [init_cumulative] using ctxOk_stateless isConcurrent t 0
    · subst h
      cases isCumulative with
      | false => simpa [init_cumulative] using ctxOk_stateless false t 0
      | true =>
        refine ⟨fun _ => ?_, fun h => ?_, fun _ => MfPre_one _ _⟩
        · simp [init_cumulative, reset_innerSumCumulative, conc.innerSumVal_zero]
        · simp [init_cumulative] at h
  obtain ⟨s1, h1, _⟩ := seq_nthPrime_eq _ fuel s n 0 hf (fun _ => h2) (hctx s) (by omega)
  obtain ⟨s2, h2', _⟩ := seq_nthPrime_eq _ fuel s1 n 0 hf (fun _ => h2) (hctx s1) (by omega)
  exact ⟨_, s1, s2, h1, h2'⟩

/-- A loop that returns ends in every invariant its returning iterations preserve. -/
theorem mpzLoop_post {σ : Type} (body : Nat → σ → Option σ) (P : Nat → σ → Prop) :
    ∀ (k lo : Nat) (s s' : σ),
      (∀ w t t', lo ≤ w → w < lo + k → P w t → body w t = some t' → P (w + 1) t') →
      P lo s → mpzLoop body k lo s = some s' → P (lo + k) s' := by
  intro k
  induction k with
  | zero =>
    intro lo s s' _ h hs
    simp only [mpzLoop, Option.some.injEq] at hs
    subst hs; exact h
  | succ k ih =>
    intro lo s s' hstep h hs
    rw [mpzLoop] at hs
    cases hb : body lo s with
    | none => rw [hb] at hs; cases hs
    | some t =>
      rw [hb] at hs
      have hP := hstep lo s t (le_refl _) (by omega) h hb
      have := ih (lo + 1) t s' (fun w a b hw hlt => hstep w a b (by omega) (by omega)) hP hs
      have e : lo + (k + 1) = lo + 1 + k := by omega
      rw [e]; exact this

theorem rootTerm_le_one (n s : Nat) (hn : 1 ≤ n) (hs : s ≠ 0) : rootTerm n s ≤ 1 := by
  rw [rootTerm_eq n s hn (by omega)]
  split <;> omega

/-- Every row adds `0` or `1`. -/
theorem compute_row_le_one (cfg : Config) (fuel : Nat) (s : State) (i n : Nat) (hn : 1 ≤ n)
    (q : Nat × State) (h : conc.compute_row cfg fuel s i n = some q) : q.1 ≤ 1 := by
  unfold conc.compute_row at h
  cases hi : innerSum cfg fuel s i with
  | none => rw [hi] at h; cases h
  | some r =>
    rw [hi] at h
    simp only [Option.map_some', Option.some.injEq] at h
    rw [← h]
    simp only
    split
    · omega
    · exact rootTerm_le_one n r.1 hn (by assumption)

/-- What `seq::nthPrime(n)` returns lies between `1` and `2 ^ n + 1`. -/
theorem seq_nthPrime_bounds (cfg : Config) (fuel : Nat) (s : State) (n : Nat) (hn : 1 ≤ n)
    (v : Nat) (s' : State) (h : seq.nthPrime cfg fuel s n = some (v, s')) :
    1 ≤ v ∧ v ≤ 2 ^ n + 1 := by
  unfold seq.nthPrime at h
  simp only at h
  have := mpzLoop_post _ (fun w (p : Nat × State) => 1 ≤ p.1 ∧ p.1 ≤ w) _ _ _ _
    (by
      rintro w ⟨acc, t⟩ ⟨acc', t'⟩ hw _ ⟨h1, h2⟩ hb
      cases hi : innerSum cfg fuel t w with
      | none => rw [hi] at hb; cases hb
      | some r =>
        rw [hi] at hb
        simp only [Option.map_some', Option.some.injEq, Prod.mk.injEq] at hb
        obtain ⟨hacc, _⟩ := hb
        simp only at h1 h2 ⊢
        rw [← hacc]
        by_cases h0 : r.1 = 0
        · simp only [h0, ne_eq, not_true_eq_false, if_false]; omega
        · have := rootTerm_le_one n r.1 hn h0
          simp only [ne_eq, h0, not_false_eq_true, if_true]; omega)
    (by simp) h
  have hpos : 0 < 2 ^ n := Nat.two_pow_pos n
  simp only at this
  omega

end WF

namespace WF.conc

/-- What a worker writes is at most the size of its range. -/
theorem worker_le (cfg : Config) (fuel : Nat) (glob : InnerSumCtx) (n start stop : Nat)
    (hn : 1 ≤ n) (v : Nat) (h : worker cfg fuel glob n start stop = some v) :
    v ≤ stop - start := by
  unfold worker at h
  simp only at h
  cases hl : mpzLoop
      (fun i (p : Nat × State) =>
        (compute_row cfg fuel p.2 (i + 1) n).map fun q => (p.1 + q.1, q.2))
      (stop - start) start (0, reset_thread_innerSum ⟨ModFactCtx.fresh, glob, ⟨0, 0⟩⟩) with
  | none => rw [hl] at h; cases h
  | some p =>
    rw [hl] at h
    simp only [Option.map_some', Option.some.injEq] at h
    have := mpzLoop_post _ (fun w (p : Nat × State) => p.1 + start ≤ w) _ _ _ _
      (by
        rintro w ⟨acc, t⟩ ⟨acc', t'⟩ hw _ h1 hb
        cases hc : compute_row cfg fuel t (w + 1) n with
        | none => rw [hc] at hb; cases hb
        | some q =>
          rw [hc] at hb
          simp only [Option.map_some', Option.some.injEq, Prod.mk.injEq] at hb
          have := compute_row_le_one cfg fuel t (w + 1) n hn q hc
          simp only at h1 ⊢
          omega)
      (by simp) hl
    simp only at this
    omega

theorem joinAll_sum_le {α : Type} (f : α → Option Nat) (g : α → Nat)
    (hfg : ∀ x v, f x = some v → v ≤ g x) :
    ∀ (xs : List α) (ps : List Nat), joinAll (xs.map f) = some ps → ps.sum ≤ (xs.map g).sum := by
  intro xs
  induction xs with
  | nil =>
    intro ps h
    simp only [List.map_nil, joinAll, Option.some.injEq] at h
    subst h; simp
  | cons x xs ih =>
    intro ps h
    simp only [List.map_cons, joinAll] at h
    cases hx : f x with
    | none => rw [hx] at h; cases h
    | some a =>
      rw [hx] at h
      cases hr : joinAll (xs.map f) with
      | none => rw [hr] at h; cases h
      | some as =>
        rw [hr] at h
        simp only [Option.some_bind, Option.map_some', Option.some.injEq] at h
        subst h
        have h1 := hfg x a hx
        have h2 := ih as hr
        simp only [List.map_cons, List.sum_cons]
        omega

theorem partitions_sizes_sum (total w : Nat) (hw : 1 ≤ w) :
    ((partitions total w).map fun p => p.2 - p.1).sum = total := by
  have h := partitionLoop_sum (fun _ => 1) (total / w) (total % w) w 0 0
  rw [partEnd_partitions total w hw] at h
  simp only [Finset.sum_const, smul_eq_mul, mul_one, Nat.card_Ico] at h
  unfold partitions
  have e : (fun p : Nat × Nat => p.2 + 1 - (p.1 + 1)) = fun p => p.2 - p.1 := by
    funext p; omega
  rw [e] at h
  omega

/-- What `conc::nthPrime(n)` returns lies between `1` and `2 ^ n + 1`. -/
theorem conc_nthPrime_bounds (cfg : Config) (fuel : Nat) (glob : InnerSumCtx) (hc n : Nat)
    (hn : 1 ≤ n) (v : Nat) (h : nthPrime cfg fuel glob hc n = some v) :
    1 ≤ v ∧ v ≤ 2 ^ n + 1 := by
  have hw : 1 ≤ (if hc = 0 then 4 else hc) := by split <;> omega
  unfold nthPrime at h
  simp only at h
  cases hj : joinAll ((partitions (2 ^ n) (if hc = 0 then 4 else hc)).map
      fun p => worker cfg fuel glob n p.1 p.2) with
  | none => rw [hj] at h; cases h
  | some ps =>
    rw [hj] at h
    simp only [Option.map_some', Option.some.injEq, foldl_add_eq] at h
    have h1 := joinAll_sum_le (fun p : Nat × Nat => worker cfg fuel glob n p.1 p.2)
      (fun p => p.2 - p.1) (fun p v hv => worker_le cfg fuel glob n p.1 p.2 hn v hv) _ ps hj
    rw [partitions_sizes_sum _ _ hw] at h1
    omega

end WF.conc

namespace WF

/-- The inner sum, the row and the outer sum in the stateless configuration, with the
guard `inner_sum != 0` resolved. -/
theorem stateless_guard (isConcurrent : Bool) (fuel : Nat) (s : State) (i n : Nat)
    (hi : 1 ≤ i) (hf : i ≤ fuel) :
    (innerSumNotCumulative (init_cumulative isConcurrent false) fuel s i).map Prod.fst
      = some (1 + Nat.primeCounting i) ∧
    (innerSum (init_cumulative isConcurrent false) fuel s i).map Prod.fst
      = some (1 + Nat.primeCounting i) ∧
    (conc.compute_row (init_cumulative isConcurrent false) fuel s i n).map Prod.fst
      = some (rootTerm n (1 + Nat.primeCounting i)) ∧
    (2 ^ n ≤ fuel →
      (seq.nthPrime (init_cumulative isConcurrent false) fuel s n).map Prod.fst
        = some (1 + ∑ k in Finset.Ico 1 (2 ^ n + 1), rootTerm n (1 + Nat.primeCounting k))) := by
  have hmf : (init_cumulative isConcurrent false).modFact ≠ .modFactIsCumulative := by
    simp [init_cumulative]
  have hval : ∀ k, 1 ≤ k →
      innerSumVal (init_cumulative isConcurrent false) k = 1 + Nat.primeCounting k := by
    intro k hk
    rw [innerSumVal_eq _ k (fun h => absurd h hmf), if_neg (by omega)]
  have hrow : ∀ k, 1 ≤ k → rowVal (init_cumulative isConcurrent false) n k
      = rootTerm n (1 + Nat.primeCounting k) := by
    intro k hk
    rw [rowVal, hval k hk, if_neg (by omega)]
  refine ⟨?_, ?_, ?_, ?_⟩
  · obtain ⟨c', h, _⟩ := innerSumNotCumulative_eq (init_cumulative isConcurrent false) fuel s i
      hf (fun h => absurd h hmf)
    rw [h, hval i hi]; rfl
  · obtain ⟨s', h, _⟩ := innerSum_eq (init_cumulative isConcurrent false) fuel s 0 i hf
      (fun h => absurd h hmf) (ctxOk_stateless _ _ _) (by omega)
    rw [h, hval i hi]; rfl
  · obtain ⟨s', h, _⟩ := conc.compute_row_eq (init_cumulative isConcurrent false) fuel s 0 i n
      hf (fun h => absurd h hmf) (ctxOk_stateless _ _ _) (by omega)
    rw [h, hrow i hi]; rfl
  · intro hf2
    obtain ⟨s', h, _⟩ := seq_nthPrime_eq (init_cumulative isConcurrent false) fuel s n 0 hf2
      (fun h => absurd h hmf) (ctxOk_stateless _ _ _) (by omega)
    rw [h]
    simp only [Option.map_some']
    congr 2
    apply Finset.sum_congr rfl
    intro k hk
    rw [Finset.mem_Ico] at hk
    exact hrow k hk.1

theorem innerSumVal_pos (cfg : Config) (k : Nat) (hk : 1 ≤ k) : 1 ≤ innerSumVal cfg k := by
  induction k with
  | zero => omega
  | succ k ih =>
    rw [innerSumVal_succ]
    by_cases h0 : k = 0
    · subst h0
      have : indOf cfg (0 + 1) = 1 := by unfold indOf; exact indicator_one _
      omega
    · have := ih (by omega)
      omega

/-- The row is the root term of the inner sum: `1` while the inner sum is at most `n`. -/
theorem rowVal_eq_root (cfg : Config) (n k : Nat) (hn : 1 ≤ n) (hk : 1 ≤ k) :
    rowVal cfg n k = if innerSumVal cfg k ≤ n then 1 else 0 := by
  have hp := innerSumVal_pos cfg k hk
  rw [rowVal, if_neg (by omega), rootTerm_eq n _ hn hp]

theorem sum_ite_le_card (n : Nat) (f : Nat → Nat) :
    ∑ k in Finset.Ico 1 (2 ^ n + 1), (if f k ≤ n then 1 else 0) ≤ 2 ^ n := by
  calc ∑ k in Finset.Ico 1 (2 ^ n + 1), (if f k ≤ n then 1 else 0)
      ≤ ∑ _k in Finset.Ico 1 (2 ^ n + 1), 1 :=
        Finset.sum_le_sum (fun k _ => by split <;> omega)
    _ = 2 ^ n := by simp

/-- What the four runs return: `1` plus the number of rows whose inner sum is at most `n`. -/
theorem nthPrime_eq_count (cfg : Config) (fuel : Nat) (s : State) (glob : InnerSumCtx)
    (hc n : Nat) (hn : 1 ≤ n) (hf : 2 ^ n ≤ fuel)
    (hctx : CtxOk cfg (if cfg.isCumulative then reset_innerSumCumulative s else s) 0) :
    (seq.nthPrime cfg fuel s n).map Prod.fst
        = some (1 + ∑ k in Finset.Ico 1 (2 ^ n + 1), (if innerSumVal cfg k ≤ n then 1 else 0)) ∧
    (cfg.innerSum ≠ .innerSumIsCumulative →
      conc.nthPrime cfg fuel glob hc n
        = some (1 + ∑ k in Finset.Ico 1 (2 ^ n + 1),
            (if innerSumVal cfg k ≤ n then 1 else 0))) := by
  have h2 : 2 ≤ fuel := two_le_fuel hn hf
  have hsum : ∑ k in Finset.Ico 1 (2 ^ n + 1), rowVal cfg n k
      = ∑ k in Finset.Ico 1 (2 ^ n + 1), (if innerSumVal cfg k ≤ n then 1 else 0) := by
    apply Finset.sum_congr rfl
    intro k hk
    rw [Finset.mem_Ico] at hk
    exact rowVal_eq_root cfg n k hn hk.1
  constructor
  · obtain ⟨s', h, _⟩ := seq_nthPrime_eq cfg fuel s n 0 hf (fun _ => h2) hctx (by omega)
    rw [h, hsum]; rfl
  · intro hne
    rw [conc.conc_nthPrime_eq cfg fuel glob hc n hne hf (fun _ => h2), hsum]

/-- In every configuration and from any statics, `compute_row` returns exactly when the inner
sum returns, and its value is `1` when the returned inner sum lies in `[1, n]`, else `0`. -/
theorem compute_row_root (cfg : Config) (fuel : Nat) (s : State) (i n : Nat) (hn : 1 ≤ n) :
    conc.compute_row cfg fuel s i n
      = (innerSum cfg fuel s i).map fun q => (if 1 ≤ q.1 ∧ q.1 ≤ n then 1 else 0, q.2) := by
  unfold conc.compute_row
  congr 1
  funext q
  by_cases h0 : q.1 = 0
  · simp [h0]
  · rw [if_neg h0, rootTerm_eq n q.1 hn (by omega)]
    by_cases h1 : q.1 ≤ n
    · rw [if_pos h1, if_pos ⟨by omega, h1⟩]
    · rw [if_neg h1, if_neg (fun h => h1 h.2)]

/-- C15: for every `n ≥ 1` and `s ≥ 1` the root term `floor((n / s) ^ (1 / n))` of
`nthPrime` and `compute_row`, in exact real arithmetic, is `1` when `s ≤ n` and `0` when
`s > n`. Hence (1) in every configuration and from any statics `compute_row(i, n)` returns
exactly when the inner sum returns, with value `1` when the returned inner sum is in `[1, n]`
and `0` otherwise; (2) in the stateless configuration, for `1 ≤ i`, the inner sum returns
`1 + π(i)` and `compute_row` returns `1` when `1 + π(i) ≤ n`, else `0`; (3) the stateless
`seq::nthPrime(n)` and `conc::nthPrime(n)`, the cumulative `seq::nthPrime(n)` of
`init_cumulative(false, true)` and the cumulative `conc::nthPrime(n)` of
`init_cumulative(true, true)` all return, from any statics, `1` plus the number of rows
`k` in `[1, 2 ^ n]` whose inner sum is at most `n`, a value between `1` and `2 ^ n + 1`;
(4) in every configuration whatever a row returns is `0` or `1` and whatever `nthPrime`
returns lies between `1` and `2 ^ n + 1`. -/
theorem C15_root_term (n s fuel i hc : Nat) (isConcurrent : Bool) (st : State)
    (glob : InnerSumCtx) (hn : 1 ≤ n) (hs : 1 ≤ s) (hf : 2 ^ n ≤ fuel)
    (hi : 1 ≤ i) (hif : i ≤ fuel) :
    rootTerm n s = (if s ≤ n then 1 else 0) ∧
    (∀ (cfg : Config) (k : Nat) (t : State) (r : Nat),
      conc.compute_row cfg k t r n
        = (innerSum cfg k t r).map fun q => (if 1 ≤ q.1 ∧ q.1 ≤ n then 1 else 0, q.2)) ∧
    ((innerSum (init_cumulative isConcurrent false) fuel st i).map Prod.fst
        = some (1 + Nat.primeCounting i) ∧
      (conc.compute_row (init_cumulative isConcurrent false) fuel st i n).map Prod.fst
        = some (if 1 + Nat.primeCounting i ≤ n then 1 else 0)) ∧
    ((seq.nthPrime (init_cumulative isConcurrent false) fuel st n).map Prod.fst
        = some (1 + ∑ k in Finset.Ico 1 (2 ^ n + 1),
            (if 1 + Nat.primeCounting k ≤ n then 1 else 0)) ∧
      conc.nthPrime (init_cumulative isConcurrent false) fuel glob hc n
        = some (1 + ∑ k in Finset.Ico 1 (2 ^ n + 1),
            (if 1 + Nat.primeCounting k ≤ n then 1 else 0)) ∧
      1 + ∑ k in Finset.Ico 1 (2 ^ n + 1), (if 1 + Nat.primeCounting k ≤ n then 1 else 0)
        ≤ 2 ^ n + 1) ∧
    ((seq.nthPrime (init_cumulative false true) fuel st n).map Prod.fst
        = some (1 + ∑ k in Finset.Ico 1 (2 ^ n + 1),
            (if innerSumVal (init_cumulative false true) k ≤ n then 1 else 0)) ∧
      conc.nthPrime (init_cumulative true true) fuel glob hc n
        = some (1 + ∑ k in Finset.Ico 1 (2 ^ n + 1),
            (if innerSumVal (init_cumulative true true) k ≤ n then 1 else 0)) ∧
      (∀ cfg : Config, 1 + ∑ k in Finset.Ico 1 (2 ^ n + 1),
          (if innerSumVal cfg k ≤ n then 1 else 0) ≤ 2 ^ n + 1) ∧
      (∀ (cfg : Config) (k : Nat), 1 ≤ k → k ≤ 2 ^ 32 →
          innerSumVal cfg k = 1 + Nat.primeCounting k)) ∧
    (∀ (cfg : Config) (k : Nat) (t : State) (r : Nat) (q : Nat × State),
      conc.compute_row cfg k t r n = some q → q.1 = 0 ∨ q.1 = 1) ∧
    (∀ (cfg : Config) (k : Nat) (t : State) (v : Nat) (t' : State),
      seq.nthPrime cfg k t n = some (v, t') → 1 ≤ v ∧ v ≤ 2 ^ n + 1) ∧
    (∀ (cfg : Config) (k : Nat) (g : InnerSumCtx) (h v : Nat),
      conc.nthPrime cfg k g h n = some v → 1 ≤ v ∧ v ≤ 2 ^ n + 1) := by
  have hmf : (init_cumulative isConcurrent false).modFact ≠ .modFactIsCumulative := by
    simp [init_cumulative]
  have hval : ∀ k, 1 ≤ k →
      innerSumVal (init_cumulative isConcurrent false) k = 1 + Nat.primeCounting k := by
    intro k hk
    rw [innerSumVal_eq _ k (fun h => absurd h hmf), if_neg (by omega)]
  have hsum : ∑ k in Finset.Ico 1 (2 ^ n + 1),
        (if innerSumVal (init_cumulative isConcurrent false) k ≤ n then 1 else 0)
      = ∑ k in Finset.Ico 1 (2 ^ n + 1), (if 1 + Nat.primeCounting k ≤ n then 1 else 0) := by
    apply Finset.sum_congr rfl
    intro k hk
    rw [Finset.mem_Ico] at hk
    rw [hval k hk.1]
  have hS := nthPrime_eq_count (init_cumulative isConcurrent false) fuel st glob hc n hn hf
    (ctxOk_stateless _ _ _)
  have hF := nthPrime_eq_count (init_cumulative false true) fuel st glob hc n hn hf
    ⟨fun _ => by simp [init_cumulative, reset_innerSumCumulative, conc.innerSumVal_zero],
      fun h => by simp [init_cumulative] at h, fun _ => MfPre_one _ _⟩
  have hT := nthPrime_eq_count (init_cumulative true true) fuel (reset_thread_innerSum st)
    glob hc n hn hf
    ⟨fun h => by simp [init_cumulative] at h,
      fun _ => by simp [init_cumulative, reset_innerSumCumulative, reset_thread_innerSum,
        conc.innerSumVal_zero],
      fun _ => MfPre_one _ _⟩
  have hg := stateless_guard isConcurrent fuel st i n hi hif
  refine ⟨rootTerm_eq n s hn hs, fun cfg k t r => compute_row_root cfg k t r n hn,
    ⟨hg.2.1, ?_⟩, ⟨?_, ?_, ?_⟩, ⟨hF.1, hT.2 (by simp [init_cumulative]), ?_, ?_⟩, ?_, ?_, ?_⟩
  · rw [hg.2.2.1, rootTerm_eq n _ hn (by omega)]
  · rw [hS.1, hsum]
  · rw [hS.2 (by simp [init_cumulative]), hsum]
  · have := sum_ite_le_card n (fun k => 1 + Nat.primeCounting k)
    omega
  · intro cfg
    have := sum_ite_le_card n (innerSumVal cfg)
    omega
  · intro cfg k hk1 hk2
    rw [innerSumVal_eq cfg k (fun _ => hk2), if_neg (by omega)]
  · intro cfg k t r q h
    have := compute_row_le_one cfg k t r n hn q h
    omega
  · intro cfg k t v t' h
    exact seq_nthPrime_bounds cfg k t n hn v t' h
  · intro cfg k g h v hv
    exact conc.conc_nthPrime_bounds cfg k g h n hn v hv

/-- C15 at `n = 3`, `s = 4`, row `i = 5`, from the fresh statics. -/
theorem C15_root_term_witness :
    (1 ≤ 3 ∧ 1 ≤ 4 ∧ 2 ^ 3 ≤ 8 ∧ 1 ≤ 5 ∧ 5 ≤ 8) ∧
    rootTerm 3 4 = (if 4 ≤ 3 then 1 else 0) ∧
    (innerSum (init_cumulative false false) 8 State.fresh 5).map Prod.fst
        = some (1 + Nat.primeCounting 5) ∧
    (conc.compute_row (init_cumulative false false) 8 State.fresh 5 3).map Prod.fst
        = some (if 1 + Nat.primeCounting 5 ≤ 3 then 1 else 0) ∧
    (seq.nthPrime (init_cumulative false false) 8 State.fresh 3).map Prod.fst
        = some (1 + ∑ k in Finset.Ico 1 (2 ^ 3 + 1),
            (if 1 + Nat.primeCounting k ≤ 3 then 1 else 0)) ∧
    conc.nthPrime (init_cumulative true true) 8 ⟨0, 0⟩ 4 3
        = some (1 + ∑ k in Finset.Ico 1 (2 ^ 3 + 1),
            (if innerSumVal (init_cumulative true true) k ≤ 3 then 1 else 0)) :=
  have h := C15_root_term 3 4 8 5 4 false State.fresh ⟨0, 0⟩ (by decide) (by decide)
    (by decide) (by decide) (by decide)
  ⟨by decide, h.1, h.2.2.1.1, h.2.2.1.2, h.2.2.2.1.1, h.2.2.2.2.1.2.1⟩

/-- C16: for every `i ≥ 1` the stateless `InnerSum(i)` (exact real arithmetic) is `1` plus
the number of primes `≤ i`, so it is at least `1` and the divisor `inner_r` is not zero; the
guard `inner_sum != 0` succeeds: `compute_row` returns the root term, and `seq::nthPrime(n)`
returns `1` plus the sum of the root terms of all rows `1 .. 2 ^ n`. -/
theorem C16_inner_sum_positive (isConcurrent : Bool) (fuel : Nat) (s : State) (i n : Nat)
    (hi : 1 ≤ i) (hf : i ≤ fuel) :
    (∃ v, (innerSumNotCumulative (init_cumulative isConcurrent false) fuel s i).map Prod.fst
        = some v ∧
      (innerSum (init_cumulative isConcurrent false) fuel s i).map Prod.fst = some v ∧
      v = 1 + Nat.primeCounting i ∧ 1 ≤ v ∧ v ≠ 0 ∧ to_mpreal v ≠ 0 ∧
      (conc.compute_row (init_cumulative isConcurrent false) fuel s i n).map Prod.fst
        = some (rootTerm n v)) ∧
    (2 ^ n ≤ fuel →
      (seq.nthPrime (init_cumulative isConcurrent false) fuel s n).map Prod.fst
        = some (1 + ∑ k in Finset.Ico 1 (2 ^ n + 1), rootTerm n (1 + Nat.primeCounting k))) := by
  obtain ⟨h1, h2, h3, h4⟩ := stateless_guard isConcurrent fuel s i n hi hf
  refine ⟨⟨1 + Nat.primeCounting i, h1, h2, rfl, by omega, by omega, ?_, h3⟩, h4⟩
  unfold to_mpreal
  exact_mod_cast (by omega : 1 + Nat.primeCounting i ≠ 0)

/-- C16 at `i = 6`, `n = 3`: `InnerSum(6) = 1 + π(6)`. -/
theorem C16_inner_sum_positive_witness :
    (∃ v, (innerSumNotCumulative (init_cumulative false false) 8 State.fresh 6).map Prod.fst
        = some v ∧
      (innerSum (init_cumulative false false) 8 State.fresh 6).map Prod.fst = some v ∧
      v = 1 + Nat.primeCounting 6 ∧ 1 ≤ v ∧ v ≠ 0 ∧ to_mpreal v ≠ 0 ∧
      (conc.compute_row (init_cumulative false false) 8 State.fresh 6 3).map Prod.fst
        = some (rootTerm 3 v)) ∧
    (2 ^ 3 ≤ 8 →
      (seq.nthPrime (init_cumulative false false) 8 State.fresh 3).map Prod.fst
        = some (1 + ∑ k in Finset.Ico 1 (2 ^ 3 + 1), rootTerm 3 (1 + Nat.primeCounting k))) :=
  C16_inner_sum_positive false 8 State.fresh 6 3 (by decide) (by decide)

end WF

namespace WF_impl

open WF

/-- The inlined inner loop of `WF_impl.hpp` returns the inner sum of the stateless
configuration of `WF.hpp`. -/
theorem inner_loop_eq (fuel i : Nat) (hf : i ≤ fuel) :
    mpzLoop
        (fun j inner_sum =>
          (WF_base.modFact fuel (j - 1) j).map fun mf => inner_sum + indicator mf j)
        (i + 1 - 1) 1 0
      = some (innerSumVal (init_cumulative false false) i) := by
  obtain ⟨acc, hp, hacc⟩ := mpzLoop_inv
    (fun j inner_sum =>
      (WF_base.modFact fuel (j - 1) j).map fun mf => inner_sum + indicator mf j)
    (fun w acc => acc = innerSumVal (init_cumulative false false) (w - 1))
    (i + 1 - 1) 1 0
    (by
      intro w acc hw hlt hacc
      have hm : WF_base.modFact fuel (w - 1) w
          = some (if 2 ≤ w - 1 then (w - 1)! % w else 1) :=
        modFactNotCumulative_eq fuel (w - 1) w (by omega) (by omega) (by omega)
      refine ⟨acc + indicator (if 2 ≤ w - 1 then (w - 1)! % w else 1) w, ?_, ?_⟩
      · simp only [hm, Option.map_some']
      · obtain ⟨k, rfl⟩ : ∃ k, w = k + 1 := ⟨w - 1, by omega⟩
        simp only [hacc, Nat.add_sub_cancel]
        exact (innerSumVal_succ _ k).symm)
    (by simp [innerSumVal])
  have e : 1 + (i + 1 - 1) - 1 = i := by omega
  rw [e] at hacc
  rw [hp, hacc]

/-- `seq::nthPrime` of `WF_impl.hpp` returns `1` plus the rows of the stateless
configuration. -/
theorem seq_nthPrime_eq_rows (fuel n : Nat) (hf : 2 ^ n ≤ fuel) :
    seq.nthPrime fuel n
      = some (1 + ∑ i in Finset.Ico 1 (2 ^ n + 1), rowVal (init_cumulative false false) n i) := by
  obtain ⟨acc, hp, hacc⟩ := mpzLoop_inv
    (fun i outer_sum =>
      (mpzLoop
          (fun j inner_sum =>
            (WF_base.modFact fuel (j - 1) j).map fun mf => inner_sum + indicator mf j)
          (i + 1 - 1) 1 0).map
        fun inner_sum =>
          if inner_sum ≠ 0 then outer_sum + rootTerm n inner_sum else outer_sum)
    (fun w acc => acc = 1 + ∑ i in Finset.Ico 1 w, rowVal (init_cumulative false false) n i)
    (2 ^ n + 1 - 1) 1 1
    (by
      intro w acc hw hlt hacc
      refine ⟨if innerSumVal (init_cumulative false false) w ≠ 0 then
          acc + rootTerm n (innerSumVal (init_cumulative false false) w) else acc, ?_, ?_⟩
      · simp only [inner_loop_eq fuel w (by omega), Option.map_some']
      · simp only
        rw [Finset.sum_Ico_succ_top hw, hacc, rowVal]
        by_cases h0 : innerSumVal (init_cumulative false false) w = 0
        · simp [h0]
        · simp [h0, Nat.add_assoc])
    (by simp)
  have hpos : 0 < 2 ^ n := Nat.two_pow_pos n
  have e : 1 + (2 ^ n + 1 - 1) = 2 ^ n + 1 := by omega
  rw [e] at hacc
  unfold seq.nthPrime
  simp only
  rw [hp, hacc]

theorem compute_row_eq_row (fuel i n : Nat) (hf : i ≤ fuel) :
    conc.compute_row fuel i n = some (rowVal (init_cumulative false false) n i) := by
  unfold conc.compute_row
  rw [inner_loop_eq fuel i hf]
  rfl

theorem worker_eq_rows (fuel n start stop : Nat) (hf : stop ≤ fuel) :
    conc.worker fuel n start stop
      = some (∑ i in Finset.Ico (start + 1) (stop + 1),
          rowVal (init_cumulative false false) n i) := by
  obtain ⟨acc, hp, hacc⟩ := mpzLoop_inv
    (fun i local_sum => (conc.compute_row fuel (i + 1) n).map fun q => local_sum + q)
    (fun w acc => acc = ∑ i in Finset.Ico (start + 1) (w + 1),
      rowVal (init_cumulative false false) n i)
    (stop - start) start 0
    (by
      intro w acc hw hlt hacc
      refine ⟨acc + rowVal (init_cumulative false false) n (w + 1), ?_, ?_⟩
      · simp only [compute_row_eq_row fuel (w + 1) n (by omega), Option.map_some']
      · simp only
        rw [Finset.sum_Ico_succ_top (by omega), hacc])
    (by simp)
  unfold conc.worker
  rw [hp, hacc]
  by_cases h : start ≤ stop
  · have e : start + (stop - start) + 1 = stop + 1 := by omega
    rw [e]
  · have e1 : Finset.Ico (start + 1) (start + (stop - start) + 1) = ∅ :=
      Finset.Ico_eq_empty (by omega)
    have e2 : Finset.Ico (start + 1) (stop + 1) = ∅ := Finset.Ico_eq_empty (by omega)
    rw [e1, e2]

/-- `conc::nthPrime` of `WF_impl.hpp` returns `1` plus the rows of the stateless
configuration. -/
theorem conc_nthPrime_eq_rows (fuel hc n : Nat) (hf : 2 ^ n ≤ fuel) :
    conc.nthPrime fuel hc n
      = some (1 + ∑ i in Finset.Ico 1 (2 ^ n + 1), rowVal (init_cumulative false false) n i) := by
  have hw : 1 ≤ (if hc = 0 then 4 else hc) := by split <;> omega
  unfold conc.nthPrime
  simp only
  rw [WF.conc.joinAll_map _
    (fun p => ∑ i in Finset.Ico (p.1 + 1) (p.2 + 1), rowVal (init_cumulative false false) n i)]
  · simp only [Option.map_some', WF.conc.foldl_add_eq]
    unfold WF.conc.partitions
    rw [WF.conc.partitionLoop_sum, WF.conc.partEnd_partitions _ _ hw]
  · intro p hp
    have hb := WF.conc.partitionLoop_bounds _ _ _ _ _ p hp
    rw [WF.conc.partEnd_partitions _ _ hw] at hb
    exact worker_eq_rows fuel n p.1 p.2 (by omega)

/-- C18: for every `n ≥ 1` (and every value of `hardware_concurrency`), `seq::nthPrime(n)`
and `conc::nthPrime(n)` of `WF_impl.hpp` (with `modFact` of `WF_base.hpp`) return, and
return the integer that `seq::nthPrime(n)` of `WF.hpp` returns in the stateless
configuration (from any statics): the `n`-th prime. -/
theorem C18_impl_eq_stateless (fuel n hardware_concurrency : Nat) (isConcurrent : Bool)
    (s : State) (hn : 1 ≤ n) (hf : 2 ^ n ≤ fuel) :
    seq.nthPrime fuel n
      = (WF.seq.nthPrime (init_cumulative isConcurrent false) fuel s n).map Prod.fst ∧
    conc.nthPrime fuel hardware_concurrency n
      = (WF.seq.nthPrime (init_cumulative isConcurrent false) fuel s n).map Prod.fst ∧
    seq.nthPrime fuel n = some (Nat.nth Nat.Prime (n - 1)) := by
  have hmf : (init_cumulative false false).modFact ≠ .modFactIsCumulative := by
    simp [init_cumulative]
  have h0 := seq_nthPrime_stateless isConcurrent fuel s n hn hf
  have h1 : seq.nthPrime fuel n = some (Nat.nth Nat.Prime (n - 1)) := by
    rw [seq_nthPrime_eq_rows fuel n hf, sum_rowVal_eq _ n hn (fun h => absurd h hmf)]
  have h2 : conc.nthPrime fuel hardware_concurrency n = some (Nat.nth Nat.Prime (n - 1)) := by
    rw [conc_nthPrime_eq_rows fuel hardware_concurrency n hf,
      sum_rowVal_eq _ n hn (fun h => absurd h hmf)]
  exact ⟨by rw [h1, h0], by rw [h2, h0], h1⟩

/-- C18 at `n = 4` with `3` workers. -/
theorem C18_impl_eq_stateless_witness :
    seq.nthPrime 16 4
      = (WF.seq.nthPrime (init_cumulative false false) 16 State.fresh 4).map Prod.fst ∧
    conc.nthPrime 16 3 4
      = (WF.seq.nthPrime (init_cumulative false false) 16 State.fresh 4).map Prod.fst ∧
    seq.nthPrime 16 4 = some (Nat.nth Nat.Prime (4 - 1)) :=
  C18_impl_eq_stateless 16 4 3 false State.fresh (by decide) (by decide)

end WF_impl

namespace WF

/-- A loop only runs its body at the counter values of its range. -/
theorem mpzLoop_congr {σ : Type} (body body' : Nat → σ → Option σ) :
    ∀ (k lo : Nat) (s : σ),
      (∀ w t, lo ≤ w → w < lo + k → body w t = body' w t) →
      mpzLoop body k lo s = mpzLoop body' k lo s := by
  intro k
  induction k with
  | zero => intro lo s _; rfl
  | succ k ih =>
    intro lo s h
    rw [mpzLoop, mpzLoop, h lo s (le_refl _) (by omega)]
    cases body' lo s with
    | none => rfl
    | some t =>
      simp only [Option.some_bind]
      exact ih (lo + 1) t (fun w t hw hlt => h w t (by omega) (by omega))

theorem onlyRowCalls_row (bound : Nat) (ev : Evaluator) (c : ModFactCtx) (j : Nat)
    (h1 : 1 ≤ j) (h2 : j ≤ bound) : onlyRowCalls bound ev c (j - 1) j = ev c (j - 1) j := by
  unfold onlyRowCalls
  rw [if_pos ⟨h1, h2, by omega⟩]

theorem innerSumWith_modFact (cfg : Config) (fuel : Nat) (s : State) (i : Nat) :
    innerSumWith cfg (modFact cfg fuel) s i = innerSum cfg fuel s i := by
  unfold innerSumWith innerSum
  cases cfg.innerSum <;> rfl

theorem seq_nthPrimeWith_modFact (cfg : Config) (fuel : Nat) (s : State) (n : Nat) :
    seq.nthPrimeWith cfg (modFact cfg fuel) s n = seq.nthPrime cfg fuel s n := by
  unfold seq.nthPrimeWith seq.nthPrime
  simp only [innerSumWith_modFact]

theorem conc_nthPrimeWith_modFact (cfg : Config) (fuel : Nat) (glob : InnerSumCtx)
    (hc n : Nat) :
    conc.nthPrimeWith cfg (modFact cfg fuel) glob hc n = conc.nthPrime cfg fuel glob hc n := by
  unfold conc.nthPrimeWith conc.nthPrime conc.workerWith conc.worker conc.compute_rowWith
    conc.compute_row
  simp only [innerSumWith_modFact]

/-- Failing on every call that is not `modFact(j - 1, j)` with `1 ≤ j ≤ bound` changes
nothing for an accumulator called at an index `i ≤ bound`. -/
theorem innerSumWith_onlyRowCalls (cfg : Config) (ev : Evaluator) (bound : Nat) (s : State)
    (i : Nat) (hi : i ≤ bound) :
    innerSumWith cfg (onlyRowCalls bound ev) s i = innerSumWith cfg ev s i := by
  unfold innerSumWith
  cases cfg.innerSum with
  | innerSumIsCumulative =>
    simp only [innerSumIsCumulativeWith]
    congr 1
    apply mpzLoop_congr
    intro w t hw hlt
    rw [onlyRowCalls_row bound ev t.mf w (by omega) (by omega)]
  | innerSumIsCumulative_concurrent =>
    simp only [innerSumIsCumulative_concurrentWith]
    congr 1
    apply mpzLoop_congr
    intro w t hw hlt
    rw [onlyRowCalls_row bound ev t.mf w (by omega) (by omega)]
  | innerSumNotCumulative =>
    simp only [innerSumNotCumulativeWith]
    apply mpzLoop_congr
    intro w t hw hlt
    rw [onlyRowCalls_row bound ev t.2.mf w (by omega) (by omega)]

theorem seq_nthPrimeWith_onlyRowCalls (cfg : Config) (ev : Evaluator) (s : State) (n : Nat) :
    seq.nthPrimeWith cfg (onlyRowCalls (2 ^ n) ev) s n = seq.nthPrimeWith cfg ev s n := by
  unfold seq.nthPrimeWith
  simp only
  apply mpzLoop_congr
  intro w t hw hlt
  rw [innerSumWith_onlyRowCalls cfg ev (2 ^ n) t.2 w (by omega)]

theorem workerWith_onlyRowCalls (cfg : Config) (ev : Evaluator) (bound : Nat)
    (glob : InnerSumCtx) (n start stop : Nat) (hs : stop ≤ bound) :
    conc.workerWith cfg (onlyRowCalls bound ev) glob n start stop
      = conc.workerWith cfg ev glob n start stop := by
  unfold conc.workerWith conc.compute_rowWith
  simp only
  congr 1
  apply mpzLoop_congr
  intro w t hw hlt
  rw [innerSumWith_onlyRowCalls cfg ev bound t.2 (w + 1) (by omega)]

theorem conc_nthPrimeWith_onlyRowCalls (cfg : Config) (ev : Evaluator) (glob : InnerSumCtx)
    (hc n : Nat) :
    conc.nthPrimeWith cfg (onlyRowCalls (2 ^ n) ev) glob hc n
      = conc.nthPrimeWith cfg ev glob hc n := by
  have hw : 1 ≤ (if hc = 0 then 4 else hc) := by split <;> omega
  unfold conc.nthPrimeWith
  simp only
  congr 2
  apply List.map_congr_left
  intro p hp
  have hb := conc.partitionLoop_bounds _ _ _ _ _ p hp
  rw [conc.partEnd_partitions _ _ hw] at hb
  exact workerWith_onlyRowCalls cfg ev (2 ^ n) glob n p.1 p.2 hb.2.2

/-- C17: every call of the evaluator made by the three accumulators during
`seq::nthPrime(n)` or `conc::nthPrime(n)` is a call `modFact(j - 1, j)` with
`1 ≤ j ≤ 2 ^ n`, so the modulus is never `0`: with an evaluator that fails on every other
call (in particular on modulus `0`) both functions compute what they compute with
`modFact` itself, in every configuration and from any statics; and for `n ≥ 1` they still
return, with the stateless, the cumulative and the concurrent-cumulative accumulator. -/
theorem C17_only_row_calls (cfg : Config) (fuel : Nat) (s : State) (glob : InnerSumCtx)
    (hardware_concurrency n : Nat) (isConcurrent : Bool) (hn : 1 ≤ n) (hf : 2 ^ n ≤ fuel) :
    (∀ (bound : Nat) (ev : Evaluator) (c : ModFactCtx) (j : Nat),
      onlyRowCalls bound ev c j 0 = none) ∧
    seq.nthPrimeWith cfg (onlyRowCalls (2 ^ n) (modFact cfg fuel)) s n
      = seq.nthPrime cfg fuel s n ∧
    conc.nthPrimeWith cfg (onlyRowCalls (2 ^ n) (modFact cfg fuel)) glob hardware_concurrency n
      = conc.nthPrime cfg fuel glob hardware_concurrency n ∧
    (∃ v, (seq.nthPrimeWith (init_cumulative isConcurrent false)
        (onlyRowCalls (2 ^ n) (modFact (init_cumulative isConcurrent false) fuel)) s n).map
          Prod.fst = some v) ∧
    (∃ v, (seq.nthPrimeWith (init_cumulative false true)
        (onlyRowCalls (2 ^ n) (modFact (init_cumulative false true) fuel)) s n).map
          Prod.fst = some v) ∧
    (∃ v, conc.nthPrimeWith (init_cumulative isConcurrent false)
        (onlyRowCalls (2 ^ n) (modFact (init_cumulative isConcurrent false) fuel)) glob
          hardware_concurrency n = some v) ∧
    (∃ v, conc.nthPrimeWith (init_cumulative true true)
        (onlyRowCalls (2 ^ n) (modFact (init_cumulative true true) fuel)) glob
          hardware_concurrency n = some v) := by
  have h2 : 2 ≤ fuel := two_le_fuel hn hf
  have hseq : ∀ c : Config, ∀ t : State,
      seq.nthPrimeWith c (onlyRowCalls (2 ^ n) (modFact c fuel)) t n = seq.nthPrime c fuel t n :=
    fun c t => by rw [seq_nthPrimeWith_onlyRowCalls, seq_nthPrimeWith_modFact]
  have hconc : ∀ c : Config,
      conc.nthPrimeWith c (onlyRowCalls (2 ^ n) (modFact c fuel)) glob hardware_concurrency n
        = conc.nthPrime c fuel glob hardware_concurrency n :=
    fun c => by rw [conc_nthPrimeWith_onlyRowCalls, conc_nthPrimeWith_modFact]
  refine ⟨?_, hseq cfg s, hconc cfg, ?_, ?_, ?_, ?_⟩
  · intro bound ev c j
    unfold onlyRowCalls
    rw [if_neg (by omega)]
  · rw [hseq]
    exact ⟨_, seq_nthPrime_stateless isConcurrent fuel s n hn hf⟩
  · rw [hseq]
    have hctx : CtxOk (init_cumulative false true)
        (if (init_cumulative false true).isCumulative then reset_innerSumCumulative s else s)
        0 := by
      refine ⟨fun _ => ?_, fun h => ?_, fun _ => MfPre_one _ _⟩
      · simp [init_cumulative, reset_innerSumCumulative, conc.innerSumVal_zero]
      · simp [init_cumulative] at h
    obtain ⟨t, h, _⟩ := seq_nthPrime_eq (init_cumulative false true) fuel s n 0 hf
      (fun _ => h2) hctx (by omega)
    exact ⟨_, by rw [h]; rfl⟩
  · rw [hconc]
    exact ⟨_, conc.conc_nthPrime_eq (init_cumulative isConcurrent false) fuel glob
      hardware_concurrency n (by simp [init_cumulative]) hf (fun _ => h2)⟩
  · rw [hconc]
    exact ⟨_, conc.conc_nthPrime_eq (init_cumulative true true) fuel glob
      hardware_concurrency n (by simp [init_cumulative]) hf (fun _ => h2)⟩

/-- C17 at `n = 3` with `5` workers, in the default configuration. -/
theorem C17_only_row_calls_witness :
    (∀ (bound : Nat) (ev : Evaluator) (c : ModFactCtx) (j : Nat),
      onlyRowCalls bound ev c j 0 = none) ∧
    seq.nthPrimeWith (init_cumulative true true)
        (onlyRowCalls (2 ^ 3) (modFact (init_cumulative true true) 8)) State.fresh 3
      = seq.nthPrime (init_cumulative true true) 8 State.fresh 3 ∧
    conc.nthPrimeWith (init_cumulative true true)
        (onlyRowCalls (2 ^ 3) (modFact (init_cumulative true true) 8)) ⟨0, 0⟩ 5 3
      = conc.nthPrime (init_cumulative true true) 8 ⟨0, 0⟩ 5 3 ∧
    (∃ v, (seq.nthPrimeWith (init_cumulative false false)
        (onlyRowCalls (2 ^ 3) (modFact (init_cumulative false false) 8)) State.fresh 3).map
          Prod.fst = some v) ∧
    (∃ v, (seq.nthPrimeWith (init_cumulative false true)
        (onlyRowCalls (2 ^ 3) (modFact (init_cumulative false true) 8)) State.fresh 3).map
          Prod.fst = some v) ∧
    (∃ v, conc.nthPrimeWith (init_cumulative false false)
        (onlyRowCalls (2 ^ 3) (modFact (init_cumulative false false) 8)) ⟨0, 0⟩
          5 3 = some v) ∧
    (∃ v, conc.nthPrimeWith (init_cumulative true true)
        (onlyRowCalls (2 ^ 3) (modFact (init_cumulative true true) 8)) ⟨0, 0⟩
          5 3 = some v) :=
  C17_only_row_calls (init_cumulative true true) 8 State.fresh ⟨0, 0⟩ 5 3 false (by decide)
    (by decide)

theorem roundNearestEven_err (m : ℝ) : |((roundNearestEven m : ℤ) : ℝ) - m| ≤ 1 / 2 := by
  have hf := Int.self_sub_floor m
  have h0 := Int.fract_nonneg m
  have h1 := Int.fract_lt_one m
  rw [abs_le]
  unfold roundNearestEven
  split_ifs with ha hb hc
  · constructor <;> linarith
  · push_cast; constructor <;> linarith
  · have : Int.fract m = 1 / 2 := le_antisymm (not_lt.mp hb) (not_lt.mp ha)
    constructor <;> linarith
  · have : Int.fract m = 1 / 2 := le_antisymm (not_lt.mp hb) (not_lt.mp ha)
    push_cast; constructor <;> linarith

theorem roundNearestEven_near (m : ℝ) (z : ℤ) (h : |m - z| < 1 / 2) :
    roundNearestEven m = z := by
  rw [abs_lt] at h
  unfold roundNearestEven
  by_cases hz : (z : ℝ) ≤ m
  · have hfl : ⌊m⌋ = z := Int.floor_eq_iff.mpr ⟨hz, by linarith⟩
    have hfr : Int.fract m = m - z := by rw [← Int.self_sub_floor, hfl]
    rw [if_pos (by rw [hfr]; linarith), hfl]
  · have hfl : ⌊m⌋ = z - 1 := Int.floor_eq_iff.mpr ⟨by push_cast; linarith, by push_cast; linarith⟩
    have hfr : Int.fract m = m - z + 1 := by rw [← Int.self_sub_floor, hfl]; push_cast; ring
    rw [if_neg (by rw [hfr]; linarith), if_pos (by rw [hfr]; linarith), hfl]
    ring

theorem roundNearestEven_nonneg (m : ℝ) (h : 0 ≤ m) : 0 ≤ roundNearestEven m := by
  have := Int.floor_nonneg.mpr h
  unfold roundNearestEven
  split_ifs <;> omega

theorem rnd_zero : rnd 0 = 0 := by simp [rnd]

theorem rnd_of_ne (x : ℝ) (hx : x ≠ 0) :
    rnd x = ((roundNearestEven (x / (2 : ℝ) ^ (Int.log 2 |x| - 255)) : ℤ) : ℝ)
      * (2 : ℝ) ^ (Int.log 2 |x| - 255) := by
  unfold rnd
  rw [if_neg hx]
  simp [MPFR_PRECISION]

theorem log_abs_lt (x : ℝ) (hx : x ≠ 0) (k : ℤ) (h : |x| < (2 : ℝ) ^ k) :
    Int.log 2 |x| < k := by
  have h0 : 0 < |x| := abs_pos.mpr hx
  have := (Int.lt_zpow_iff_log_lt (R := ℝ) (b := 2) (by norm_num) (x := k) h0).mp
    (by simpa using h)
  exact this

theorem le_log_abs (x : ℝ) (hx : x ≠ 0) (k : ℤ) (h : (2 : ℝ) ^ k ≤ |x|) :
    k ≤ Int.log 2 |x| := by
  have h0 : 0 < |x| := abs_pos.mpr hx
  exact (Int.zpow_le_iff_le_log (R := ℝ) (b := 2) (by norm_num) (x := k) h0).mp
    (by simpa using h)

/-- The rounding error is at most half a unit in the last place. -/
theorem rnd_err (x : ℝ) (k : ℤ) (h : |x| < (2 : ℝ) ^ (k + 1)) :
    |rnd x - x| ≤ (2 : ℝ) ^ (k - 256) := by
  by_cases hx : x = 0
  · subst hx; rw [rnd_zero]; simp; positivity
  have he : Int.log 2 |x| ≤ k := by
    have := log_abs_lt x hx (k + 1) h
    omega
  have hu : (0 : ℝ) < (2 : ℝ) ^ (Int.log 2 |x| - 255) := by positivity
  rw [rnd_of_ne x hx]
  have herr := roundNearestEven_err (x / (2 : ℝ) ^ (Int.log 2 |x| - 255))
  have e1 : ((roundNearestEven (x / (2 : ℝ) ^ (Int.log 2 |x| - 255)) : ℤ) : ℝ)
        * (2 : ℝ) ^ (Int.log 2 |x| - 255) - x
      = (((roundNearestEven (x / (2 : ℝ) ^ (Int.log 2 |x| - 255)) : ℤ) : ℝ)
          - x / (2 : ℝ) ^ (Int.log 2 |x| - 255)) * (2 : ℝ) ^ (Int.log 2 |x| - 255) := by
    field_simp
  rw [e1, abs_mul, abs_of_pos hu]
  have e2 : (2 : ℝ) ^ (Int.log 2 |x| - 255) = 2 * (2 : ℝ) ^ (Int.log 2 |x| - 256) := by
    rw [show Int.log 2 |x| - 255 = (Int.log 2 |x| - 256) + 1 by ring, zpow_add_one₀ (by norm_num)]
    ring
  have h3 : (2 : ℝ) ^ (Int.log 2 |x| - 256) ≤ (2 : ℝ) ^ (k - 256) :=
    zpow_le_zpow_right₀ (by norm_num) (by omega)
  have h4 : (0 : ℝ) < (2 : ℝ) ^ (Int.log 2 |x| - 256) := by positivity
  calc |((roundNearestEven (x / (2 : ℝ) ^ (Int.log 2 |x| - 255)) : ℤ) : ℝ)
            - x / (2 : ℝ) ^ (Int.log 2 |x| - 255)| * (2 : ℝ) ^ (Int.log 2 |x| - 255)
        ≤ 1 / 2 * (2 : ℝ) ^ (Int.log 2 |x| - 255) :=
          mul_le_mul_of_nonneg_right herr hu.le
    _ = (2 : ℝ) ^ (Int.log 2 |x| - 256) := by rw [e2]; ring
    _ ≤ (2 : ℝ) ^ (k - 256) := h3

/-- A number whose quotient by the unit in the last place is within `1 / 2` of an integer
rounds to that multiple of the unit. -/
theorem rnd_of_near (x : ℝ) (hx : x ≠ 0) (e z : ℤ) (h1 : (2 : ℝ) ^ e ≤ |x|)
    (h2 : |x| < (2 : ℝ) ^ (e + 1)) (hz : |x / (2 : ℝ) ^ (e - 255) - z| < 1 / 2) :
    rnd x = (z : ℝ) * (2 : ℝ) ^ (e - 255) := by
  have he : Int.log 2 |x| = e := by
    have a := log_abs_lt x hx (e + 1) h2
    have b := le_log_abs x hx e h1
    omega
  rw [rnd_of_ne x hx, he, roundNearestEven_near _ z hz]

theorem rnd_nonneg (x : ℝ) (h : 0 ≤ x) : 0 ≤ rnd x := by
  by_cases hx : x = 0
  · subst hx; rw [rnd_zero]
  rw [rnd_of_ne x hx]
  have hu : (0 : ℝ) < (2 : ℝ) ^ (Int.log 2 |x| - 255) := by positivity
  have := roundNearestEven_nonneg (x / (2 : ℝ) ^ (Int.log 2 |x| - 255)) (by positivity)
  have h' : (0 : ℝ) ≤ ((roundNearestEven (x / (2 : ℝ) ^ (Int.log 2 |x| - 255)) : ℤ) : ℝ) := by
    exact_mod_cast this
  positivity

/-- An integer below `2 ^ 256` is a number of 256 bits. -/
theorem rnd_natCast (n : Nat) (h : n < 2 ^ 256) : rnd (n : ℝ) = n := by
  by_cases hn : n = 0
  · subst hn; simp [rnd_zero]
  have hx : (n : ℝ) ≠ 0 := by exact_mod_cast hn
  have habs : |(n : ℝ)| = n := abs_of_nonneg (by positivity)
  have hlog : Int.log 2 |(n : ℝ)| = (Nat.log 2 n : ℤ) := by
    rw [habs]; exact Int.log_natCast 2 n
  have hlt : Nat.log 2 n < 256 := Nat.log_lt_of_lt_pow hn h
  obtain ⟨t, ht⟩ : ∃ t : ℕ, Nat.log 2 n + t = 255 := ⟨255 - Nat.log 2 n, by omega⟩
  have hexp : (Nat.log 2 n : ℤ) - 255 = -(t : ℤ) := by omega
  rw [rnd_of_ne _ hx, hlog, hexp]
  have hq : (n : ℝ) / (2 : ℝ) ^ (-(t : ℤ)) = (((n * 2 ^ t : ℕ) : ℤ) : ℝ) := by
    rw [zpow_neg, zpow_natCast]
    push_cast
    field_simp
  rw [hq, roundNearestEven_near _ ((n * 2 ^ t : ℕ) : ℤ) (by simp)]
  rw [zpow_neg, zpow_natCast]
  push_cast
  field_simp

theorem rnd_one : rnd 1 = 1 := by
  have := rnd_natCast 1 (by norm_num)
  simpa using this

/-- Just below `1` the nearest number of 256 bits is `1`. -/
theorem rnd_near_one (y : ℝ) (h1 : 1 - 1 / 2 ^ 257 < y) (h2 : y ≤ 1) : rnd y = 1 := by
  by_cases hy : y = 1
  · subst hy; exact rnd_one
  have hlt : y < 1 := lt_of_le_of_ne h2 hy
  have hpos : 0 < y := by
    have : (0 : ℝ) < 1 - 1 / 2 ^ 257 := by norm_num
    linarith
  have habs : |y| = y := abs_of_pos hpos
  have h := rnd_of_near y hpos.ne' (-1) (2 ^ 256)
    (by rw [habs]; have : (2 : ℝ) ^ (-1 : ℤ) ≤ 1 - 1 / 2 ^ 257 := by norm_num
        exact le_trans this (by linarith))
    (by rw [habs]; norm_num; exact hlt)
    (by
      have e : (2 : ℝ) ^ ((-1 : ℤ) - 255) = 1 / 2 ^ 256 := by
        rw [show ((-1 : ℤ) - 255) = -(256 : ℕ) by norm_num, zpow_neg, zpow_natCast]; norm_num
      rw [e, abs_lt]
      push_cast
      constructor
      · have : (2 : ℝ) ^ 256 * (1 - 1 / 2 ^ 257) < 2 ^ 256 * y :=
          mul_lt_mul_of_pos_left h1 (by positivity)
        have e2 : (2 : ℝ) ^ 256 * (1 - 1 / 2 ^ 257) = 2 ^ 256 - 1 / 2 := by norm_num
        have e3 : y / (1 / 2 ^ 256) = 2 ^ 256 * y := by field_simp; ring
        rw [e3]; linarith
      · have : (2 : ℝ) ^ 256 * y < 2 ^ 256 * 1 := mul_lt_mul_of_pos_left hlt (by positivity)
        have e3 : y / (1 / 2 ^ 256) = 2 ^ 256 * y := by field_simp; ring
        rw [e3]; linarith)
  rw [h]
  rw [show ((-1 : ℤ) - 255) = -(256 : ℕ) by norm_num, zpow_neg, zpow_natCast]
  push_cast
  norm_num

/-- Just above `-1` the nearest number of 256 bits is `-1`. -/
theorem rnd_near_neg_one (y : ℝ) (h1 : -1 ≤ y) (h2 : y < -1 + 1 / 2 ^ 257) : rnd y = -1 := by
  have hneg : y < 0 := by
    have : (-1 : ℝ) + 1 / 2 ^ 257 < 0 := by norm_num
    linarith
  have habs : |y| = -y := abs_of_neg hneg
  by_cases hy : y = -1
  · subst hy
    have h := rnd_of_near (-1) (by norm_num) 0 (-(2 ^ 255))
      (by norm_num) (by norm_num)
      (by
        have e : (2 : ℝ) ^ ((0 : ℤ) - 255) = 1 / 2 ^ 255 := by
          rw [show ((0 : ℤ) - 255) = -(255 : ℕ) by norm_num, zpow_neg, zpow_natCast]; norm_num
        rw [e]; push_cast; norm_num)
    rw [h, show ((0 : ℤ) - 255) = -(255 : ℕ) by norm_num, zpow_neg, zpow_natCast]
    push_cast
    norm_num
  have hgt : -1 < y := lt_of_le_of_ne h1 (Ne.symm hy)
  have h := rnd_of_near y hneg.ne (-1) (-(2 ^ 256))
    (by rw [habs]; have : (2 : ℝ) ^ (-1 : ℤ) ≤ 1 - 1 / 2 ^ 257 := by norm_num
        exact le_trans this (by linarith))
    (by rw [habs]; norm_num; linarith)
    (by
      have e : (2 : ℝ) ^ ((-1 : ℤ) - 255) = 1 / 2 ^ 256 := by
        rw [show ((-1 : ℤ) - 255) = -(256 : ℕ) by norm_num, zpow_neg, zpow_natCast]; norm_num
      rw [e, abs_lt]
      push_cast
      have e3 : y / (1 / 2 ^ 256) = 2 ^ 256 * y := by field_simp; ring
      rw [e3]
      constructor
      · have : (2 : ℝ) ^ 256 * (-1) < 2 ^ 256 * y := mul_lt_mul_of_pos_left hgt (by positivity)
        linarith
      · have : (2 : ℝ) ^ 256 * y < 2 ^ 256 * (-1 + 1 / 2 ^ 257) :=
          mul_lt_mul_of_pos_left h2 (by positivity)
        have e2 : (2 : ℝ) ^ 256 * (-1 + 1 / 2 ^ 257) = -(2 ^ 256) + 1 / 2 := by norm_num
        linarith)
  rw [h]
  rw [show ((-1 : ℤ) - 255) = -(256 : ℕ) by norm_num, zpow_neg, zpow_natCast]
  push_cast
  norm_num

theorem rnd_err_lt_one (x : ℝ) (h : |x| < 1) : |rnd x - x| ≤ 1 / 2 ^ 257 := by
  have h1 := rnd_err x (-1) (by simpa using h)
  have e : (2 : ℝ) ^ ((-1 : ℤ) - 256) = 1 / 2 ^ 257 := by
    rw [show ((-1 : ℤ) - 256) = -(257 : ℕ) by norm_num, zpow_neg, zpow_natCast]; norm_num
  rwa [e] at h1

theorem rnd_err_lt_four (x : ℝ) (h : |x| < 4) : |rnd x - x| ≤ 1 / 2 ^ 255 := by
  have h1 := rnd_err x 1 (by norm_num; exact h)
  have e : (2 : ℝ) ^ ((1 : ℤ) - 256) = 1 / 2 ^ 255 := by
    rw [show ((1 : ℤ) - 256) = -(255 : ℕ) by norm_num, zpow_neg, zpow_natCast]; norm_num
  rwa [e] at h1

theorem rnd_err_lt_eight (x : ℝ) (h : |x| < 8) : |rnd x - x| ≤ 1 / 2 ^ 254 := by
  have h1 := rnd_err x 2 (by norm_num; exact h)
  have e : (2 : ℝ) ^ ((2 : ℤ) - 256) = 1 / 2 ^ 254 := by
    rw [show ((2 : ℤ) - 256) = -(254 : ℕ) by norm_num, zpow_neg, zpow_natCast]; norm_num
  rwa [e] at h1

theorem rnd_err_small (x : ℝ) (k : ℕ) (h : |x| < 1 / 2 ^ k) :
    |rnd x - x| ≤ 1 / 2 ^ (k + 257) := by
  have e0 : (2 : ℝ) ^ ((-(k : ℤ) - 1) + 1) = 1 / 2 ^ k := by
    rw [show (-(k : ℤ) - 1) + 1 = -(k : ℤ) by ring, zpow_neg, zpow_natCast]; simp
  have h1 := rnd_err x (-(k : ℤ) - 1) (by rw [e0]; exact h)
  have e : (2 : ℝ) ^ ((-(k : ℤ) - 1) - 256) = 1 / 2 ^ (k + 257) := by
    rw [show (-(k : ℤ) - 1) - 256 = -((k + 257 : ℕ) : ℤ) by push_cast; ring, zpow_neg,
      zpow_natCast]
    simp
  rwa [e] at h1

/-- The rounded `const_pi()` is within `2 ^ -255` of `π`. -/
theorem rnd_pi_err : |rnd Real.pi - Real.pi| ≤ 1 / 2 ^ 255 := by
  apply rnd_err_lt_four
  rw [abs_of_pos Real.pi_pos]
  exact Real.pi_lt_four

theorem indicator256_def (mf j : Nat) :
    indicator256 mf j
      = to_mpz (floor (rnd
          (rnd (Real.cos (rnd (rnd (rnd (rnd (mf : ℝ) + rnd 1) / rnd (j : ℝ)) * rnd Real.pi)))
            * rnd (Real.cos
                (rnd (rnd (rnd (rnd (mf : ℝ) + rnd 1) / rnd (j : ℝ)) * rnd Real.pi)))))) :=
  rfl

/-- A cosine rounded to `1` or `-1` gives the summand `1`. -/
theorem summand_one (c : ℝ) (h : c = 1 ∨ c = -1) : to_mpz (floor (rnd (c * c))) = 1 := by
  have hc : c * c = 1 := by rcases h with h | h <;> rw [h] <;> norm_num
  rw [hc, rnd_one, to_mpz_floor]
  simp

/-- A cosine of absolute value at most `1 - 2 ^ -256` gives the summand `0`. -/
theorem summand_zero (c : ℝ) (h : |c| ≤ 1 - 1 / 2 ^ 256) :
    to_mpz (floor (rnd (rnd c * rnd c))) = 0 := by
  have hc1 : |c| < 1 := lt_of_le_of_lt h (by norm_num)
  have he := rnd_err_lt_one c hc1
  have hv : |rnd c| ≤ 1 - 1 / 2 ^ 257 := by
    calc |rnd c| = |(rnd c - c) + c| := by ring_nf
      _ ≤ |rnd c - c| + |c| := abs_add _ _
      _ ≤ 1 / 2 ^ 257 + (1 - 1 / 2 ^ 256) := add_le_add he h
      _ = 1 - 1 / 2 ^ 257 := by norm_num
  have hsq0 : 0 ≤ rnd c * rnd c := mul_self_nonneg _
  have hsq : rnd c * rnd c ≤ (1 - 1 / 2 ^ 257) * (1 - 1 / 2 ^ 257) := by
    rw [← abs_mul_abs_self (rnd c)]
    exact mul_le_mul hv hv (abs_nonneg _) (by norm_num)
  have hsq1 : |rnd c * rnd c| < 1 := by
    rw [abs_of_nonneg hsq0]
    exact lt_of_le_of_lt hsq (by norm_num)
  have he2 := (abs_le.mp (rnd_err_lt_one _ hsq1)).2
  have hnum : (1 - 1 / 2 ^ 257) * (1 - 1 / 2 ^ 257) + 1 / 2 ^ 257 < (1 : ℝ) := by norm_num
  have hub : rnd (rnd c * rnd c) < 1 := by linarith
  have hlb := rnd_nonneg _ hsq0
  have hfl : ⌊rnd (rnd c * rnd c)⌋ = 0 := by
    rw [Int.floor_eq_iff]
    constructor
    · simpa using hlb
    · simpa using hub
  rw [to_mpz_floor, hfl]
  rfl

theorem abs_mul_le_mul (a b A B : ℝ) (ha : |a| ≤ A) (hb : |b| ≤ B) : |a * b| ≤ A * B := by
  rw [abs_mul]
  exact mul_le_mul ha hb (abs_nonneg _) (le_trans (abs_nonneg _) ha)

/-- The summand at `j = f + 1` (the case of a prime `j`): the argument is the rounded `π`,
its cosine rounds to `-1`. -/
theorem indicator256_dvd (f j : Nat) (hfj : f + 1 = j) (hj : j ≤ 2 ^ 129) :
    indicator256 f j = 1 := by
  have hjpos : (0 : ℝ) < (j : ℝ) := by exact_mod_cast (by omega : 0 < j)
  have h1 : rnd (f : ℝ) = f :=
    rnd_natCast f (lt_of_le_of_lt (by omega : f ≤ 2 ^ 129) (by norm_num))
  have h2 : rnd (j : ℝ) = j := rnd_natCast j (lt_of_le_of_lt hj (by norm_num))
  have h3 : (f : ℝ) + 1 = (j : ℝ) := by exact_mod_cast hfj
  have hP := abs_le.mp rnd_pi_err
  have hpi3 := Real.pi_gt_three
  have hpi4 := Real.pi_lt_d2
  have hP4 : |rnd Real.pi| < 4 := by
    rw [abs_lt]
    constructor
    · have : (0 : ℝ) < 1 / 2 ^ 255 := by positivity
      linarith
    · have : (1 : ℝ) / 2 ^ 255 < 0.1 := by norm_num
      linarith
  have hA := abs_le.mp (rnd_err_lt_four _ hP4)
  rw [indicator256_def, h1, rnd_one, h3, h2, div_self hjpos.ne', rnd_one, one_mul]
  apply summand_one
  right
  apply rnd_near_neg_one
  · exact Real.neg_one_le_cos _
  · have hc := Real.one_sub_sq_div_two_le_cos (x := rnd (rnd Real.pi) - Real.pi)
    rw [Real.cos_sub_pi] at hc
    have hd : |rnd (rnd Real.pi) - Real.pi| ≤ 1 / 2 ^ 254 := by
      rw [abs_le]
      have : (1 : ℝ) / 2 ^ 254 = 1 / 2 ^ 255 + 1 / 2 ^ 255 := by norm_num
      constructor <;> linarith
    have hsq : (rnd (rnd Real.pi) - Real.pi) ^ 2 ≤ (1 / 2 ^ 254) ^ 2 :=
      sq_le_sq' (by linarith [(abs_le.mp hd).1]) (abs_le.mp hd).2
    have hnum : ((1 : ℝ) / 2 ^ 254) ^ 2 / 2 < 1 / 2 ^ 257 := by norm_num
    linarith

/-- The summand at `j = 1` with `modFact(0, 1) = 1`: the argument is the rounded `2 π`, its
cosine rounds to `1`. -/
theorem indicator256_one_one : indicator256 1 1 = 1 := by
  have h1 : rnd ((1 : ℕ) : ℝ) = 1 := by simpa using rnd_one
  have h2 : rnd ((1 : ℝ) + 1) = 2 := by
    have := rnd_natCast 2 (by norm_num)
    rw [show ((1 : ℝ) + 1) = ((2 : ℕ) : ℝ) by norm_num]
    simpa using this
  have h3 : rnd ((2 : ℝ) / 1) = 2 := by
    have := rnd_natCast 2 (by norm_num)
    rw [div_one]
    simpa using this
  have hP := abs_le.mp rnd_pi_err
  have hpi3 := Real.pi_gt_three
  have hpi4 := Real.pi_lt_d2
  have hP8 : |2 * rnd Real.pi| < 8 := by
    rw [abs_lt]
    constructor
    · have : (0 : ℝ) < 1 / 2 ^ 255 := by positivity
      linarith
    · have : (1 : ℝ) / 2 ^ 255 < 0.1 := by norm_num
      linarith
  have hA := abs_le.mp (rnd_err_lt_eight _ hP8)
  rw [indicator256_def, h1, rnd_one, h2, h3]
  apply summand_one
  left
  apply rnd_near_one
  · have hc := Real.one_sub_sq_div_two_le_cos (x := rnd (2 * rnd Real.pi) - 2 * Real.pi)
    rw [Real.cos_sub_two_pi] at hc
    have hd : |rnd (2 * rnd Real.pi) - 2 * Real.pi| ≤ 1 / 2 ^ 253 := by
      rw [abs_le]
      have : (1 : ℝ) / 2 ^ 253 = 1 / 2 ^ 254 + 2 * (1 / 2 ^ 255) := by norm_num
      constructor <;> linarith
    have hsq : (rnd (2 * rnd Real.pi) - 2 * Real.pi) ^ 2 ≤ (1 / 2 ^ 253) ^ 2 :=
      sq_le_sq' (by linarith [(abs_le.mp hd).1]) (abs_le.mp hd).2
    have hnum : ((1 : ℝ) / 2 ^ 253) ^ 2 / 2 < 1 / 2 ^ 257 := by norm_num
    linarith
  · exact Real.cos_le_one _

/-- Near `0` and near `π` excluded, the cosine stays away from `1` and `-1`. -/
theorem abs_cos_le (x : ℝ) (h1 : 29 / (10 * 2 ^ 129) ≤ x)
    (h2 : x ≤ Real.pi - 29 / (10 * 2 ^ 129)) : |Real.cos x| ≤ 1 - 1 / 2 ^ 256 := by
  have ha0 : (0 : ℝ) ≤ 29 / (10 * 2 ^ 129) := by positivity
  have ha1 : |(29 : ℝ) / (10 * 2 ^ 129)| ≤ 1 := by
    rw [abs_of_nonneg ha0]; norm_num
  have hb := (abs_le.mp (Real.cos_bound ha1)).2
  rw [abs_of_nonneg ha0] at hb
  have hnum : (1 : ℝ) - (29 / (10 * 2 ^ 129)) ^ 2 / 2 + (29 / (10 * 2 ^ 129)) ^ 4 * (5 / 96)
      ≤ 1 - 1 / 2 ^ 256 := by norm_num
  have hca : Real.cos (29 / (10 * 2 ^ 129)) ≤ 1 - 1 / 2 ^ 256 := by linarith
  have hup : Real.cos x ≤ Real.cos (29 / (10 * 2 ^ 129)) :=
    Real.cos_le_cos_of_nonneg_of_le_pi ha0 (by linarith) h1
  have hlo : Real.cos (Real.pi - x) ≤ Real.cos (29 / (10 * 2 ^ 129)) :=
    Real.cos_le_cos_of_nonneg_of_le_pi ha0 (by linarith) (by linarith)
  rw [Real.cos_pi_sub] at hlo
  rw [abs_le]
  constructor <;> linarith

/-- The summand for `f + 1 < j ≤ 2 ^ 129` (the case of a composite `j`): the rounded
argument stays in `[2.9 * 2 ^ -129, π - 2.9 * 2 ^ -129]`. -/
theorem indicator256_not_dvd (f j : Nat) (hfj : f + 1 < j) (hj : j ≤ 2 ^ 129) :
    indicator256 f j = 0 := by
  have hjpos : (0 : ℝ) < (j : ℝ) := by exact_mod_cast (by omega : 0 < j)
  have hj129 : (j : ℝ) ≤ 2 ^ 129 := by exact_mod_cast hj
  have h1 : rnd (f : ℝ) = f :=
    rnd_natCast f (lt_of_le_of_lt (by omega : f ≤ 2 ^ 129) (by norm_num))
  have h2 : rnd (j : ℝ) = j := rnd_natCast j (lt_of_le_of_lt hj (by norm_num))
  have h3 : rnd ((f : ℝ) + 1) = (f : ℝ) + 1 := by
    have := rnd_natCast (f + 1) (lt_of_le_of_lt (by omega : f + 1 ≤ 2 ^ 129) (by norm_num))
    simpa using this
  have hf1 : (f : ℝ) + 1 ≤ (j : ℝ) - 1 := by
    have : ((f + 1 + 1 : ℕ) : ℝ) ≤ (j : ℝ) := by exact_mod_cast hfj
    push_cast at this
    linarith
  have hf0 : (0 : ℝ) ≤ (f : ℝ) := by positivity
  -- the exact ratio
  have hinv : (1 : ℝ) / 2 ^ 129 ≤ 1 / (j : ℝ) := one_div_le_one_div_of_le hjpos hj129
  have hr_lo : (1 : ℝ) / (j : ℝ) ≤ ((f : ℝ) + 1) / (j : ℝ) :=
    div_le_div_of_nonneg_right (by linarith) hjpos.le
  have hr_hi : ((f : ℝ) + 1) / (j : ℝ) ≤ 1 - 1 / (j : ℝ) := by
    rw [div_le_iff₀ hjpos]
    have : (1 - 1 / (j : ℝ)) * (j : ℝ) = (j : ℝ) - 1 := by field_simp
    rw [this]; exact hf1
  have hr1 : |((f : ℝ) + 1) / (j : ℝ)| < 1 := by
    rw [abs_lt]
    have : (0 : ℝ) < 1 / 2 ^ 129 := by positivity
    constructor <;> linarith
  have hq := abs_le.mp (rnd_err_lt_one _ hr1)
  have hP := abs_le.mp rnd_pi_err
  have hpi3 := Real.pi_gt_three
  have hpi4 := Real.pi_lt_d2
  have e257 : (0 : ℝ) < 1 / 2 ^ 257 := by positivity
  have e255 : (0 : ℝ) < 1 / 2 ^ 255 := by positivity
  have e129 : (0 : ℝ) < 1 / 2 ^ 129 := by positivity
  have n1 : (1 : ℝ) / 2 ^ 257 < 1 / 2 ^ 129 := by norm_num
  have n2 : (1 : ℝ) / 2 ^ 255 < 0.01 := by norm_num
  have n3 : (1 : ℝ) / 2 ^ 257 < 0.01 := by norm_num
  -- bounds on the rounded ratio and the rounded pi
  have hq0 : 0 ≤ rnd (((f : ℝ) + 1) / (j : ℝ)) := rnd_nonneg _ (by positivity)
  have hq1 : rnd (((f : ℝ) + 1) / (j : ℝ)) ≤ 1 := by linarith
  have hP0 : 0 ≤ rnd Real.pi := by linarith
  have hP1 : rnd Real.pi ≤ 3.2 := by linarith
  have hprod : |rnd (((f : ℝ) + 1) / (j : ℝ)) * rnd Real.pi| < 4 := by
    rw [abs_of_nonneg (mul_nonneg hq0 hP0)]
    calc rnd (((f : ℝ) + 1) / (j : ℝ)) * rnd Real.pi ≤ 1 * 3.2 :=
          mul_le_mul hq1 hP1 hP0 (by norm_num)
      _ < 4 := by norm_num
  have hA := abs_le.mp (rnd_err_lt_four _ hprod)
  -- the product against `r * π`
  have hd1 := abs_le.mp (abs_mul_le_mul _ _ _ _ (abs_le.mpr hq) (abs_le.mpr hP))
  have hd2 := abs_le.mp (abs_mul_le_mul (((f : ℝ) + 1) / (j : ℝ)) (rnd Real.pi - Real.pi) 1
    (1 / 2 ^ 255) hr1.le (abs_le.mpr hP))
  have hd3 := abs_le.mp (abs_mul_le_mul (rnd (((f : ℝ) + 1) / (j : ℝ)) - ((f : ℝ) + 1) / (j : ℝ))
    Real.pi (1 / 2 ^ 257) 4 (abs_le.mpr hq)
    (by rw [abs_of_pos Real.pi_pos]; exact Real.pi_lt_four.le))
  have hexp : rnd (((f : ℝ) + 1) / (j : ℝ)) * rnd Real.pi
      = ((f : ℝ) + 1) / (j : ℝ) * Real.pi
        + ((f : ℝ) + 1) / (j : ℝ) * (rnd Real.pi - Real.pi)
        + (rnd (((f : ℝ) + 1) / (j : ℝ)) - ((f : ℝ) + 1) / (j : ℝ)) * Real.pi
        + (rnd (((f : ℝ) + 1) / (j : ℝ)) - ((f : ℝ) + 1) / (j : ℝ))
            * (rnd Real.pi - Real.pi) := by ring
  have hrpi_lo : 3 / 2 ^ 129 ≤ ((f : ℝ) + 1) / (j : ℝ) * Real.pi := by
    calc (3 : ℝ) / 2 ^ 129 = 1 / 2 ^ 129 * 3 := by ring
      _ ≤ ((f : ℝ) + 1) / (j : ℝ) * Real.pi :=
          mul_le_mul (by linarith) hpi3.le (by norm_num) (by linarith)
  have hrpi_hi : ((f : ℝ) + 1) / (j : ℝ) * Real.pi ≤ Real.pi - 3 / 2 ^ 129 := by
    have : ((f : ℝ) + 1) / (j : ℝ) * Real.pi ≤ (1 - 1 / 2 ^ 129) * Real.pi :=
      mul_le_mul_of_nonneg_right (by linarith) Real.pi_pos.le
    have h' : (1 / 2 ^ 129 : ℝ) * 3 ≤ 1 / 2 ^ 129 * Real.pi :=
      mul_le_mul_of_nonneg_left hpi3.le e129.le
    have e : (1 - 1 / 2 ^ 129) * Real.pi = Real.pi - 1 / 2 ^ 129 * Real.pi := by ring
    have e' : (3 : ℝ) / 2 ^ 129 = 1 / 2 ^ 129 * 3 := by ring
    linarith
  have m1 : (1 : ℝ) / 2 ^ 257 * (1 / 2 ^ 255) + 1 * (1 / 2 ^ 255) + 1 / 2 ^ 257 * 4
      + 1 / 2 ^ 255 ≤ 1 / (10 * 2 ^ 129) := by norm_num
  have m2 : (3 : ℝ) / 2 ^ 129 - 1 / (10 * 2 ^ 129) = 29 / (10 * 2 ^ 129) := by norm_num
  rw [indicator256_def, h1, rnd_one, h3, h2]
  apply summand_zero
  apply abs_cos_le
  · linarith
  · linarith

/-- The summand at `j = 2 ^ 130` with `mf = 0`: the rounded argument is below `2 ^ -128`,
its cosine is above `1 - 2 ^ -257` and rounds to `1`. -/
theorem indicator256_two_pow_130 : indicator256 0 (2 ^ 130) = 1 := by
  have h0 : rnd ((0 : ℕ) : ℝ) = 0 := by simpa using rnd_zero
  have h2 : rnd (((2 ^ 130 : ℕ)) : ℝ) = (2 : ℝ) ^ 130 := by
    rw [rnd_natCast (2 ^ 130) (by norm_num)]
    norm_num
  have hr : |(1 : ℝ) / 2 ^ 130| < 1 / 2 ^ 129 := by
    rw [abs_of_pos (by positivity)]; norm_num
  have hq := abs_le.mp (rnd_err_small _ 129 hr)
  have hP := abs_le.mp rnd_pi_err
  have hpi3 := Real.pi_gt_three
  have hpi4 := Real.pi_lt_d2
  have n2 : (1 : ℝ) / 2 ^ 255 < 0.01 := by norm_num
  have hq0 : 0 ≤ rnd ((1 : ℝ) / 2 ^ 130) := rnd_nonneg _ (by positivity)
  have hq1 : rnd ((1 : ℝ) / 2 ^ 130) ≤ 1 / 2 ^ 130 + 1 / 2 ^ (129 + 257) := by linarith
  have hP0 : 0 ≤ rnd Real.pi := by linarith
  have hP1 : rnd Real.pi ≤ 3.2 := by linarith
  have hp0 : 0 ≤ rnd ((1 : ℝ) / 2 ^ 130) * rnd Real.pi := mul_nonneg hq0 hP0
  have hp1 : rnd ((1 : ℝ) / 2 ^ 130) * rnd Real.pi
      ≤ (1 / 2 ^ 130 + 1 / 2 ^ (129 + 257)) * 3.2 :=
    mul_le_mul hq1 hP1 hP0 (by positivity)
  have hprod : |rnd ((1 : ℝ) / 2 ^ 130) * rnd Real.pi| < 1 / 2 ^ 128 := by
    rw [abs_of_nonneg hp0]
    exact lt_of_le_of_lt hp1 (by norm_num)
  have hA := abs_le.mp (rnd_err_small _ 128 hprod)
  have hB : |rnd (rnd ((1 : ℝ) / 2 ^ 130) * rnd Real.pi)|
      ≤ (1 / 2 ^ 130 + 1 / 2 ^ (129 + 257)) * 3.2 + 1 / 2 ^ (128 + 257) := by
    rw [abs_le]
    have : (0 : ℝ) < 1 / 2 ^ (128 + 257) := by positivity
    have : (0 : ℝ) < (1 / 2 ^ 130 + 1 / 2 ^ (129 + 257)) * 3.2 := by positivity
    constructor <;> linarith
  rw [indicator256_def, h0, rnd_one, zero_add, rnd_one, h2]
  apply summand_one
  left
  apply rnd_near_one
  · have hc := Real.one_sub_sq_div_two_le_cos
      (x := rnd (rnd ((1 : ℝ) / 2 ^ 130) * rnd Real.pi))
    have hsq : (rnd (rnd ((1 : ℝ) / 2 ^ 130) * rnd Real.pi)) ^ 2
        ≤ ((1 / 2 ^ 130 + 1 / 2 ^ (129 + 257)) * 3.2 + 1 / 2 ^ (128 + 257)) ^ 2 :=
      sq_le_sq' (by linarith [(abs_le.mp hB).1]) (abs_le.mp hB).2
    have hnum : (((1 : ℝ) / 2 ^ 130 + 1 / 2 ^ (129 + 257)) * 3.2 + 1 / 2 ^ (128 + 257)) ^ 2 / 2
        < 1 / 2 ^ 257 := by norm_num
    linarith
  · exact Real.cos_le_one _

/-- The rounded summand agrees with the exact one for every residue `f < j ≤ 2 ^ 129`. -/
theorem indicator256_eq (f j : Nat) (hf : f < j) (hj : j ≤ 2 ^ 129) :
    indicator256 f j = indicator f j := by
  rw [indicator_eq f j (by omega)]
  by_cases hd : f + 1 = j
  · rw [indicator256_dvd f j hd hj, if_pos (by rw [hd])]
  · have hlt : f + 1 < j := by omega
    rw [indicator256_not_dvd f j hlt hj, if_neg (Nat.not_dvd_of_pos_of_lt (by omega) hlt)]

theorem two_pow_130_dvd_factorial : (2 ^ 130 - 1)! % 2 ^ 130 = 0 := by
  apply Nat.mod_eq_zero_of_dvd
  have e : 2 ^ 130 - 1 = 2 ^ 129 + (2 ^ 129 - 1) := by norm_num
  have e2 : 2 ^ 130 = 2 ^ 129 * 2 := by norm_num
  have h1 : 2 ^ 129 ∣ (2 ^ 129)! := Nat.dvd_factorial (by positivity) le_rfl
  have h2 : 2 ∣ (2 ^ 129 - 1)! := Nat.dvd_factorial (by norm_num) (by norm_num)
  have h3 := Nat.factorial_mul_factorial_dvd_factorial_add (2 ^ 129) (2 ^ 129 - 1)
  rw [e]
  nth_rewrite 1 [e2]
  exact dvd_trans (mul_dvd_mul h1 h2) h3

/-- C19, refuted as stated: at `j = 2 ^ 130` (in the range `1 ≤ j ≤ 2 ^ n` for `n = 130`) the
modular factorial `modFact(j - 1, j)` is `0`, the summand computed at 256 bits is `1` (the
rounded argument is below `2 ^ -128`, so its cosine is closer to `1` than to the next
number of 256 bits below `1`), and the exact summand is `0`. -/
theorem C19_counterexample :
    modFactNotCumulative (2 ^ 130) (2 ^ 130 - 1) (2 ^ 130) = some 0 ∧
    indicator256 0 (2 ^ 130) = 1 ∧
    indicator 0 (2 ^ 130) = 0 := by
  refine ⟨?_, indicator256_two_pow_130, ?_⟩
  · rw [modFactNotCumulative_eq (2 ^ 130) (2 ^ 130 - 1) (2 ^ 130) (by positivity)
      (by norm_num) (Or.inr (Or.inr (by norm_num))), if_pos (by norm_num),
      two_pow_130_dvd_factorial]
  · rw [indicator_eq 0 (2 ^ 130) (by positivity), if_neg]
    rw [Nat.zero_add, Nat.dvd_one]
    norm_num

/-- C19, amended: at the working precision of 256 bits, for every `j` with
`1 ≤ j ≤ 2 ^ 129` (the range used for `n ≤ 129`) the summand computed with `const_pi`, the
division, the product, the cosine and the square each rounded to 256 bits equals the exact
summand: for every residue `f < j`, and for the value `modFact(j - 1, j)` the stateless
evaluator returns, where both are `1` when `j = 1` or `j` is prime and `0` otherwise. -/
theorem C19_precision (fuel j f : Nat) (hj1 : 1 ≤ j) (hj : j ≤ 2 ^ 129) (hfuel : j ≤ fuel) :
    (f < j → indicator256 f j = indicator f j) ∧
    (∃ mf, modFactNotCumulative fuel (j - 1) j = some mf ∧
      indicator256 mf j = indicator mf j ∧
      indicator mf j = if j = 1 ∨ j.Prime then 1 else 0) := by
  refine ⟨fun hf => indicator256_eq f j hf hj, ?_⟩
  have hmf := modFactNotCumulative_eq fuel (j - 1) j (by omega) (by omega) (by omega)
  have hind := indOf_eq (init_cumulative false false) j hj1
    (fun h => by simp [init_cumulative] at h)
  have hval : valOf (init_cumulative false false) j = if 2 ≤ j - 1 then (j - 1)! % j else 1 := by
    simp [valOf, init_cumulative]
  unfold indOf at hind
  rw [hval] at hind
  refine ⟨_, hmf, ?_, hind⟩
  by_cases h1 : j = 1
  · subst h1
    rw [if_neg (by norm_num), indicator256_one_one, indicator_one]
  · apply indicator256_eq _ j _ hj
    by_cases h2 : 2 ≤ j - 1
    · rw [if_pos h2]; exact Nat.mod_lt _ (by omega)
    · rw [if_neg h2]; omega

/-- C19, amended, at the prime `j = 7` and the composite `j = 2 ^ 129`. -/
theorem C19_precision_witness :
    ((1 ≤ 7 ∧ 7 ≤ 2 ^ 129 ∧ 7 ≤ 8) ∧
      (∃ mf, modFactNotCumulative 8 (7 - 1) 7 = some mf ∧
        indicator256 mf 7 = indicator mf 7 ∧
        indicator mf 7 = if 7 = 1 ∨ Nat.Prime 7 then 1 else 0)) ∧
    ((1 ≤ 2 ^ 129 ∧ 2 ^ 129 ≤ 2 ^ 129 ∧ 2 ^ 129 ≤ 2 ^ 129) ∧
      ((0 < 2 ^ 129 → indicator256 0 (2 ^ 129) = indicator 0 (2 ^ 129)) ∧
        ∃ mf, modFactNotCumulative (2 ^ 129) (2 ^ 129 - 1) (2 ^ 129) = some mf ∧
          indicator256 mf (2 ^ 129) = indicator mf (2 ^ 129) ∧
          indicator mf (2 ^ 129) = if 2 ^ 129 = 1 ∨ Nat.Prime (2 ^ 129) then 1 else 0)) :=
  ⟨⟨by decide, (C19_precision 8 7 6 (by decide) (by decide) (by decide)).2⟩,
    ⟨by decide,
      C19_precision (2 ^ 129) (2 ^ 129) 0 (by decide) (by decide) (by decide)⟩⟩

end WF
